import Mathlib

/-!
FIX protocol descriptor loader (`fix_protocol_descr.c`)

A shallow embedding of the dictionary loader and of the descriptor lookups:
the libxml2 document tree, the protocol description built from it, the
hashed indices, and the lookup functions working on them.

Conventions of the embedding

* `xmlNodePtr` is a possibly-NULL pointer to a libxml2 node together with
  everything reachable from it through `children` (first child) and `next`
  (next sibling).
* An array with its element count (`fields`/`field_count`, `group`/`group_count`)
  is a list; `realloc` to one more element followed by a write to the last
  slot is an append.
* A bucket chain of `FIXFieldType` or `FIXMessageDescr` records (linked by
  their `next` member) is a list, head first.
* A `FIXFieldDescr*` is a path of array positions starting at the field array
  of the message (`FieldPtr`); the `next` members and the index slots hold such
  pointers, and the lookups follow them.
* Dereferencing NULL is the outcome `crash`; recursion that does not come
  back within the given depth of component references is `diverge`.
-/

set_option autoImplicit false

namespace FixParser

/-! ## libxml2 document tree -/

/-- Node kinds of libxml2 that can occur below the root of a dictionary. -/
inductive xmlElementType where
  | XML_ELEMENT_NODE
  | XML_TEXT_NODE
  | XML_COMMENT_NODE
deriving DecidableEq, Repr

/-- An attribute: `name` and the `content` of its text child. -/
structure xmlAttr where
  name : String
  content : String
deriving DecidableEq, Repr

/-- A pointer to a libxml2 node, or NULL. -/
inductive xmlNodePtr where
  | NULL
  | node (type : xmlElementType) (name : String) (properties : List xmlAttr)
      (children : xmlNodePtr) (next : xmlNodePtr)
deriving DecidableEq, Repr

/-- A parsed document: `children` is the first top-level node. -/
structure xmlDoc where
  children : xmlNodePtr
deriving DecidableEq, Repr

/-- The libxml2 function `xmlDocGetRootElement`: first element among the top-level nodes. -/
def xmlDocGetRootElement (doc : xmlDoc) : xmlNodePtr :=
  go doc.children
where
  /-- Scan of the top-level siblings. -/
  go : xmlNodePtr → xmlNodePtr
  | .NULL => .NULL
  | .node ty nm props ch nx =>
    if ty = .XML_ELEMENT_NODE then .node ty nm props ch nx else go nx

/-! ## Types of the library that the loader uses -/

/-- Modelled from the spec: the protocol versions FIX.4.0 … FIX.5.0SP2 of
`FIXProtocolVerEnum` (declared in fix_types.h, which is not among the sources),
and one more value for a string that names none of them. -/
inductive FIXProtocolVerEnum where
  | FIX40 | FIX41 | FIX42 | FIX43 | FIX44 | FIX50 | FIX50SP1 | FIX50SP2
  | invalid
deriving DecidableEq, Repr

/-- Modelled from the spec: the field kinds of `FIXFieldTypeEnum` (declared in
fix_types.h, which is not among the sources), and one more value for a string that
names none of them. -/
inductive FIXFieldTypeEnum where
  | Int | Length | NumInGroup | SeqNum | Char | Boolean | Float | Price | Qty | Amt
  | Percentage | String | MultipleValueString | Country | Currency | Exchange
  | MonthYear | UTCTimestamp | UTCTimeOnly | UTCDateOnly | LocalMktDate | Data
  | invalid
deriving DecidableEq, Repr

/-- The error codes the loader and the lookups set. -/
inductive FIXErrCode where
  | FIX_ERROR_LIBXML
  | FIX_ERROR_PROTOCOL_XML_LOAD_FAILED
  | FIX_ERROR_UNKNOWN_FIELD
  | FIX_ERROR_UNKNOWN_MSG
deriving DecidableEq, Repr

/-- Modelled from the spec: the parser context as the error sink; it keeps the
kind of the error reported last (`FIXParser` and `set_fix_error` are not among
the sources). -/
structure FIXParser where
  err_code : Option FIXErrCode
deriving DecidableEq, Repr

/-- Modelled from the spec: `set_fix_error` records the error kind in the parser context. -/
def set_fix_error (parser : FIXParser) (code : FIXErrCode) : FIXParser :=
  { parser with err_code := some code }

/-- What a call of the loader comes to: a value (`FIX_SUCCESS`, a non-NULL
pointer), a failure (`FIX_FAILED`, NULL), a NULL dereference, or recursion
deeper than the fuel. The parser context is carried along. -/
inductive Outcome (α : Type) where
  | ok (parser : FIXParser) (val : α)
  | failed (parser : FIXParser)
  | crash
  | diverge
deriving DecidableEq, Repr

/-- One record of the `field_types` table. `num` is a `uint32_t`. -/
structure FIXFieldType where
  num : Nat
  name : String
  type : FIXFieldTypeEnum
deriving DecidableEq, Repr

/-- A pointer to a `FIXFieldDescr`: the positions to follow, first in the field
array of the message, then in the `group` arrays. -/
abbrev FieldPtr := List Nat

/-- The record `FIXFieldDescr`. `group` is the array `group`/`group_count`,
`group_index` is NULL or an array of chain heads, `next` links the chain. -/
inductive FIXFieldDescr where
  | mk (field_type : FIXFieldType) (flags : Nat) (group : List FIXFieldDescr)
      (group_index : Option (List (Option FieldPtr))) (next : Option FieldPtr)

namespace FIXFieldDescr

/-- Member `field_type`. -/
def field_type : FIXFieldDescr → FIXFieldType
  | .mk ft _ _ _ _ => ft

/-- Member `flags`. -/
def flags : FIXFieldDescr → Nat
  | .mk _ fl _ _ _ => fl

/-- Member `group`. -/
def group : FIXFieldDescr → List FIXFieldDescr
  | .mk _ _ g _ _ => g

/-- Member `group_count`. -/
def group_count (d : FIXFieldDescr) : Nat := d.group.length

/-- Member `group_index`. -/
def group_index : FIXFieldDescr → Option (List (Option FieldPtr))
  | .mk _ _ _ gi _ => gi

/-- Member `next`. -/
def next : FIXFieldDescr → Option FieldPtr
  | .mk _ _ _ _ nx => nx

end FIXFieldDescr

/-- The record `FIXMessageDescr`, its chain link left to the bucket list. -/
structure FIXMessageDescr where
  name : String
  type : String
  fields : List FIXFieldDescr
  field_index : List (Option FieldPtr)

/-- The record `FIXProtocolDescr`: `field_types` has `FIELD_TYPE_CNT` buckets,
`messages` has `MSG_CNT` buckets. -/
structure FIXProtocolDescr where
  version : FIXProtocolVerEnum
  field_types : List (List FIXFieldType)
  messages : List (List FIXMessageDescr)

/-- What the loader takes from outside this file: the array dimensions and the
flag bit of fix_protocol_descr.h, the helpers of fix_utils, and libxml2 reading
and validating the file. The dimensions are positive, as C requires of an
array. `xml_validate` gives the parser context after the error handler has run
and whether the document is valid. -/
structure Env where
  FIELD_TYPE_CNT : Nat
  MSG_CNT : Nat
  FIELD_DESCR_CNT : Nat
  FIELD_FLAG_REQUIRED : Nat
  hash_string : String → Nat
  str2FIXProtocolVerEnum : Option String → FIXProtocolVerEnum
  str2FIXFIXFieldType : Option String → FIXFieldTypeEnum
  xmlParseFile : String → Option xmlDoc
  xml_validate : FIXParser → xmlDoc → FIXParser × Bool
  field_type_cnt_pos : 0 < FIELD_TYPE_CNT
  msg_cnt_pos : 0 < MSG_CNT
  field_descr_cnt_pos : 0 < FIELD_DESCR_CNT

/-! ## libc -/

/-- The libc predicate `isspace` in the C locale. -/
def isspace (c : Char) : Bool :=
  c = ' ' || c = '\t' || c = '\n' || c = '\r' || c.toNat = 11 || c.toNat = 12

/-- The number that the decimal digits at the start of the characters stand for, read most
significant first up to the first other character, behind the digits already read. -/
def atoi_digits : Nat → List Char → Nat
  | acc, [] => acc
  | acc, c :: cs =>
    if 48 ≤ c.toNat ∧ c.toNat ≤ 57 then atoi_digits (acc * 10 + (c.toNat - 48)) cs else acc

/-- The value of a C conversion to `int32_t`. -/
def to_int32 (i : Int) : Int := (i + 2147483648) % 4294967296 - 2147483648

/-- The libc function `strtol` in base 10, as glibc has it for a 64-bit `long`: white space,
an optional sign, decimal digits; a value outside `long` is `LONG_MAX` or `LONG_MIN`. -/
def strtol (s : String) : Int :=
  match s.toList.dropWhile isspace with
  | [] => 0
  | c :: cs =>
    if c = '-' then max (- (atoi_digits 0 cs : Int)) (-9223372036854775808)
    else if c = '+' then min (atoi_digits 0 cs : Int) 9223372036854775807
    else min (atoi_digits 0 (c :: cs) : Int) 9223372036854775807

/-- The libc function `atoi`, as glibc has it: `(int) strtol(nptr, NULL, 10)`. ISO C leaves
the value open when the number is outside `int`. -/
def atoi (s : String) : Int := to_int32 (strtol s)

/-- Conversion of an `int` to `uint32_t`. -/
def to_uint32 (i : Int) : Nat := (i % 4294967296).toNat

/-! ## Reading the tree -/

/-- The loop of `get_attr` over the attributes. -/
def get_attr_loop (attrName : String) : List xmlAttr → Option String
  | [] => none
  | attr :: rest => if attr.name = attrName then some attr.content else get_attr_loop attrName rest

/-- The function `get_attr`: the value of an attribute, NULL (`none`) without it. -/
def get_attr : xmlNodePtr → String → Option String
  | .NULL, _ => none
  | .node _ _ props _ _, attrName => get_attr_loop attrName props

/-- The loop of `get_first` over the siblings from `child` on. -/
def get_first_loop (name : String) : xmlNodePtr → xmlNodePtr
  | .NULL => .NULL
  | .node ty nm props ch nx =>
    if ty = .XML_ELEMENT_NODE ∧ nm = name then .node ty nm props ch nx
    else get_first_loop name nx

/-- The function `get_first`: the first child element of that name, NULL without
one; `none` when `node` itself is NULL, which the function dereferences. -/
def get_first : xmlNodePtr → String → Option xmlNodePtr
  | .NULL, _ => none
  | .node _ _ _ ch _, name => some (get_first_loop name ch)

/-- The function `get_version`. -/
def get_version (E : Env) (root : xmlNodePtr) : FIXProtocolVerEnum :=
  E.str2FIXProtocolVerEnum (get_attr root "version")

/-! ## Lookups in the protocol description -/

/-- The function `get_fix_field_type`: walk of the chain in the bucket of `name`. -/
def get_fix_field_type (E : Env) (prot : FIXProtocolDescr) (name : String) : Option FIXFieldType :=
  let idx := E.hash_string name % E.FIELD_TYPE_CNT
  (prot.field_types.getD idx []).find? (fun fld => fld.name = name)

/-- The function `get_fix_message_descr`: walk of the chain in the bucket of `type`. -/
def get_fix_message_descr (E : Env) (parser : FIXParser) (prot : FIXProtocolDescr) (type : String) :
    Outcome FIXMessageDescr :=
  let idx := E.hash_string type % E.MSG_CNT
  match (prot.messages.getD idx []).find? (fun msg => msg.type = type) with
  | some msg => .ok parser msg
  | none => .failed (set_fix_error parser .FIX_ERROR_UNKNOWN_MSG)

/-- Dereference of a `FIXFieldDescr*` in the field array `fields` of a message. -/
def field_at (fields : List FIXFieldDescr) : FieldPtr → Option FIXFieldDescr
  | [] => none
  | i :: rest =>
    match fields[i]? with
    | none => none
    | some d => if rest = [] then some d else field_at d.group rest

/-- The loop of `get_fix_field_descr` and `get_fix_group_field_descr`: follow
`next` from `fld` until the number matches. `fuel` bounds the number of steps. -/
def field_chain_walk (parser : FIXParser) (fields : List FIXFieldDescr) (num : Nat) :
    Nat → Option FieldPtr → Outcome FieldPtr
  | 0, _ => .diverge
  | _ + 1, none => .failed (set_fix_error parser .FIX_ERROR_UNKNOWN_FIELD)
  | fuel + 1, some fld =>
    match field_at fields fld with
    | none => .crash
    | some d => if d.field_type.num = num then .ok parser fld else field_chain_walk parser fields num fuel d.next

/-- The function `get_fix_field_descr`. -/
def get_fix_field_descr (E : Env) (fuel : Nat) (parser : FIXParser) (msg : FIXMessageDescr)
    (num : Nat) : Outcome FieldPtr :=
  let idx := num % E.FIELD_DESCR_CNT
  match msg.field_index[idx]? with
  | none => .crash
  | some fld => field_chain_walk parser msg.fields num fuel fld

/-- The function `get_fix_group_field_descr`; `field` points into the field array `fields` of
the message. -/
def get_fix_group_field_descr (E : Env) (fuel : Nat) (parser : FIXParser)
    (fields : List FIXFieldDescr) (field : FieldPtr) (num : Nat) : Outcome FieldPtr :=
  let idx := num % E.FIELD_DESCR_CNT
  match field_at fields field with
  | none => .crash
  | some g =>
    match g.group_index with
    | none => .crash
    | some index =>
      match index[idx]? with
      | none => .crash
      | some fld => field_chain_walk parser fields num fuel fld

/-! ## The loader -/

/-- The loop of `load_field_types` over the siblings from `field` on. -/
def load_field_types_loop (E : Env) (parser : FIXParser) :
    FIXProtocolDescr → xmlNodePtr → Outcome FIXProtocolDescr
  | prot, .NULL => .ok parser prot
  | prot, .node ty nm props _ nx =>
    if ty = .XML_ELEMENT_NODE ∧ nm = "field" then
      match get_fix_field_type E prot nm with
      | some _ => .failed (set_fix_error parser .FIX_ERROR_UNKNOWN_FIELD)
      | none =>
        match get_attr_loop "number" props, get_attr_loop "name" props with
        | some number, some name =>
          let fld : FIXFieldType :=
            { num := to_uint32 (atoi number), name := name,
              type := E.str2FIXFIXFieldType (get_attr_loop "type" props) }
          let idx := E.hash_string fld.name % E.FIELD_TYPE_CNT
          load_field_types_loop E parser
            { prot with field_types := prot.field_types.set idx (fld :: prot.field_types.getD idx []) } nx
        | _, _ => .crash
    else load_field_types_loop E parser prot nx

/-- The function `load_field_types`. -/
def load_field_types (E : Env) (parser : FIXParser) (prot : FIXProtocolDescr) (root : xmlNodePtr) :
    Outcome FIXProtocolDescr :=
  match get_first root "fields" with
  | none => .crash
  | some fields =>
    match get_first fields "field" with
    | none => .crash
    | some field => load_field_types_loop E parser prot field

/-- The loop over the components in the `component` branch of `load_fields`: every element
from `component` on whose `name` equals `component_name` is loaded by `load`. -/
def load_components (load : FIXParser → List FIXFieldDescr → xmlNodePtr → Outcome (List FIXFieldDescr))
    (component_name : Option String) :
    FIXParser → List FIXFieldDescr → xmlNodePtr → Outcome (List FIXFieldDescr)
  | parser, fields, .NULL => .ok parser fields
  | parser, fields, .node ty nm props ch nx =>
    if ty = .XML_ELEMENT_NODE then
      match component_name, get_attr_loop "name" props with
      | some cn, some name =>
        if cn = name then
          match load parser fields (.node ty nm props ch nx) with
          | .ok parser1 fields1 => load_components load component_name parser1 fields1 nx
          | .failed parser1 => .failed parser1
          | .crash => .crash
          | .diverge => .diverge
        else load_components load component_name parser fields nx
      | _, _ => .crash
    else load_components load component_name parser fields nx

/-- The loop of `load_fields` over the siblings from `field` on. The call of
`load_fields` for a group goes to the children of the group element and is
this loop again; the call for a component is `load`. -/
def load_fields_loop (E : Env) (prot : FIXProtocolDescr) (root : xmlNodePtr)
    (load : FIXParser → List FIXFieldDescr → xmlNodePtr → Outcome (List FIXFieldDescr)) :
    FIXParser → List FIXFieldDescr → xmlNodePtr → Outcome (List FIXFieldDescr)
  | parser, fields, .NULL => .ok parser fields
  | parser, fields, .node ty nm props ch nx =>
    if ty = .XML_ELEMENT_NODE ∧ nm = "field" then
      match get_attr_loop "name" props with
      | none => .crash
      | some name =>
        match get_fix_field_type E prot name with
        | none => .failed (set_fix_error parser .FIX_ERROR_UNKNOWN_FIELD)
        | some ft =>
          match get_attr_loop "required" props with
          | none => .crash
          | some required =>
            let flags := if required = "Y" then 0 ||| E.FIELD_FLAG_REQUIRED else 0
            load_fields_loop E prot root load parser (fields ++ [.mk ft flags [] none none]) nx
    else if ty = .XML_ELEMENT_NODE ∧ nm = "component" then
      match get_first root "components" with
      | none => .crash
      | some components =>
        match get_first components "component" with
        | none => .crash
        | some component =>
          match load_components load (get_attr_loop "name" props) parser fields component with
          | .ok parser1 fields1 => load_fields_loop E prot root load parser1 fields1 nx
          | .failed parser1 => .failed parser1
          | .crash => .crash
          | .diverge => .diverge
    else if ty = .XML_ELEMENT_NODE ∧ nm = "group" then
      match get_attr_loop "name" props with
      | none => .crash
      | some name =>
        match get_fix_field_type E prot name with
        | none => .failed (set_fix_error parser .FIX_ERROR_UNKNOWN_FIELD)
        | some ft =>
          match get_attr_loop "required" props with
          | none => .crash
          | some required =>
            let flags := if required = "Y" then 0 ||| E.FIELD_FLAG_REQUIRED else 0
            let group_index := List.replicate E.FIELD_DESCR_CNT (none : Option FieldPtr)
            match load_fields_loop E prot root load parser [] ch with
            | .ok parser1 group =>
              load_fields_loop E prot root load parser1
                (fields ++ [.mk ft flags group (some group_index) none]) nx
            | .failed parser1 => .failed parser1
            | .crash => .crash
            | .diverge => .diverge
    else load_fields_loop E prot root load parser fields nx

/-- The function `load_fields`. `fuel` bounds the depth of component references
followed; nested groups take none. -/
def load_fields (E : Env) (prot : FIXProtocolDescr) (root : xmlNodePtr) :
    Nat → FIXParser → List FIXFieldDescr → xmlNodePtr → Outcome (List FIXFieldDescr)
  | 0, _, _, _ => .diverge
  | _ + 1, _, _, .NULL => .crash
  | fuel + 1, parser, fields, .node _ _ _ ch _ =>
    load_fields_loop E prot root (load_fields E prot root fuel) parser fields ch

mutual
/-- The body of the loop of `build_index` for the descriptor at `self`, its chain link set
to `next`: the branch `if (fld->group_count)`. -/
def build_index_fld (E : Env) (self : FieldPtr) (next : Option FieldPtr) :
    FIXFieldDescr → Option FIXFieldDescr
  | .mk ft fl g gi _ =>
    if g.length = 0 then some (.mk ft fl g gi next)
    else
      match gi with
      | none => none
      | some index =>
        match build_index_from E self 0 g index with
        | none => none
        | some r => some (.mk ft fl r.1 (some r.2) next)
termination_by structural d => d
/-- The function `build_index` from position `i` of the array at `base` on; `none` is an
access outside `index` or through a NULL `group_index`. -/
def build_index_from (E : Env) (base : FieldPtr) (i : Nat) :
    List FIXFieldDescr → List (Option FieldPtr) → Option (List FIXFieldDescr × List (Option FieldPtr))
  | [], index => some ([], index)
  | fld :: rest, index =>
    let idx := fld.field_type.num % E.FIELD_DESCR_CNT
    match index[idx]? with
    | none => none
    | some head =>
      match build_index_fld E (base ++ [i]) head fld with
      | none => none
      | some fld1 =>
        match build_index_from E base (i + 1) rest (index.set idx (some (base ++ [i]))) with
        | none => none
        | some r => some (fld1 :: r.1, r.2)
termination_by structural l => l
end

/-- The function `build_index`. -/
def build_index (E : Env) (fields : List FIXFieldDescr) (index : List (Option FieldPtr)) :
    Option (List FIXFieldDescr × List (Option FieldPtr)) :=
  build_index_from E [] 0 fields index

/-- The function `load_message`. -/
def load_message (E : Env) (fuel : Nat) (parser : FIXParser) (msg_node root : xmlNodePtr)
    (prot : FIXProtocolDescr) : Outcome FIXMessageDescr :=
  match get_attr msg_node "name", get_attr msg_node "type" with
  | some name, some type =>
    match load_fields E prot root fuel parser [] msg_node with
    | .ok parser1 fields =>
      match build_index E fields (List.replicate E.FIELD_DESCR_CNT none) with
      | none => .crash
      | some r => .ok parser1 { name := name, type := type, fields := r.1, field_index := r.2 }
    | .failed parser1 => .failed parser1
    | .crash => .crash
    | .diverge => .diverge
  | _, _ => .crash

/-- The loop of `fix_protocol_descr_init` over the siblings from `msg_node` on. -/
def load_messages_loop (E : Env) (fuel : Nat) (root : xmlNodePtr) :
    FIXParser → FIXProtocolDescr → xmlNodePtr → Outcome FIXProtocolDescr
  | parser, prot, .NULL => .ok parser prot
  | parser, prot, .node ty nm props ch nx =>
    if ty = .XML_ELEMENT_NODE ∧ nm = "message" then
      match load_message E fuel parser (.node ty nm props ch nx) root prot with
      | .ok parser1 msg =>
        let idx := E.hash_string msg.type % E.MSG_CNT
        load_messages_loop E fuel root parser1
          { prot with messages := prot.messages.set idx (msg :: prot.messages.getD idx []) } nx
      | .failed parser1 => .failed parser1
      | .crash => .crash
      | .diverge => .diverge
    else load_messages_loop E fuel root parser prot nx

/-- The function `fix_protocol_descr_init`. -/
def fix_protocol_descr_init (E : Env) (fuel : Nat) (parser : FIXParser) (file : String) :
    Outcome FIXProtocolDescr :=
  match E.xmlParseFile file with
  | none => .failed (set_fix_error parser .FIX_ERROR_PROTOCOL_XML_LOAD_FAILED)
  | some doc =>
    match E.xml_validate parser doc with
    | (parser1, false) => .failed parser1
    | (parser1, true) =>
      match xmlDocGetRootElement doc with
      | .NULL => .failed (set_fix_error parser1 .FIX_ERROR_PROTOCOL_XML_LOAD_FAILED)
      | root =>
        let prot : FIXProtocolDescr :=
          { version := get_version E root,
            field_types := List.replicate E.FIELD_TYPE_CNT [],
            messages := List.replicate E.MSG_CNT [] }
        match load_field_types E parser1 prot root with
        | .ok parser2 prot1 =>
          match get_first root "messages" with
          | none => .crash
          | some messages =>
            match get_first messages "message" with
            | none => .crash
            | some msg_node => load_messages_loop E fuel root parser2 prot1 msg_node
        | .failed parser2 => .failed parser2
        | .crash => .crash
        | .diverge => .diverge

/-! ## Outcomes -/

/-- The outcome with the value mapped. -/
def Outcome.map {α β : Type} (f : α → β) : Outcome α → Outcome β
  | .ok p a => .ok p (f a)
  | .failed p => .failed p
  | .crash => .crash
  | .diverge => .diverge

/-- Whether the outcome is a value. -/
def Outcome.isOk {α : Type} : Outcome α → Bool
  | .ok _ _ => true
  | _ => false

/-- Whether the call came back, with a value or with a failure. -/
def Outcome.settled {α : Type} : Outcome α → Bool
  | .ok _ _ => true
  | .failed _ => true
  | _ => false

/-- The loaded description of an outcome, an empty one when there is none. -/
def Outcome.prot : Outcome FIXProtocolDescr → FIXProtocolDescr
  | .ok _ prot => prot
  | _ => { version := .invalid, field_types := [], messages := [] }

/-- The node at a pointer and the siblings after it, in document order. -/
def siblings : xmlNodePtr → List xmlNodePtr
  | .NULL => []
  | .node ty nm props ch nx => .node ty nm props ch nx :: siblings nx

/-- Member `children` of a node; NULL for NULL. -/
def xmlNodePtr.children : xmlNodePtr → xmlNodePtr
  | .NULL => .NULL
  | .node _ _ _ ch _ => ch

/-- Whether the pointer is at an element of that name. -/
def is_element (name : String) : xmlNodePtr → Bool
  | .NULL => false
  | .node ty nm _ _ _ => ty = .XML_ELEMENT_NODE ∧ nm = name

/-- Whether the pointer is at an element, of whatever name. -/
def is_any_element : xmlNodePtr → Bool
  | .NULL => false
  | .node ty _ _ _ _ => decide (ty = .XML_ELEMENT_NODE)

/-- The elements called `name` among the children of the first child element
called `sect` of `root`, in document order. -/
def section_elements (root : xmlNodePtr) (sect name : String) : List xmlNodePtr :=
  match (siblings root.children).find? (is_element sect) with
  | none => []
  | some s => (siblings s.children).filter (is_element name)

/-- Whether the root has a section of that name. -/
def has_section (root : xmlNodePtr) (sect : String) : Bool :=
  ((siblings root.children).find? (is_element sect)).isSome

/-- The `<field>` elements of the `<fields>` section. -/
def field_elements (root : xmlNodePtr) : List xmlNodePtr := section_elements root "fields" "field"

/-- The `<message>` elements of the `<messages>` section. -/
def message_elements (root : xmlNodePtr) : List xmlNodePtr :=
  section_elements root "messages" "message"

/-- The `<component>` elements of the `<components>` section. -/
def component_elements (root : xmlNodePtr) : List xmlNodePtr :=
  section_elements root "components" "component"

/-- The component called `C`: the first `<component>` element of that name. -/
def find_component (root : xmlNodePtr) (C : String) : Option xmlNodePtr :=
  (component_elements root).find? (fun c => decide (get_attr c "name" = some C))

/-- The record that `load_field_types` makes of a `<field>` element having `number` and `name`. -/
def field_type_of (E : Env) (e : xmlNodePtr) : Option FIXFieldType :=
  match get_attr e "number", get_attr e "name" with
  | some number, some name =>
    some { num := to_uint32 (atoi number), name := name, type := E.str2FIXFIXFieldType (get_attr e "type") }
  | _, _ => none

/-- Whether the pointer is at a `<field>` element whose `name` is `N`. -/
def field_named (N : String) (e : xmlNodePtr) : Bool :=
  is_element "field" e && decide (get_attr e "name" = some N)

/-! ## The body of a message as the specification expands it -/

/-- The grammar of the `<components>` section: its child elements are `<component>` elements. -/
def components_section_ok (root : xmlNodePtr) : Bool :=
  match (siblings root.children).find? (is_element "components") with
  | none => true
  | some s => (siblings s.children).all (fun c => !is_any_element c || is_element "component" c)

/-- No two `<component>` elements have the same `name`. -/
def component_names_unique (root : xmlNodePtr) : Prop :=
  ((component_elements root).map (fun c => get_attr c "name")).Nodup

instance (root : xmlNodePtr) : Decidable (component_names_unique root) := by
  unfold component_names_unique; infer_instance

/-- The flags of a descriptor whose element has `required` as its attribute of that name. -/
def flags_of_required (E : Env) (required : String) : Nat :=
  if required = "Y" then 0 ||| E.FIELD_FLAG_REQUIRED else 0

/-- The expansion of a body as the specification words it, for the siblings from the pointer
on, in document order: a `<field>` gives one descriptor; a `<group>` gives one descriptor
whose subfields are the expansion of its own children; a `<component name="C"/>` gives, in
its place, the expansion `expand_component c` of the component `c` called `C` (nothing when
none is called so); anything else gives nothing. `none` when a name does not resolve or an
attribute is missing. -/
def expand_body (E : Env) (prot : FIXProtocolDescr) (root : xmlNodePtr)
    (expand_component : xmlNodePtr → Option (List FIXFieldDescr)) :
    xmlNodePtr → Option (List FIXFieldDescr)
  | .NULL => some []
  | .node ty nm props ch nx =>
    if ty = .XML_ELEMENT_NODE ∧ nm = "field" then
      match get_attr_loop "name" props, get_attr_loop "required" props with
      | some name, some required =>
        match get_fix_field_type E prot name, expand_body E prot root expand_component nx with
        | some ft, some rest => some (.mk ft (flags_of_required E required) [] none none :: rest)
        | _, _ => none
      | _, _ => none
    else if ty = .XML_ELEMENT_NODE ∧ nm = "group" then
      match get_attr_loop "name" props, get_attr_loop "required" props with
      | some name, some required =>
        match get_fix_field_type E prot name, expand_body E prot root expand_component ch,
          expand_body E prot root expand_component nx with
        | some ft, some sub, some rest =>
          some (.mk ft (flags_of_required E required) sub
            (some (List.replicate E.FIELD_DESCR_CNT none)) none :: rest)
        | _, _, _ => none
      | _, _ => none
    else if ty = .XML_ELEMENT_NODE ∧ nm = "component" then
      match (get_attr_loop "name" props).bind (find_component root) with
      | none => expand_body E prot root expand_component nx
      | some c =>
        match expand_component c, expand_body E prot root expand_component nx with
        | some inlined, some rest => some (inlined ++ rest)
        | _, _ => none
    else expand_body E prot root expand_component nx

/-- The expansion of the children of `container` (a message, a component), components
followed to depth `fuel`. -/
def expand_spec (E : Env) (prot : FIXProtocolDescr) (root : xmlNodePtr) :
    Nat → xmlNodePtr → Option (List FIXFieldDescr)
  | 0, _ => none
  | fuel + 1, container =>
    expand_body E prot root (expand_spec E prot root fuel) container.children

/-- Whether the attributes that `load_fields` reads are there, for the siblings from the
pointer on and inside their groups: `name` and `required` of a `<field>` and of a `<group>`,
`name` of a `<component>` reference. -/
def body_ok : xmlNodePtr → Bool
  | .NULL => true
  | .node ty nm props ch nx =>
    (if ty = .XML_ELEMENT_NODE ∧ nm = "field" then
      (get_attr_loop "name" props).isSome && (get_attr_loop "required" props).isSome
    else if ty = .XML_ELEMENT_NODE ∧ nm = "component" then
      (get_attr_loop "name" props).isSome
    else if ty = .XML_ELEMENT_NODE ∧ nm = "group" then
      (get_attr_loop "name" props).isSome && (get_attr_loop "required" props).isSome
        && body_ok ch
    else true) && body_ok nx

/-- The names that the `<component>` references among the siblings from the pointer on, and
inside their groups, refer to. -/
def body_refs : xmlNodePtr → List String
  | .NULL => []
  | .node ty nm props ch nx =>
    (if ty = .XML_ELEMENT_NODE ∧ nm = "component" then (get_attr_loop "name" props).toList
    else if ty = .XML_ELEMENT_NODE ∧ nm = "group" then body_refs ch
    else []) ++ body_refs nx

/-- The grammar of a dictionary as far as the loader relies on it: the three sections are
there, the `<fields>` entries have `number` and `name`, the messages have `name` and `type`,
the components have `name`, the `<components>` section holds components only, and the bodies
of messages and components have the attributes that `load_fields` reads. -/
def dictionary_ok (root : xmlNodePtr) : Bool :=
  has_section root "fields"
  && (field_elements root).all
      (fun f => (get_attr f "number").isSome && (get_attr f "name").isSome)
  && has_section root "messages"
  && (message_elements root).all
      (fun M => (get_attr M "name").isSome && (get_attr M "type").isSome && body_ok M.children)
  && has_section root "components"
  && components_section_ok root
  && (component_elements root).all
      (fun c => (get_attr c "name").isSome && body_ok c.children)

/-- The component references are acyclic, by a rank: every component refers only to names of
smaller rank than its own. -/
def components_ranked (root : xmlNodePtr) (rank : String → Nat) : Bool :=
  (component_elements root).all (fun c =>
    match get_attr c "name" with
    | some D => (body_refs c.children).all (fun C => decide (rank C < rank D))
    | none => true)

/-- The largest rank of a component. -/
def rank_bound (root : xmlNodePtr) (rank : String → Nat) : Nat :=
  ((component_elements root).filterMap (fun c => get_attr c "name")).foldr
    (fun D m => max (rank D) m) 0

/-! ## The index as a search of the array -/

/-- The position of the last entry of the array that satisfies `P`. -/
def last_pos (P : FIXFieldDescr → Bool) : List FIXFieldDescr → Option Nat
  | [] => none
  | d :: l =>
    match last_pos P l with
    | some k => some (k + 1)
    | none => if P d then some 0 else none

/-- Whether the descriptor is for the tag number `num`. -/
def has_num (num : Nat) (d : FIXFieldDescr) : Bool := decide (d.field_type.num = num)

mutual
/-- Whether the descriptor and every descriptor below it has, when it has subfields, a
`group_index` array of `FIELD_DESCR_CNT` NULL pointers, as `calloc` gives it. -/
def index_allocated (E : Env) : FIXFieldDescr → Bool
  | .mk _ _ g gi _ =>
    (decide (g.length = 0) || decide (gi = some (List.replicate E.FIELD_DESCR_CNT none)))
      && index_allocated_all E g
termination_by structural d => d
/-- The same of every entry of an array. -/
def index_allocated_all (E : Env) : List FIXFieldDescr → Bool
  | [] => true
  | d :: l => index_allocated E d && index_allocated_all E l
termination_by structural l => l
end

/-! ## Sample dictionaries -/

/-- An element node. -/
def el (name : String) (attrs : List xmlAttr) (children next : xmlNodePtr) : xmlNodePtr :=
  .node .XML_ELEMENT_NODE name attrs children next

/-- A text node between two elements. -/
def tx (next : xmlNodePtr) : xmlNodePtr :=
  .node .XML_TEXT_NODE "text" [] .NULL next

/-- Modelled from the spec: `str2FIXProtocolVerEnum` of fix_utils, which is not among the
sources, on the version strings FIX.4.0 … FIX.5.0SP2. -/
def sample_str2FIXProtocolVerEnum : Option String → FIXProtocolVerEnum
  | some "FIX.4.0" => .FIX40
  | some "FIX.4.1" => .FIX41
  | some "FIX.4.2" => .FIX42
  | some "FIX.4.3" => .FIX43
  | some "FIX.4.4" => .FIX44
  | some "FIX.5.0" => .FIX50
  | some "FIX.5.0SP1" => .FIX50SP1
  | some "FIX.5.0SP2" => .FIX50SP2
  | _ => .invalid

/-- Modelled from the spec: `str2FIXFIXFieldType` of fix_utils, which is not among the
sources, on some of the kind names. -/
def sample_str2FIXFIXFieldType : Option String → FIXFieldTypeEnum
  | some "Int" => .Int
  | some "NumInGroup" => .NumInGroup
  | some "String" => .String
  | some "Char" => .Char
  | _ => .invalid

/-- An environment for the samples: small tables, the length of a string as its hash, and a
libxml2 that finds the document `doc` in every file and validates it. -/
def sample_env (doc : xmlDoc) : Env where
  FIELD_TYPE_CNT := 3
  MSG_CNT := 2
  FIELD_DESCR_CNT := 4
  FIELD_FLAG_REQUIRED := 1
  hash_string := fun s => s.length
  str2FIXProtocolVerEnum := sample_str2FIXProtocolVerEnum
  str2FIXFIXFieldType := sample_str2FIXFIXFieldType
  xmlParseFile := fun _ => some doc
  xml_validate := fun p _ => (p, true)
  field_type_cnt_pos := by decide
  msg_cnt_pos := by decide
  field_descr_cnt_pos := by decide

/-- The numbers of the fields of the messages in the table, bucket by bucket. -/
def message_field_nums (prot : FIXProtocolDescr) : List (List (String × String × List Nat)) :=
  prot.messages.map (fun chain => chain.map (fun m => (m.name, m.type, m.fields.map (fun d => d.field_type.num))))

/-- A dictionary with one message `Logon` (type `A`): field `A`, component `C` (field `B`),
group `G` (field `B`). -/
def dict_logon : xmlDoc :=
  { children :=
      el "fix" [⟨"version", "FIX.4.4"⟩]
        (el "messages" []
          (el "message" [⟨"name", "Logon"⟩, ⟨"type", "A"⟩]
            (el "field" [⟨"name", "A"⟩, ⟨"required", "Y"⟩] .NULL
            (tx
            (el "component" [⟨"name", "C"⟩] .NULL
            (el "group" [⟨"name", "G"⟩, ⟨"required", "N"⟩]
              (el "field" [⟨"name", "B"⟩, ⟨"required", "Y"⟩] .NULL .NULL)
              .NULL))))
            .NULL)
        (el "components" []
          (el "component" [⟨"name", "C"⟩]
            (el "field" [⟨"name", "B"⟩, ⟨"required", "N"⟩] .NULL .NULL)
            .NULL)
        (el "fields" []
          (el "field" [⟨"name", "A"⟩, ⟨"number", "1"⟩, ⟨"type", "Int"⟩] .NULL
          (el "field" [⟨"name", "B"⟩, ⟨"number", "5"⟩, ⟨"type", "Int"⟩] .NULL
          (el "field" [⟨"name", "G"⟩, ⟨"number", "9"⟩, ⟨"type", "NumInGroup"⟩] .NULL .NULL)))
          .NULL)))
        .NULL }

/-- The message element of `dict_logon`. -/
def logon_message : xmlNodePtr :=
  get_first_loop "message" (get_first_loop "messages" (xmlDocGetRootElement dict_logon).children).children

/-- The field type table of `dict_logon` as loaded. -/
def logon_prot : FIXProtocolDescr :=
  (fix_protocol_descr_init (sample_env dict_logon) 2 ⟨none⟩ "fix44.xml").prot

/-- The message `Logon` of `dict_logon` as `load_message` returns it. -/
def logon_msg : FIXMessageDescr :=
  match load_message (sample_env dict_logon) 2 ⟨none⟩ logon_message
      (xmlDocGetRootElement dict_logon) logon_prot with
  | .ok _ msg => msg
  | _ => { name := "", type := "", fields := [], field_index := [] }

/-- The descriptor of group `G` in the message of `dict_logon`, at position 2. -/
def logon_group : FIXFieldDescr :=
  match field_at logon_msg.fields [2] with
  | some g => g
  | none => .mk ⟨0, "", .invalid⟩ 0 [] none none

/-- A dictionary whose `<fields>` section defines the name `A` twice, as 1 and as 2. -/
def dict_dup_field : xmlDoc :=
  { children :=
      el "fix" [⟨"version", "FIX.4.4"⟩]
        (el "messages" [] .NULL
        (el "fields" []
          (el "field" [⟨"name", "A"⟩, ⟨"number", "1"⟩, ⟨"type", "Int"⟩] .NULL
          (el "field" [⟨"name", "A"⟩, ⟨"number", "2"⟩, ⟨"type", "Int"⟩] .NULL .NULL))
          .NULL))
        .NULL }

/-- A dictionary with two messages of type `A`. -/
def dict_dup_message : xmlDoc :=
  { children :=
      el "fix" [⟨"version", "FIX.4.4"⟩]
        (el "messages" []
          (el "message" [⟨"name", "Logon"⟩, ⟨"type", "A"⟩]
            (el "field" [⟨"name", "X"⟩, ⟨"required", "Y"⟩] .NULL .NULL)
          (el "message" [⟨"name", "Logout"⟩, ⟨"type", "A"⟩]
            (el "field" [⟨"name", "Y"⟩, ⟨"required", "N"⟩] .NULL .NULL)
            .NULL))
        (el "fields" []
          (el "field" [⟨"name", "X"⟩, ⟨"number", "1"⟩, ⟨"type", "Int"⟩] .NULL
          (el "field" [⟨"name", "Y"⟩, ⟨"number", "2"⟩, ⟨"type", "Int"⟩] .NULL .NULL))
          .NULL))
        .NULL }

/-- A dictionary whose version is none of FIX.4.0 … FIX.5.0SP2. -/
def dict_bad_version : xmlDoc :=
  { children :=
      el "fix" [⟨"version", "FIX.9.9"⟩]
        (el "messages" []
          (el "message" [⟨"name", "Logon"⟩, ⟨"type", "A"⟩]
            (el "field" [⟨"name", "X"⟩, ⟨"required", "Y"⟩] .NULL .NULL)
            .NULL)
        (el "fields" []
          (el "field" [⟨"name", "X"⟩, ⟨"number", "1"⟩, ⟨"type", "Int"⟩] .NULL .NULL)
          .NULL))
        .NULL }

/-- A dictionary whose message refers to a component `C` while the `<components>` section
defines only `D`. -/
def dict_undefined_component : xmlDoc :=
  { children :=
      el "fix" [⟨"version", "FIX.4.4"⟩]
        (el "messages" []
          (el "message" [⟨"name", "Logon"⟩, ⟨"type", "A"⟩]
            (el "field" [⟨"name", "X"⟩, ⟨"required", "Y"⟩] .NULL
            (el "component" [⟨"name", "C"⟩] .NULL
            (el "field" [⟨"name", "Y"⟩, ⟨"required", "N"⟩] .NULL .NULL)))
            .NULL)
        (el "components" []
          (el "component" [⟨"name", "D"⟩]
            (el "field" [⟨"name", "Y"⟩, ⟨"required", "Y"⟩] .NULL .NULL)
            .NULL)
        (el "fields" []
          (el "field" [⟨"name", "X"⟩, ⟨"number", "1"⟩, ⟨"type", "Int"⟩] .NULL
          (el "field" [⟨"name", "Y"⟩, ⟨"number", "2"⟩, ⟨"type", "Int"⟩] .NULL .NULL))
          .NULL)))
        .NULL }

/-- The environment with another `str2FIXProtocolVerEnum`. -/
def Env.with_version_map (E : Env) (f : Option String → FIXProtocolVerEnum) : Env :=
  { E with str2FIXProtocolVerEnum := f }

/-- The description with another `version`. -/
def FIXProtocolDescr.with_version (prot : FIXProtocolDescr) (v : FIXProtocolVerEnum) :
    FIXProtocolDescr :=
  { prot with version := v }

/-- The descriptor at which the walk of `get_fix_message_descr` down the chain in the bucket
of `type` stops. -/
def message_of_type (E : Env) (prot : FIXProtocolDescr) (type : String) :
    Option FIXMessageDescr :=
  (prot.messages.getD (E.hash_string type % E.MSG_CNT) []).find? (fun msg => msg.type = type)

/-- The environment with another `hash_string` and another `MSG_CNT`. -/
def Env.with_hash (E : Env) (h : String → Nat) (cnt : Nat) (hpos : 0 < cnt) : Env :=
  { E with hash_string := h, MSG_CNT := cnt, msg_cnt_pos := hpos }

/-- A dictionary whose message `Logon` declares field `A` (number 1) with `required="Y"`, then
field `B`, then, through component `C`, field `A` again with `required="N"`. -/
def dict_dup_tag : xmlDoc :=
  { children :=
      el "fix" [⟨"version", "FIX.4.4"⟩]
        (el "messages" []
          (el "message" [⟨"name", "Logon"⟩, ⟨"type", "A"⟩]
            (el "field" [⟨"name", "A"⟩, ⟨"required", "Y"⟩] .NULL
            (el "field" [⟨"name", "B"⟩, ⟨"required", "N"⟩] .NULL
            (el "component" [⟨"name", "C"⟩] .NULL .NULL)))
            .NULL)
        (el "components" []
          (el "component" [⟨"name", "C"⟩]
            (el "field" [⟨"name", "A"⟩, ⟨"required", "N"⟩] .NULL .NULL)
            .NULL)
        (el "fields" []
          (el "field" [⟨"name", "A"⟩, ⟨"number", "1"⟩, ⟨"type", "Int"⟩] .NULL
          (el "field" [⟨"name", "B"⟩, ⟨"number", "5"⟩, ⟨"type", "Int"⟩] .NULL .NULL))
          .NULL)))
        .NULL }

/-- The message element of `dict_dup_tag`. -/
def dup_tag_message : xmlNodePtr :=
  get_first_loop "message"
    (get_first_loop "messages" (xmlDocGetRootElement dict_dup_tag).children).children

/-- The description of `dict_dup_tag` as loaded. -/
def dup_tag_prot : FIXProtocolDescr :=
  (fix_protocol_descr_init (sample_env dict_dup_tag) 2 ⟨none⟩ "fix44.xml").prot

/-- The message of `dict_dup_tag` as `load_message` returns it. -/
def dup_tag_msg : FIXMessageDescr :=
  match load_message (sample_env dict_dup_tag) 2 ⟨none⟩ dup_tag_message
      (xmlDocGetRootElement dict_dup_tag) dup_tag_prot with
  | .ok _ msg => msg
  | _ => { name := "", type := "", fields := [], field_index := [] }

/-- A dictionary whose `<fields>` section defines two names, `field` (number 1) and `B`
(number 2), and that has no messages. -/
def dict_field_named_field : xmlDoc :=
  { children :=
      el "fix" [⟨"version", "FIX.4.4"⟩]
        (el "messages" [] .NULL
        (el "fields" []
          (el "field" [⟨"name", "field"⟩, ⟨"number", "1"⟩, ⟨"type", "Int"⟩] .NULL
          (el "field" [⟨"name", "B"⟩, ⟨"number", "2"⟩, ⟨"type", "Int"⟩] .NULL .NULL))
          .NULL))
        .NULL }

/-- The record with the kind that `f` gives it. -/
def FIXFieldType.with_kind (f : FIXFieldType → FIXFieldTypeEnum) (ft : FIXFieldType) :
    FIXFieldType :=
  { ft with type := f ft }

/-- The description with the kinds of the records of its field type table replaced. -/
def FIXProtocolDescr.with_kinds (prot : FIXProtocolDescr) (f : FIXFieldType → FIXFieldTypeEnum) :
    FIXProtocolDescr :=
  { prot with field_types := prot.field_types.map (fun chain => chain.map (FIXFieldType.with_kind f)) }

mutual
/-- The descriptor with the kinds of the records that it and its subfields refer to
replaced. -/
def FIXFieldDescr.with_kinds (f : FIXFieldType → FIXFieldTypeEnum) : FIXFieldDescr → FIXFieldDescr
  | .mk ft fl g gi nx => .mk (ft.with_kind f) fl (with_kinds_all f g) gi nx
termination_by structural d => d
/-- The same of every entry of an array. -/
def with_kinds_all (f : FIXFieldType → FIXFieldTypeEnum) : List FIXFieldDescr → List FIXFieldDescr
  | [] => []
  | d :: l => d.with_kinds f :: with_kinds_all f l
termination_by structural l => l
end

/-- A dictionary whose message has a group `G` while the `<fields>` section defines `G` with
the kind `Int`. -/
def dict_group_int : xmlDoc :=
  { children :=
      el "fix" [⟨"version", "FIX.4.4"⟩]
        (el "messages" []
          (el "message" [⟨"name", "Logon"⟩, ⟨"type", "A"⟩]
            (el "group" [⟨"name", "G"⟩, ⟨"required", "Y"⟩]
              (el "field" [⟨"name", "B"⟩, ⟨"required", "N"⟩] .NULL .NULL)
              .NULL)
            .NULL)
        (el "fields" []
          (el "field" [⟨"name", "B"⟩, ⟨"number", "5"⟩, ⟨"type", "Int"⟩] .NULL
          (el "field" [⟨"name", "G"⟩, ⟨"number", "9"⟩, ⟨"type", "Int"⟩] .NULL .NULL))
          .NULL))
        .NULL }

/-- The description of `dict_group_int` as loaded. -/
def group_int_prot : FIXProtocolDescr :=
  (fix_protocol_descr_init (sample_env dict_group_int) 1 ⟨none⟩ "fix44.xml").prot

/-- The kinds with `NumInGroup` for the record called `G`. -/
def as_NumInGroup (G : String) (ft : FIXFieldType) : FIXFieldTypeEnum :=
  if ft.name = G then .NumInGroup else ft.type

/-- The component `C` of `dict_self_reference`: field `A`, then a reference to `C` itself. -/
def self_reference_component : xmlNodePtr :=
  el "component" [⟨"name", "C"⟩]
    (el "field" [⟨"name", "A"⟩, ⟨"required", "Y"⟩] .NULL
    (el "component" [⟨"name", "C"⟩] .NULL .NULL))
    .NULL

/-- The message of `dict_self_reference`: a reference to component `C`. -/
def self_reference_message : xmlNodePtr :=
  el "message" [⟨"name", "Logon"⟩, ⟨"type", "A"⟩]
    (el "component" [⟨"name", "C"⟩] .NULL .NULL)
    .NULL

/-- A dictionary whose component `C` refers to itself. -/
def dict_self_reference : xmlDoc :=
  { children :=
      el "fix" [⟨"version", "FIX.4.4"⟩]
        (el "messages" [] self_reference_message
        (el "components" [] self_reference_component
        (el "fields" []
          (el "field" [⟨"name", "A"⟩, ⟨"number", "1"⟩, ⟨"type", "Int"⟩] .NULL .NULL)
          .NULL)))
        .NULL }

/-- The field type table of `dict_self_reference`, as `load_field_types` makes it. -/
def self_reference_prot : FIXProtocolDescr :=
  (load_field_types (sample_env dict_self_reference) ⟨none⟩
    ⟨.FIX44, List.replicate 3 [], List.replicate 2 []⟩
    (xmlDocGetRootElement dict_self_reference)).prot

/-! ## Tag tables and messages, as the specification describes them -/

/-- Modelled from the spec: the error kinds of section 6; `fix_types.h`, which declares the
codes, is not among the sources. -/
inductive ErrorKind where
  | LibraryXML
  | ProtocolXMLLoadFailed
  | UnknownField
  | UnknownMsg
  | WrongType
  | NotGroup
  | NotFound
  | NoMoreSpace
  | OutOfMemory
  | InvalidArgument
deriving DecidableEq, Repr

/-- Modelled from the spec: `TagValue` of section 3, a tagged union; the tag table of the
library (`FIXTagTable`, `FIXTag` of fix_message.h) is declared only. Bytes are numbers; a
double is its 64 bits; a group holds its occurrences in order, each a table of entries. -/
inductive TagValue where
  | Long (v : Int)
  | ULong (v : Nat)
  | Char (v : Nat)
  | Double (bits : Nat)
  | String (bytes : List Nat)
  | Data (bytes : List Nat)
  | Group (occurrences : List (List (Nat × TagValue)))

/-- Modelled from the spec: `TagTable` of section 3. The list holds the entries in the order
in which their tags were first set, so it stands for `entries` and for `insertion_order`;
the operations keep every tag number at most once in it. -/
abbrev TagTable := List (Nat × TagValue)

/-- Modelled from the spec: `get(tag)` of section 4.2. -/
def tag_table_get : TagTable → Nat → Option TagValue
  | [], _ => none
  | e :: rest, tag => if e.1 = tag then some e.2 else tag_table_get rest tag

/-- Modelled from the spec: `set(tag, value)` of section 4.2: a tag that is absent is
appended to the insertion order; the value of a tag that is present is replaced in place. -/
def tag_table_set : TagTable → Nat → TagValue → TagTable
  | [], tag, v => [(tag, v)]
  | e :: rest, tag, v => if e.1 = tag then (tag, v) :: rest else e :: tag_table_set rest tag v

/-- Modelled from the spec: `del(tag)` of section 4.2: the table without the tag, and whether
the tag was present. -/
def tag_table_del : TagTable → Nat → TagTable × Bool
  | [], _ => ([], false)
  | e :: rest, tag =>
    if e.1 = tag then (rest, true)
    else ((e :: (tag_table_del rest tag).1), (tag_table_del rest tag).2)

/-- Modelled from the spec: `add_group_occurrence(tag)` of section 4.2: the entry at `tag`,
made when absent, has to be a group; a fresh empty table is appended to its occurrences.
The result is the table and the index of the new occurrence; `none` when the entry is not a
group. -/
def add_group_occurrence (t : TagTable) (tag : Nat) : Option (TagTable × Nat) :=
  match tag_table_get t tag with
  | none => some (tag_table_set t tag (.Group [[]]), 0)
  | some (.Group occurrences) =>
    some (tag_table_set t tag (.Group (occurrences ++ [[]])), occurrences.length)
  | some _ => none

/-- Modelled from the spec: `get_group_occurrence(tag, index)` of section 4.2. -/
def get_group_occurrence (t : TagTable) (tag index : Nat) : Option TagTable :=
  match tag_table_get t tag with
  | some (.Group occurrences) => occurrences[index]?
  | _ => none

/-- Modelled from the spec: `del_group_occurrence(tag, index)` of section 4.2: removal by
zero-based index; when no occurrence is left the group entry is removed. The result is the
table and whether an occurrence was removed. -/
def del_group_occurrence (t : TagTable) (tag index : Nat) : TagTable × Bool :=
  match tag_table_get t tag with
  | some (.Group occurrences) =>
    if index < occurrences.length then
      if (occurrences.eraseIdx index).length = 0 then ((tag_table_del t tag).1, true)
      else (tag_table_set t tag (.Group (occurrences.eraseIdx index)), true)
    else (t, false)
  | _ => (t, false)

/-- Modelled from the spec: the count stored at a group tag, which section 3 defines as the
number of occurrences that the entry holds. -/
def group_count (t : TagTable) (tag : Nat) : Option Nat :=
  match tag_table_get t tag with
  | some (.Group occurrences) => some occurrences.length
  | _ => none

/-- The flag `FIX_MESSAGE_FLAGS_VALIDATE` of fix_message.h. -/
def FIX_MESSAGE_FLAGS_VALIDATE : Nat := 1

/-- The struct `FIXMessage_` of fix_message.h; the type of `tags` is modelled from the
spec. -/
structure FIXMessage where
  descr : FIXMessageDescr
  tags : TagTable
  flags : Nat

/-- Modelled from the spec: the handle of a group occurrence (`FIXGroup*` of fix_msg.h, whose
type is not among the sources): the place of the occurrence's table, as the tags and
indices that lead to it from the root table, and the descriptor of the group that the
handle is bound to when the message is validated. -/
structure FIXGroup where
  path : List (Nat × Nat)
  descr : Option FieldPtr

/-- Modelled from the spec: what an operation on a message comes to: a value, one error
kind, or no return (a NULL dereference, a walk without end) when the descriptor lookup that
it makes has none. -/
inductive MsgOutcome (α : Type) where
  | ok (val : α)
  | error (kind : ErrorKind)
  | crash
  | diverge

/-- Modelled from the spec: the dereference of a group handle: the table of the occurrence
at the end of a path of tags and indices. -/
def table_at : List (Nat × Nat) → TagTable → Option TagTable
  | [], t => some t
  | (tag, index) :: rest, t =>
    match get_group_occurrence t tag index with
    | none => none
    | some occurrence => table_at rest occurrence

/-- Modelled from the spec: the write through a group handle: the root table with the table
at the end of the path replaced by `new`. -/
def table_put (new : TagTable) : List (Nat × Nat) → TagTable → Option TagTable
  | [], _ => some new
  | (tag, index) :: rest, t =>
    match tag_table_get t tag with
    | some (.Group occurrences) =>
      match occurrences[index]? with
      | none => none
      | some occurrence =>
        match table_put new rest occurrence with
        | none => none
        | some occurrence1 => some (tag_table_set t tag (.Group (occurrences.set index occurrence1)))
    | _ => none

/-- Modelled from the spec: the path of the parent table of an operation, the root table for
NULL. -/
def group_path : Option FIXGroup → List (Nat × Nat)
  | none => []
  | some grp => grp.path

/-- Modelled from the spec: the outcome of one of the lookups of fix_protocol_descr.c as the
outcome of an operation on a message; a failed lookup is `UnknownField`. -/
def MsgOutcome.of_lookup : Outcome FieldPtr → MsgOutcome FieldPtr
  | .ok _ fld => .ok fld
  | .failed _ => .error .UnknownField
  | .crash => .crash
  | .diverge => .diverge

/-- Modelled from the spec: the descriptor lookup of the setters and group operations of
section 4.3. Without `VALIDATE` there is none. With it the tag is looked up in the
`field_index` of the message descriptor when the parent is the root (`get_fix_field_descr`),
and in the `group_index` of the descriptor that the parent handle is bound to otherwise
(`get_fix_group_field_descr`); the walks get one step more than the array has entries. The
result is the pointer found and the descriptor at it. -/
def find_field_descr (E : Env) (msg : FIXMessage) (grp : Option FIXGroup) (tagNum : Nat) :
    MsgOutcome (Option (FieldPtr × FIXFieldDescr)) :=
  if msg.flags &&& FIX_MESSAGE_FLAGS_VALIDATE = 0 then .ok none
  else
    let found : MsgOutcome FieldPtr :=
      match grp with
      | none =>
        MsgOutcome.of_lookup
          (get_fix_field_descr E (msg.descr.fields.length + 1) ⟨none⟩ msg.descr tagNum)
      | some g =>
        match g.descr with
        | none => .error .InvalidArgument
        | some field =>
          match field_at msg.descr.fields field with
          | none => .crash
          | some d =>
            MsgOutcome.of_lookup
              (get_fix_group_field_descr E (d.group.length + 1) ⟨none⟩ msg.descr.fields field
                tagNum)
    match found with
    | .ok fld =>
      match field_at msg.descr.fields fld with
      | none => .crash
      | some d => .ok (some (fld, d))
    | .error kind => .error kind
    | .crash => .crash
    | .diverge => .diverge

/-- Modelled from the spec: the kinds that the integer setters accept. -/
def integer_kind : FIXFieldTypeEnum → Bool
  | .Int | .Length | .NumInGroup | .SeqNum => true
  | _ => false

/-- Modelled from the spec: the kinds that the double setter accepts. -/
def fraction_kind : FIXFieldTypeEnum → Bool
  | .Float | .Price | .Qty | .Amt | .Percentage => true
  | _ => false

/-- Modelled from the spec: the kinds that the char setter accepts. -/
def char_kind : FIXFieldTypeEnum → Bool
  | .Char | .Boolean => true
  | _ => false

/-- Modelled from the spec: the textual kinds, which the string setter accepts. -/
def textual_kind : FIXFieldTypeEnum → Bool
  | .String | .MultipleValueString | .Country | .Currency | .Exchange | .MonthYear
  | .UTCTimestamp | .UTCTimeOnly | .UTCDateOnly | .LocalMktDate => true
  | _ => false

/-- Modelled from the spec: the kind that the data setter accepts. -/
def data_kind : FIXFieldTypeEnum → Bool
  | .Data => true
  | _ => false

/-- Modelled from the spec: the common part of the setters of section 4.3: the descriptor
lookup when `VALIDATE` is set, the check of the kind against the setter, and only then the
write through to the table of the parent. A parent handle that leads to no table is
`InvalidArgument`. -/
def set_tag_value (E : Env) (msg : FIXMessage) (grp : Option FIXGroup) (tagNum : Nat)
    (accepts : FIXFieldTypeEnum → Bool) (value : TagValue) : MsgOutcome FIXMessage :=
  match find_field_descr E msg grp tagNum with
  | .ok descr =>
    if (match descr with
        | none => true
        | some d => accepts d.2.field_type.type) then
      match table_at (group_path grp) msg.tags with
      | none => .error .InvalidArgument
      | some t =>
        match table_put (tag_table_set t tagNum value) (group_path grp) msg.tags with
        | none => .error .InvalidArgument
        | some tags => .ok { msg with tags := tags }
    else .error .WrongType
  | .error kind => .error kind
  | .crash => .crash
  | .diverge => .diverge

/-- Modelled from the spec: the common part of the getters of section 4.3: `NotFound` when
the tag is absent from the table of the parent. -/
def get_tag_value (msg : FIXMessage) (grp : Option FIXGroup) (tagNum : Nat) : MsgOutcome TagValue :=
  match table_at (group_path grp) msg.tags with
  | none => .error .InvalidArgument
  | some t =>
    match tag_table_get t tagNum with
    | none => .error .NotFound
    | some value => .ok value

/-- The value of a C conversion to `int64_t`. -/
def to_int64 (i : Int) : Int :=
  (i + 9223372036854775808) % 18446744073709551616 - 9223372036854775808

/-- Modelled from the spec: `fix_msg_set_int32`, declared in fix_msg.h. -/
def fix_msg_set_int32 (E : Env) (msg : FIXMessage) (grp : Option FIXGroup) (tagNum : Nat)
    (val : Int) : MsgOutcome FIXMessage :=
  set_tag_value E msg grp tagNum integer_kind (.Long (to_int32 val))

/-- Modelled from the spec: `fix_msg_set_int64`, declared in fix_msg.h. -/
def fix_msg_set_int64 (E : Env) (msg : FIXMessage) (grp : Option FIXGroup) (tagNum : Nat)
    (val : Int) : MsgOutcome FIXMessage :=
  set_tag_value E msg grp tagNum integer_kind (.Long (to_int64 val))

/-- Modelled from the spec: `fix_msg_set_double`, declared in fix_msg.h; `val` is the double
as its 64 bits. -/
def fix_msg_set_double (E : Env) (msg : FIXMessage) (grp : Option FIXGroup) (tagNum : Nat)
    (val : Nat) : MsgOutcome FIXMessage :=
  set_tag_value E msg grp tagNum fraction_kind (.Double (val % 18446744073709551616))

/-- Modelled from the spec: `fix_msg_set_char`, declared in fix_msg.h. -/
def fix_msg_set_char (E : Env) (msg : FIXMessage) (grp : Option FIXGroup) (tagNum : Nat)
    (val : Nat) : MsgOutcome FIXMessage :=
  set_tag_value E msg grp tagNum char_kind (.Char (val % 256))

/-- Modelled from the spec: `fix_msg_set_string`, declared in fix_msg.h; `val` is the bytes
of the string before its zero. -/
def fix_msg_set_string (E : Env) (msg : FIXMessage) (grp : Option FIXGroup) (tagNum : Nat)
    (val : List Nat) : MsgOutcome FIXMessage :=
  set_tag_value E msg grp tagNum textual_kind (.String val)

/-- Modelled from the spec: `fix_msg_set_data`, declared in fix_msg.h; `data` is the
`dataLen` bytes. -/
def fix_msg_set_data (E : Env) (msg : FIXMessage) (grp : Option FIXGroup) (tagNum : Nat)
    (data : List Nat) : MsgOutcome FIXMessage :=
  set_tag_value E msg grp tagNum data_kind (.Data data)

/-- Modelled from the spec: `fix_msg_get_int32`, declared in fix_msg.h: `WrongType` when the
stored variant is not `Long`. -/
def fix_msg_get_int32 (msg : FIXMessage) (grp : Option FIXGroup) (tagNum : Nat) :
    MsgOutcome Int :=
  match get_tag_value msg grp tagNum with
  | .ok (.Long v) => .ok (to_int32 v)
  | .ok _ => .error .WrongType
  | .error kind => .error kind
  | .crash => .crash
  | .diverge => .diverge

/-- Modelled from the spec: `fix_msg_get_int64`, declared in fix_msg.h. -/
def fix_msg_get_int64 (msg : FIXMessage) (grp : Option FIXGroup) (tagNum : Nat) :
    MsgOutcome Int :=
  match get_tag_value msg grp tagNum with
  | .ok (.Long v) => .ok (to_int64 v)
  | .ok _ => .error .WrongType
  | .error kind => .error kind
  | .crash => .crash
  | .diverge => .diverge

/-- Modelled from the spec: `fix_msg_get_double`, declared in fix_msg.h. -/
def fix_msg_get_double (msg : FIXMessage) (grp : Option FIXGroup) (tagNum : Nat) :
    MsgOutcome Nat :=
  match get_tag_value msg grp tagNum with
  | .ok (.Double bits) => .ok bits
  | .ok _ => .error .WrongType
  | .error kind => .error kind
  | .crash => .crash
  | .diverge => .diverge

/-- Modelled from the spec: `fix_msg_get_char`, declared in fix_msg.h. -/
def fix_msg_get_char (msg : FIXMessage) (grp : Option FIXGroup) (tagNum : Nat) :
    MsgOutcome Nat :=
  match get_tag_value msg grp tagNum with
  | .ok (.Char v) => .ok v
  | .ok _ => .error .WrongType
  | .error kind => .error kind
  | .crash => .crash
  | .diverge => .diverge

/-- Modelled from the spec: `fix_msg_get_string`, declared in fix_msg.h: the bytes, whose
number is `len`. -/
def fix_msg_get_string (msg : FIXMessage) (grp : Option FIXGroup) (tagNum : Nat) :
    MsgOutcome (List Nat) :=
  match get_tag_value msg grp tagNum with
  | .ok (.String bytes) => .ok bytes
  | .ok _ => .error .WrongType
  | .error kind => .error kind
  | .crash => .crash
  | .diverge => .diverge

/-- Modelled from the spec: `fix_msg_get_data`, declared in fix_msg.h. -/
def fix_msg_get_data (msg : FIXMessage) (grp : Option FIXGroup) (tagNum : Nat) :
    MsgOutcome (List Nat) :=
  match get_tag_value msg grp tagNum with
  | .ok (.Data bytes) => .ok bytes
  | .ok _ => .error .WrongType
  | .error kind => .error kind
  | .crash => .crash
  | .diverge => .diverge

/-- Modelled from the spec: `fix_msg_add_group`, declared in fix_msg.h: the lookup of the
setters; with `VALIDATE` the descriptor has to have subfields, `NotGroup` otherwise; then
`add_group_occurrence` on the table of the parent. An entry at the tag that is not a group
is `InvalidArgument`. The handle returned is bound to the descriptor found. -/
def fix_msg_add_group (E : Env) (msg : FIXMessage) (grp : Option FIXGroup) (tagNum : Nat) :
    MsgOutcome (FIXMessage × FIXGroup) :=
  match find_field_descr E msg grp tagNum with
  | .ok descr =>
    if (match descr with
        | none => true
        | some d => decide (d.2.group.length ≠ 0)) then
      match table_at (group_path grp) msg.tags with
      | none => .error .InvalidArgument
      | some t =>
        match add_group_occurrence t tagNum with
        | none => .error .InvalidArgument
        | some added =>
          match table_put added.1 (group_path grp) msg.tags with
          | none => .error .InvalidArgument
          | some tags =>
            .ok ({ msg with tags := tags },
              { path := group_path grp ++ [(tagNum, added.2)], descr := descr.map (fun d => d.1) })
    else .error .NotGroup
  | .error kind => .error kind
  | .crash => .crash
  | .diverge => .diverge

/-- Modelled from the spec: `fix_msg_get_group`, declared in fix_msg.h: the lookup of the
setters, then `get_group_occurrence` on the table of the parent; `NotFound` without an
occurrence at the index. -/
def fix_msg_get_group (E : Env) (msg : FIXMessage) (grp : Option FIXGroup) (tagNum grpIdx : Nat) :
    MsgOutcome FIXGroup :=
  match find_field_descr E msg grp tagNum with
  | .ok descr =>
    match table_at (group_path grp) msg.tags with
    | none => .error .InvalidArgument
    | some t =>
      match get_group_occurrence t tagNum grpIdx with
      | none => .error .NotFound
      | some _ =>
        .ok { path := group_path grp ++ [(tagNum, grpIdx)], descr := descr.map (fun d => d.1) }
  | .error kind => .error kind
  | .crash => .crash
  | .diverge => .diverge

/-- Modelled from the spec: `fix_msg_del_group`, declared in fix_msg.h: the lookup of the
setters, then `del_group_occurrence` on the table of the parent; `NotFound` when it removes
nothing. -/
def fix_msg_del_group (E : Env) (msg : FIXMessage) (grp : Option FIXGroup) (tagNum grpIdx : Nat) :
    MsgOutcome FIXMessage :=
  match find_field_descr E msg grp tagNum with
  | .ok _ =>
    match table_at (group_path grp) msg.tags with
    | none => .error .InvalidArgument
    | some t =>
      if (del_group_occurrence t tagNum grpIdx).2 then
        match table_put (del_group_occurrence t tagNum grpIdx).1 (group_path grp) msg.tags with
        | none => .error .InvalidArgument
        | some tags => .ok { msg with tags := tags }
      else .error .NotFound
  | .error kind => .error kind
  | .crash => .crash
  | .diverge => .diverge

/-- Modelled from the spec: `N` consecutive calls of `fix_msg_add_group` for the same parent
and tag; the message after the last one. -/
def add_groups (E : Env) (msg : FIXMessage) (grp : Option FIXGroup) (tagNum : Nat) :
    Nat → MsgOutcome FIXMessage
  | 0 => .ok msg
  | n + 1 =>
    match add_groups E msg grp tagNum n with
    | .ok msg1 =>
      match fix_msg_add_group E msg1 grp tagNum with
      | .ok added => .ok added.1
      | .error kind => .error kind
      | .crash => .crash
      | .diverge => .diverge
    | .error kind => .error kind
    | .crash => .crash
    | .diverge => .diverge

/-! ## The encoder, as the specification describes it -/

/-- Modelled from the spec: the decimal digits of a number, without leading zeros, as
bytes. -/
def decimal (n : Nat) : List Nat := (Nat.toDigits 10 n).map Char.toNat

/-- Modelled from the spec: the decimal rendering of a signed number. -/
def decimal_int (i : Int) : List Nat :=
  if i < 0 then 45 :: decimal i.natAbs else decimal i.natAbs

/-- Modelled from the spec: the three digits of the `CheckSum` field, zero-padded. -/
def checksum_digits (n : Nat) : List Nat :=
  [48 + n / 100 % 10, 48 + n / 10 % 10, 48 + n % 10]

/-- Modelled from the spec: the bytes of a string of the descriptor. -/
def string_bytes (s : String) : List Nat := s.toList.map Char.toNat

/-- Modelled from the spec: one field on the wire, `<decimal tag>=<value bytes><delim>`. -/
def render_field (delimiter tag : Nat) (value : List Nat) : List Nat :=
  decimal tag ++ [61] ++ value ++ [delimiter]

mutual
/-- Modelled from the spec: the rendering of the entry of a tag. A group is its count tag
with the number of occurrences, then the fields of each occurrence. `fmt_double` is the
fixed-point rendering of a double, which the spec leaves open. -/
def render_tag (fmt_double : Nat → List Nat) (delimiter tag : Nat) : TagValue → List Nat
  | .Long v => render_field delimiter tag (decimal_int v)
  | .ULong v => render_field delimiter tag (decimal v)
  | .Char v => render_field delimiter tag [v]
  | .Double bits => render_field delimiter tag (fmt_double bits)
  | .String bytes => render_field delimiter tag bytes
  | .Data bytes => render_field delimiter tag bytes
  | .Group occurrences =>
    render_field delimiter tag (decimal occurrences.length)
      ++ render_occurrences fmt_double delimiter occurrences
termination_by structural v => v
/-- Modelled from the spec: the occurrences of a group one after the other, nothing between
them. -/
def render_occurrences (fmt_double : Nat → List Nat) (delimiter : Nat) :
    List (List (Nat × TagValue)) → List Nat
  | [] => []
  | t :: rest =>
    render_table fmt_double delimiter t ++ render_occurrences fmt_double delimiter rest
termination_by structural l => l
/-- Modelled from the spec: the entries of a table in insertion order. -/
def render_table (fmt_double : Nat → List Nat) (delimiter : Nat) :
    List (Nat × TagValue) → List Nat
  | [] => []
  | e :: rest =>
    render_tag fmt_double delimiter e.1 e.2 ++ render_table fmt_double delimiter rest
termination_by structural l => l
end

/-- Modelled from the spec: what `fix_msg_to_fix` returns: the bytes written to `buff`, or
`NoMoreSpace` with the length needed in `reqBuffLen`. -/
inductive EncodeResult where
  | FIX_SUCCESS (buff : List Nat)
  | FIX_FAILED (kind : ErrorKind) (reqBuffLen : Nat)
deriving DecidableEq, Repr

/-- Modelled from the spec: the bytes of steps 1 to 4 of section 4.4: `BeginString` from the
version of the protocol (`version_str` is its text), `BodyLength` with the number of bytes
behind its delimiter and before `CheckSum`, `MsgType` with the type string of the
descriptor, then the tags of the root table other than 8, 9, 35 and 10 in insertion
order. -/
def encode_body (version_str : FIXProtocolVerEnum → List Nat) (fmt_double : Nat → List Nat)
    (prot : FIXProtocolDescr) (msg : FIXMessage) (delimiter : Nat) : List Nat :=
  let rest := render_field delimiter 35 (string_bytes msg.descr.type)
    ++ render_table fmt_double delimiter
        (msg.tags.filter (fun e => !(e.1 == 8 || e.1 == 9 || e.1 == 35 || e.1 == 10)))
  render_field delimiter 8 (version_str prot.version)
    ++ render_field delimiter 9 (decimal rest.length) ++ rest

/-- Modelled from the spec: `fix_msg_to_fix`, declared in fix_msg.h: the bytes of steps 1 to
4, then `CheckSum` with the three digits of their sum modulo 256; into a buffer that is too
small nothing is written, and the length needed is returned. -/
def fix_msg_to_fix (version_str : FIXProtocolVerEnum → List Nat) (fmt_double : Nat → List Nat)
    (prot : FIXProtocolDescr) (msg : FIXMessage) (delimiter : Nat) (buffLen : Nat) :
    EncodeResult :=
  let body := encode_body version_str fmt_double prot msg delimiter
  let out := body ++ render_field delimiter 10 (checksum_digits (body.sum % 256))
  if out.length ≤ buffLen then .FIX_SUCCESS out else .FIX_FAILED .NoMoreSpace out.length

/-- Modelled from the spec: the text of a protocol version in `BeginString`, on the versions
FIX.4.0 … FIX.5.0SP2. -/
def sample_FIXProtocolVerEnum2str : FIXProtocolVerEnum → List Nat
  | .FIX40 => string_bytes "FIX.4.0"
  | .FIX41 => string_bytes "FIX.4.1"
  | .FIX42 => string_bytes "FIX.4.2"
  | .FIX43 => string_bytes "FIX.4.3"
  | .FIX44 => string_bytes "FIX.4.4"
  | .FIX50 => string_bytes "FIX.5.0"
  | .FIX50SP1 => string_bytes "FIX.5.0SP1"
  | .FIX50SP2 => string_bytes "FIX.5.0SP2"
  | .invalid => []

/-- A message of type `A` on the descriptor of `dict_logon`, not validated, with the tags
49 = `S` and 34 = 1. -/
def sample_message : FIXMessage :=
  { descr := logon_msg, tags := [(49, .String [83]), (34, .Long 1)], flags := 0 }

/-- A validated message of type `A` on the descriptor of `dict_logon`, as it is after its
creation: tag 35 holds the type. -/
def validated_message : FIXMessage :=
  { descr := logon_msg, tags := [(35, .String [65])], flags := FIX_MESSAGE_FLAGS_VALIDATE }

/-- A validated message on the descriptor of `dict_logon` that has no group yet. -/
def group_message : FIXMessage :=
  { descr := logon_msg, tags := [(35, .String [65])], flags := FIX_MESSAGE_FLAGS_VALIDATE }

/-- Whether the character is a decimal digit. -/
def is_digit (c : Char) : Bool := decide (48 ≤ c.toNat ∧ c.toNat ≤ 57)

/-- The decimal value of an attribute, as the specification reads it: the number that a
non-empty string of decimal digits stands for; `none` for any other string. -/
def decimal_value (s : String) : Option Nat :=
  if s.toList ≠ [] ∧ s.toList.all is_digit = true then
    some (s.toList.foldl (fun acc c => acc * 10 + (c.toNat - 48)) 0)
  else none

/-- A dictionary whose field `A` has the number 4294967297, which is 2^32 + 1. -/
def dict_big_number : xmlDoc :=
  { children :=
      el "fix" [⟨"version", "FIX.4.4"⟩]
        (el "messages" [] .NULL
        (el "fields" []
          (el "field" [⟨"name", "A"⟩, ⟨"number", "4294967297"⟩, ⟨"type", "Int"⟩] .NULL .NULL)
          .NULL))
        .NULL }

/-! ## The field type table -/

theorem getD_set_self {α : Type} (l : List (List α)) (i : Nat) (v : List α) (h : i < l.length) :
    (l.set i v).getD i [] = v := by
  simp [List.getD_eq_getElem?_getD, List.getElem?_set, h]

theorem getD_set_ne {α : Type} (l : List (List α)) (i j : Nat) (v : List α) (h : i ≠ j) :
    (l.set i v).getD j [] = l.getD j [] := by
  simp [List.getD_eq_getElem?_getD, List.getElem?_set, h]

theorem get_fix_field_type_insert (E : Env) (prot : FIXProtocolDescr) (fld : FIXFieldType) (N : String)
    (hlen : prot.field_types.length = E.FIELD_TYPE_CNT) :
    get_fix_field_type E
      { prot with
        field_types := prot.field_types.set (E.hash_string fld.name % E.FIELD_TYPE_CNT)
          (fld :: prot.field_types.getD (E.hash_string fld.name % E.FIELD_TYPE_CNT) []) } N
      = if fld.name = N then some fld else get_fix_field_type E prot N := by
  have hb : E.hash_string fld.name % E.FIELD_TYPE_CNT < prot.field_types.length := by
    rw [hlen]; exact Nat.mod_lt _ E.field_type_cnt_pos
  unfold get_fix_field_type
  by_cases hN : fld.name = N
  · subst hN
    simp only [getD_set_self _ _ _ hb]
    simp
  · by_cases hidx : E.hash_string fld.name % E.FIELD_TYPE_CNT = E.hash_string N % E.FIELD_TYPE_CNT
    · simp only [← hidx, getD_set_self _ _ _ hb]
      simp [List.find?_cons, hN]
    · simp only [getD_set_ne _ _ _ _ hidx]
      simp [hN]

theorem siblings_get_first_loop (name : String) (n : xmlNodePtr) :
    (siblings (get_first_loop name n)).filter (is_element name)
      = (siblings n).filter (is_element name) := by
  induction n with
  | NULL => simp [get_first_loop]
  | node ty nm props ch nx _ ihn =>
    rw [get_first_loop]
    split
    · rfl
    · rename_i h
      rw [ihn]
      simp [siblings, List.filter_cons, is_element, h]

theorem get_first_loop_find (name : String) (n : xmlNodePtr) :
    ((siblings n).find? (is_element name) = none ∧ get_first_loop name n = .NULL) ∨
    ((siblings n).find? (is_element name) = some (get_first_loop name n) ∧
      get_first_loop name n ≠ .NULL) := by
  induction n with
  | NULL => left; simp [get_first_loop, siblings]
  | node ty nm props ch nx _ ihn =>
    rw [get_first_loop]
    by_cases h : ty = .XML_ELEMENT_NODE ∧ nm = name
    · right
      simp [h, siblings, is_element]
    · simp only [h, if_false]
      have hne : is_element name (.node ty nm props ch nx) = false := by
        simp [is_element]; tauto
      simp only [siblings, List.find?_cons, hne]
      exact ihn

theorem load_field_types_loop_ok (E : Env) (p : FIXParser) (field : xmlNodePtr) :
    ∀ (prot : FIXProtocolDescr) (p1 : FIXParser) (prot1 : FIXProtocolDescr),
      prot.field_types.length = E.FIELD_TYPE_CNT →
      load_field_types_loop E p prot field = .ok p1 prot1 →
      p1 = p ∧ prot1.field_types.length = E.FIELD_TYPE_CNT ∧ prot1.version = prot.version ∧
      prot1.messages = prot.messages ∧
      (∀ e ∈ siblings field, is_element "field" e = true → (field_type_of E e).isSome = true) ∧
      ∀ N, get_fix_field_type E prot1 N
        = (siblings field).foldl
            (fun acc e => if field_named N e = true then field_type_of E e else acc)
            (get_fix_field_type E prot N) := by
  induction field with
  | NULL =>
    intro prot p1 prot1 hlen h
    simp only [load_field_types_loop, Outcome.ok.injEq] at h
    obtain ⟨rfl, rfl⟩ := h
    simp [siblings, hlen]
  | node ty nm props ch nx _ ihn =>
    intro prot p1 prot1 hlen h
    rw [load_field_types_loop] at h
    by_cases hel : ty = .XML_ELEMENT_NODE ∧ nm = "field"
    · obtain ⟨rfl, rfl⟩ := hel
      simp only [and_self, if_true] at h
      split at h
      · exact absurd h (by simp)
      · split at h
        · rename_i number name hnum hname
          have := ihn _ p1 prot1 (by simpa using hlen) h
          obtain ⟨h1, h2, h3, h4, h5, h6⟩ := this
          have hfto : field_type_of E (.node .XML_ELEMENT_NODE "field" props ch nx)
              = some { num := to_uint32 (atoi number), name := name,
                       type := E.str2FIXFIXFieldType (get_attr_loop "type" props) } := by
            simp [field_type_of, get_attr, hnum, hname]
          refine ⟨h1, h2, h3, h4, ?_, ?_⟩
          · intro e he hfe
            simp only [siblings, List.mem_cons] at he
            rcases he with rfl | he
            · rw [hfto]; rfl
            · exact h5 e he hfe
          · intro N
            have hins := get_fix_field_type_insert E prot
              { num := to_uint32 (atoi number), name := name,
                type := E.str2FIXFIXFieldType (get_attr_loop "type" props) } N hlen
            simp only at hins
            rw [h6 N, hins]
            simp only [siblings, List.foldl_cons]
            congr 1
            simp only [field_named, is_element, get_attr, hname, hfto]
            by_cases hN : name = N <;> simp [hN]
        · exact absurd h (by simp)
    · simp only [hel, if_false] at h
      obtain ⟨h1, h2, h3, h4, h5, h6⟩ := ihn prot p1 prot1 hlen h
      have hne : is_element "field" (.node ty nm props ch nx) = false := by
        simp [is_element]; tauto
      refine ⟨h1, h2, h3, h4, ?_, ?_⟩
      · intro e he hfe
        simp only [siblings, List.mem_cons] at he
        rcases he with rfl | he
        · rw [hne] at hfe; exact absurd hfe (by simp)
        · exact h5 e he hfe
      · intro N
        rw [h6 N]
        simp [siblings, field_named, hne]

theorem foldl_field_named_nil (E : Env) (N : String) (l : List xmlNodePtr) (acc : Option FIXFieldType)
    (h : l.filter (field_named N) = []) :
    l.foldl (fun acc e => if field_named N e = true then field_type_of E e else acc) acc = acc := by
  induction l generalizing acc with
  | nil => rfl
  | cons e l ih =>
    rw [List.filter_cons] at h
    by_cases he : field_named N e = true
    · simp [he] at h
    · simp only [he] at h
      simp only [List.foldl_cons, he]
      exact ih acc (by simpa using h)

theorem foldl_field_named_unique (E : Env) (N : String) (l : List xmlNodePtr) (f : xmlNodePtr)
    (acc : Option FIXFieldType) (h : l.filter (field_named N) = [f]) :
    l.foldl (fun acc e => if field_named N e = true then field_type_of E e else acc) acc
      = field_type_of E f := by
  induction l generalizing acc with
  | nil => simp at h
  | cons e l ih =>
    rw [List.filter_cons] at h
    by_cases he : field_named N e = true
    · simp only [he, if_true, List.cons.injEq] at h
      obtain ⟨rfl, h2⟩ := h
      simp only [List.foldl_cons, he, if_true]
      exact foldl_field_named_nil E N l _ h2
    · simp only [he] at h
      simp only [List.foldl_cons, he]
      exact ih _ (by simpa using h)

theorem load_messages_loop_field_types (E : Env) (fuel : Nat) (root : xmlNodePtr) (n : xmlNodePtr) :
    ∀ (p : FIXParser) (prot : FIXProtocolDescr) (p1 : FIXParser) (prot1 : FIXProtocolDescr),
      load_messages_loop E fuel root p prot n = .ok p1 prot1 →
      prot1.field_types = prot.field_types ∧ prot1.version = prot.version := by
  induction n with
  | NULL =>
    intro p prot p1 prot1 h
    simp only [load_messages_loop, Outcome.ok.injEq] at h
    obtain ⟨_, rfl⟩ := h
    exact ⟨rfl, rfl⟩
  | node ty nm props ch nx _ ihn =>
    intro p prot p1 prot1 h
    rw [load_messages_loop] at h
    split at h
    · split at h
      · have h2 := ihn _ _ _ _ h
        exact h2
      · exact absurd h (by simp)
      · exact absurd h (by simp)
      · exact absurd h (by simp)
    · exact ihn _ _ _ _ h

/-- What a successful `fix_protocol_descr_init` went through: the root, the first `<field>`
of the `<fields>` section, and the table `load_field_types` made of it. -/
theorem fix_protocol_descr_init_ok (E : Env) (fuel : Nat) (parser : FIXParser) (file : String)
    (doc : xmlDoc) (p1 : FIXParser) (prot1 : FIXProtocolDescr)
    (hdoc : E.xmlParseFile file = some doc)
    (h : fix_protocol_descr_init E fuel parser file = .ok p1 prot1) :
    ∃ p2 p3 prot2 msg_node,
      (E.xml_validate parser doc).2 = true ∧
      xmlDocGetRootElement doc ≠ .NULL ∧
      load_field_types E p2 
        { version := get_version E (xmlDocGetRootElement doc),
          field_types := List.replicate E.FIELD_TYPE_CNT [],
          messages := List.replicate E.MSG_CNT [] } (xmlDocGetRootElement doc) = .ok p3 prot2 ∧
      (∃ messages, get_first (xmlDocGetRootElement doc) "messages" = some messages ∧
        get_first messages "message" = some msg_node) ∧
      load_messages_loop E fuel (xmlDocGetRootElement doc) p3 prot2 msg_node = .ok p1 prot1 := by
  unfold fix_protocol_descr_init at h
  simp only [hdoc] at h
  split at h
  · exact absurd h (by simp)
  · rename_i pv hv
    split at h
    · exact absurd h (by simp)
    · rename_i hroot
      split at h
      · rename_i p3 prot2 hft
        split at h
        · exact absurd h (by simp)
        · rename_i messages hm
          split at h
          · exact absurd h (by simp)
          · rename_i msg_node hmn
            exact ⟨pv, p3, prot2, msg_node, by rw [hv], fun hc => hroot hc, hft,
              ⟨messages, hm, hmn⟩, h⟩
      · exact absurd h (by simp)
      · exact absurd h (by simp)
      · exact absurd h (by simp)

theorem filter_field_named (N : String) (l : List xmlNodePtr) :
    l.filter (field_named N)
      = (l.filter (is_element "field")).filter (fun e => decide (get_attr e "name" = some N)) := by
  rw [List.filter_filter]
  congr 1
  funext e
  simp [field_named, Bool.and_comm]

/-- What a successful `load_field_types` on the root of a document went through. -/
theorem load_field_types_ok (E : Env) (p p1 : FIXParser) (prot prot1 : FIXProtocolDescr)
    (root : xmlNodePtr) (h : load_field_types E p prot root = .ok p1 prot1) :
    ∃ field, load_field_types_loop E p prot field = .ok p1 prot1 ∧
      (siblings field).filter (is_element "field") = field_elements root := by
  unfold load_field_types at h
  cases root with
  | NULL => simp [get_first] at h
  | node ty nm props ch nx =>
    simp only [get_first] at h
    rcases get_first_loop_find "fields" ch with ⟨_, hnull⟩ | ⟨hfind, hne⟩
    · rw [hnull] at h
      simp [get_first] at h
    · cases hs : get_first_loop "fields" ch with
      | NULL => exact absurd hs hne
      | node ty2 nm2 props2 ch2 nx2 =>
        rw [hs] at h hfind
        simp only [get_first] at h
        refine ⟨_, h, ?_⟩
        rw [siblings_get_first_loop]
        simp [field_elements, section_elements, xmlNodePtr.children, hfind]

theorem atoi_digits_all_digits (cs : List Char) (h : cs.all is_digit = true) :
    ∀ acc, atoi_digits acc cs = cs.foldl (fun acc c => acc * 10 + (c.toNat - 48)) acc := by
  induction cs with
  | nil => intro acc; rfl
  | cons c cs ih =>
    intro acc
    simp only [List.all_cons, Bool.and_eq_true] at h
    have hc : 48 ≤ c.toNat ∧ c.toNat ≤ 57 := by simpa [is_digit] using h.1
    simp only [atoi_digits, hc, and_self, if_true, List.foldl_cons]
    exact ih h.2 _

theorem isspace_digit (c : Char) (h : is_digit c = true) : isspace c = false := by
  have hc : 48 ≤ c.toNat ∧ c.toNat ≤ 57 := by simpa [is_digit] using h
  have hne : ∀ d : Char, d.toNat < 48 → c ≠ d := by
    intro d hd heq
    rw [heq] at hc
    omega
  have h1 := hne ' ' (by decide)
  have h2 := hne '\t' (by decide)
  have h3 := hne '\n' (by decide)
  have h4 := hne '\r' (by decide)
  have h5 : c.toNat ≠ 11 := by omega
  have h6 : c.toNat ≠ 12 := by omega
  simp [isspace, h1, h2, h3, h4, h5, h6]

/-- On a non-empty string of decimal digits of a value below 2^32, `atoi` followed by the
conversion to `uint32_t` gives the value. -/
theorem to_uint32_atoi_decimal (s : String) (n : Nat) (h : decimal_value s = some n)
    (hn : n < 4294967296) : to_uint32 (atoi s) = n := by
  unfold decimal_value at h
  split at h
  · rename_i hs
    simp only [Option.some.injEq] at h
    obtain ⟨hne, hall⟩ := hs
    have hstr : strtol s = (n : Int) := by
      unfold strtol
      cases hl : s.toList with
      | nil => exact absurd hl hne
      | cons c cs =>
        rw [hl] at hall h
        have hc : is_digit c = true := by
          simp only [List.all_cons, Bool.and_eq_true] at hall
          exact hall.1
        have hcn : 48 ≤ c.toNat ∧ c.toNat ≤ 57 := by simpa [is_digit] using hc
        have hsp := isspace_digit c hc
        have hm : c ≠ '-' := by
          intro heq; rw [heq] at hcn; revert hcn; decide
        have hp : c ≠ '+' := by
          intro heq; rw [heq] at hcn; revert hcn; decide
        simp only [List.dropWhile_cons, hsp, Bool.false_eq_true, if_false, hm, hp]
        rw [atoi_digits_all_digits (c :: cs) hall 0, h]
        omega
    unfold atoi to_int32 to_uint32
    rw [hstr]
    omega
  · simp at h

/-- C1 fails at `dict_big_number`: the load succeeds, one `<field>` element carries the name
`A`, the decimal value of its `number` attribute is 4294967297, and the record found for `A`
has the `num` 1, what is left of the value in a `uint32_t`. -/
theorem big_number_is_truncated :
    (field_elements (xmlDocGetRootElement dict_big_number)).filter
        (fun e => decide (get_attr e "name" = some "A"))
      = [el "field" [⟨"name", "A"⟩, ⟨"number", "4294967297"⟩, ⟨"type", "Int"⟩] .NULL .NULL] ∧
    decimal_value "4294967297" = some 4294967297 ∧
    (fix_protocol_descr_init (sample_env dict_big_number) 1 ⟨none⟩ "fix44.xml").isOk = true ∧
    get_fix_field_type (sample_env dict_big_number)
        (fix_protocol_descr_init (sample_env dict_big_number) 1 ⟨none⟩ "fix44.xml").prot "A"
      = some ⟨1, "A", .Int⟩ ∧
    (1 : Nat) ≠ 4294967297 := by
  refine ⟨by decide, by decide, by decide, by decide, by decide⟩

/-- C1 as amended: in a dictionary that `fix_protocol_descr_init` has loaded, a name `N` that
exactly one `<field>` element `f` of the `<fields>` section carries is found by
`get_fix_field_type`; the record found has as `num` what `atoi` returns for the `number`
attribute of `f`, converted to `uint32_t`, and that is the decimal value of the attribute
whenever the attribute is a non-empty string of decimal digits of a value below 2^32; this
for every `hash_string` and every positive `FIELD_TYPE_CNT`. -/
theorem get_fix_field_type_num_of_unique_name (E : Env) (fuel : Nat) (parser : FIXParser)
    (file : String) (doc : xmlDoc) (p1 : FIXParser) (prot : FIXProtocolDescr)
    (hdoc : E.xmlParseFile file = some doc)
    (hinit : fix_protocol_descr_init E fuel parser file = .ok p1 prot)
    (N : String) (f : xmlNodePtr)
    (hf : (field_elements (xmlDocGetRootElement doc)).filter
            (fun e => decide (get_attr e "name" = some N)) = [f]) :
    ∃ ft number, get_fix_field_type E prot N = some ft ∧ ft.name = N ∧
      get_attr f "number" = some number ∧ ft.num = to_uint32 (atoi number) ∧
      ∀ n, decimal_value number = some n → n < 4294967296 → ft.num = n := by
  obtain ⟨p2, p3, prot2, msg_node, _, _, hft, _, hloop⟩ :=
    fix_protocol_descr_init_ok E fuel parser file doc p1 prot hdoc hinit
  obtain ⟨field, hfl, hsib⟩ := load_field_types_ok E _ _ _ _ _ hft
  obtain ⟨_, _, _, _, hall, hlook⟩ :=
    load_field_types_loop_ok E p2 field _ p3 prot2 (by simp) hfl
  have hfilter : (siblings field).filter (field_named N) = [f] := by
    rw [filter_field_named, hsib]; exact hf
  have hmem : f ∈ (siblings field).filter (field_named N) := by rw [hfilter]; simp
  rw [List.mem_filter] at hmem
  have hfe : is_element "field" f = true ∧ get_attr f "name" = some N := by
    simpa [field_named] using hmem.2
  have hsome := hall f hmem.1 hfe.1
  have hget : get_fix_field_type E prot N = field_type_of E f := by
    have h1 : get_fix_field_type E prot N = get_fix_field_type E prot2 N := by
      unfold get_fix_field_type
      rw [(load_messages_loop_field_types E fuel _ msg_node p3 prot2 p1 prot hloop).1]
    rw [h1, hlook N]
    exact foldl_field_named_unique E N _ f _ hfilter
  unfold field_type_of at hget hsome
  rw [hfe.2] at hget hsome
  cases hnum : get_attr f "number" with
  | none => rw [hnum] at hsome; simp at hsome
  | some number =>
    rw [hnum] at hget
    exact ⟨_, number, hget, rfl, rfl, rfl,
      fun n hn hlt => to_uint32_atoi_decimal number n hn hlt⟩

/-- C1 as amended, at the dictionary `dict_logon`: the name `B` is found with number 5. -/
theorem get_fix_field_type_num_of_unique_name_witness :
    ∃ ft number, get_fix_field_type (sample_env dict_logon)
        (fix_protocol_descr_init (sample_env dict_logon) 2 ⟨none⟩ "fix44.xml").prot "B" = some ft ∧
      ft.name = "B" ∧
      get_attr (el "field" [⟨"name", "B"⟩, ⟨"number", "5"⟩, ⟨"type", "Int"⟩] .NULL
          (el "field" [⟨"name", "G"⟩, ⟨"number", "9"⟩, ⟨"type", "NumInGroup"⟩] .NULL .NULL))
        "number" = some number ∧
      ft.num = to_uint32 (atoi number) ∧
      ∀ n, decimal_value number = some n → n < 4294967296 → ft.num = n :=
  get_fix_field_type_num_of_unique_name (sample_env dict_logon) 2 ⟨none⟩ "fix44.xml" dict_logon
    ⟨none⟩ _ rfl rfl "B" _ (by decide)

/-! ## The expansion of components -/

theorem get_attr_node (ty : xmlElementType) (nm : String) (props : List xmlAttr)
    (ch nx : xmlNodePtr) (a : String) :
    get_attr (.node ty nm props ch nx) a = get_attr_loop a props := rfl

theorem mem_siblings_get_first_loop (name : String) (n e : xmlNodePtr)
    (h : e ∈ siblings (get_first_loop name n)) : e ∈ siblings n := by
  induction n with
  | NULL => simpa [get_first_loop] using h
  | node ty nm props ch nx _ ihn =>
    rw [get_first_loop] at h
    split at h
    · exact h
    · simp only [siblings, List.mem_cons]
      exact Or.inr (ihn h)

/-- The loop over the components, when their names are pairwise distinct: it loads the one
component called `component_name`, or nothing. -/
theorem load_components_unique
    (load : FIXParser → List FIXFieldDescr → xmlNodePtr → Outcome (List FIXFieldDescr))
    (cn : Option String) (n : xmlNodePtr) :
    (∀ c ∈ siblings n, is_any_element c = true → is_element "component" c = true) →
    (((siblings n).filter (is_element "component")).map (fun c => get_attr c "name")).Nodup →
    ∀ (p : FIXParser) (fs : List FIXFieldDescr) (p1 : FIXParser) (fs1 : List FIXFieldDescr),
      load_components load cn p fs n = .ok p1 fs1 →
      match cn.bind (fun C => ((siblings n).filter (is_element "component")).find?
          (fun c => decide (get_attr c "name" = some C))) with
      | none => p1 = p ∧ fs1 = fs
      | some c => load p fs c = .ok p1 fs1 := by
  induction n with
  | NULL =>
    intro _ _ p fs p1 fs1 h
    simp only [load_components, Outcome.ok.injEq] at h
    cases cn <;> simp [siblings, h.1, h.2]
  | node ty nm props ch nx _ ihn =>
    intro hwf hnd p fs p1 fs1 h
    have hwf2 : ∀ c ∈ siblings nx, is_any_element c = true → is_element "component" c = true :=
      fun c hc => hwf c (by simp [siblings, hc])
    rw [load_components.eq_def] at h
    simp only at h
    by_cases hty : ty = .XML_ELEMENT_NODE
    · have hcomp : is_element "component" (.node ty nm props ch nx) = true :=
        hwf _ (by simp [siblings]) (by simp [is_any_element, hty])
      simp only [siblings, List.filter_cons, hcomp, if_true, List.map_cons, List.nodup_cons] at hnd ⊢
      simp only [hty, if_true] at h
      cases cn with
      | none => simp at h
      | some C =>
        cases hname : get_attr_loop "name" props with
        | none => simp [hname] at h
        | some name =>
          simp only [hname] at h
          simp only [Option.some_bind, List.find?_cons]
          by_cases hCn : C = name
          · subst hCn
            have hP : decide (get_attr (.node ty nm props ch nx) "name" = some C) = true := by
              simp [get_attr_node, hname]
            simp only [if_true] at h
            simp only [hP]
            cases hl : load p fs (.node .XML_ELEMENT_NODE nm props ch nx) with
            | ok p2 fs2 =>
              rw [hl] at h
              have := ihn hwf2 hnd.2 p2 fs2 p1 fs1 h
              have hnone : ((siblings nx).filter (is_element "component")).find?
                  (fun c => decide (get_attr c "name" = some C)) = none := by
                rw [List.find?_eq_none]
                intro c hc hcn
                apply hnd.1
                rw [List.mem_map]
                exact ⟨c, hc, by simpa [get_attr_node, hname] using hcn⟩
              simp only [Option.some_bind, hnone] at this
              rw [this.1, this.2, hty]
              exact hl
            | failed p2 => rw [hl] at h; exact absurd h (by simp)
            | crash => rw [hl] at h; exact absurd h (by simp)
            | diverge => rw [hl] at h; exact absurd h (by simp)
          · have hP : decide (get_attr (.node ty nm props ch nx) "name" = some C) = false := by
              simp only [get_attr_node, hname, Option.some.injEq, decide_eq_false_iff_not]
              exact fun hh => hCn hh.symm
            simp only [hCn, if_false] at h
            have := ihn hwf2 hnd.2 p fs p1 fs1 h
            simp only [Option.some_bind] at this
            simp only [hP]
            exact this
    · have hne : is_element "component" (.node ty nm props ch nx) = false := by
        simp [is_element, hty]
      simp only [hty, if_false] at h
      have := ihn hwf2 (by simpa [siblings, List.filter_cons, hne] using hnd) p fs p1 fs1 h
      simpa [siblings, List.filter_cons, hne] using this

/-- The first `<component>` that `load_fields` finds, and what the grammar and the distinct
names say of the siblings it scans from there. -/
theorem component_scan (root : xmlNodePtr) (components component : xmlNodePtr)
    (hok : components_section_ok root = true) (huniq : component_names_unique root)
    (h1 : get_first root "components" = some components)
    (h2 : get_first components "component" = some component) :
    (∀ c ∈ siblings component, is_any_element c = true → is_element "component" c = true) ∧
    (((siblings component).filter (is_element "component")).map
        (fun c => get_attr c "name")).Nodup ∧
    (siblings component).filter (is_element "component") = component_elements root := by
  cases root with
  | NULL => simp [get_first] at h1
  | node ty nm props ch nx =>
    simp only [get_first, Option.some.injEq] at h1
    subst h1
    rcases get_first_loop_find "components" ch with ⟨_, hnull⟩ | ⟨hfind, hne⟩
    · rw [hnull] at h2
      simp [get_first] at h2
    · cases hs : get_first_loop "components" ch with
      | NULL => exact absurd hs hne
      | node ty2 nm2 props2 ch2 nx2 =>
        rw [hs] at h2 hfind
        simp only [get_first, Option.some.injEq] at h2
        subst h2
        have hce : component_elements (.node ty nm props ch nx)
            = (siblings ch2).filter (is_element "component") := by
          simp [component_elements, section_elements, xmlNodePtr.children, hfind]
        refine ⟨?_, ?_, ?_⟩
        · intro c hc hany
          have hc2 := mem_siblings_get_first_loop _ _ _ hc
          simp only [components_section_ok, xmlNodePtr.children, hfind, List.all_eq_true] at hok
          have := hok c hc2
          simpa [hany] using this
        · rw [siblings_get_first_loop, ← hce]
          exact huniq
        · rw [siblings_get_first_loop, hce]

/-- The loop of `load_fields` appends the expansion of the body it runs over, when the loader
of components appends the expansion of the component. -/
theorem load_fields_loop_refines (E : Env) (prot : FIXProtocolDescr) (root : xmlNodePtr)
    (load : FIXParser → List FIXFieldDescr → xmlNodePtr → Outcome (List FIXFieldDescr))
    (expand_component : xmlNodePtr → Option (List FIXFieldDescr))
    (hok : components_section_ok root = true) (huniq : component_names_unique root)
    (hload : ∀ c p fs p1 fs1, load p fs c = .ok p1 fs1 →
      ∃ l, expand_component c = some l ∧ p1 = p ∧ fs1 = fs ++ l)
    (n : xmlNodePtr) :
    ∀ (p : FIXParser) (fs : List FIXFieldDescr) (p1 : FIXParser) (fs1 : List FIXFieldDescr),
      load_fields_loop E prot root load p fs n = .ok p1 fs1 →
      ∃ l, expand_body E prot root expand_component n = some l ∧ p1 = p ∧ fs1 = fs ++ l := by
  induction n with
  | NULL =>
    intro p fs p1 fs1 h
    simp only [load_fields_loop, Outcome.ok.injEq] at h
    exact ⟨[], by simp [expand_body], h.1.symm, by simp [h.2]⟩
  | node ty nm props ch nx ihc ihn =>
    intro p fs p1 fs1 h
    rw [load_fields_loop.eq_def] at h
    simp only at h
    rw [expand_body.eq_def]
    simp only
    by_cases hf : ty = .XML_ELEMENT_NODE ∧ nm = "field"
    · simp only [hf, and_self, if_true] at h ⊢
      cases hname : get_attr_loop "name" props with
      | none => simp [hname] at h
      | some name =>
        simp only [hname] at h ⊢
        cases hft : get_fix_field_type E prot name with
        | none => simp [hft] at h
        | some ft =>
          simp only [hft] at h ⊢
          cases hreq : get_attr_loop "required" props with
          | none => simp [hreq] at h
          | some required =>
            simp only [hreq] at h ⊢
            obtain ⟨l, hl, hp, hfs⟩ := ihn _ _ _ _ h
            refine ⟨.mk ft (flags_of_required E required) [] none none :: l, ?_, hp, ?_⟩
            · simp only [hft, hl]
            · rw [hfs]; simp [flags_of_required]
    · have hf2 : ¬ (ty = .XML_ELEMENT_NODE ∧ nm = "field") := hf
      simp only [hf, if_false] at h ⊢
      by_cases hc : ty = .XML_ELEMENT_NODE ∧ nm = "component"
      · have hg : ¬ (ty = .XML_ELEMENT_NODE ∧ nm = "group") := by
          rintro ⟨_, hh⟩; rw [hc.2] at hh; exact absurd hh (by decide)
        simp only [hc, and_self, if_true] at h
        simp only [hg, if_false, hc, and_self, if_true]
        cases h1 : get_first root "components" with
        | none => simp [h1] at h
        | some components =>
          simp only [h1] at h
          cases h2 : get_first components "component" with
          | none => simp [h2] at h
          | some component =>
            simp only [h2] at h
            obtain ⟨hwf, hnd, hce⟩ := component_scan root components component hok huniq h1 h2
            cases hlc : load_components load (get_attr_loop "name" props) p fs component with
            | ok p2 fs2 =>
              simp only [hlc] at h
              obtain ⟨l, hl, hp, hfs⟩ := ihn _ _ _ _ h
              have := load_components_unique load _ component hwf hnd p fs p2 fs2 hlc
              rw [hce] at this
              have hfc : ∀ C, find_component root C = (component_elements root).find?
                  (fun c => decide (get_attr c "name" = some C)) := fun _ => rfl
              cases hb : (get_attr_loop "name" props).bind (find_component root) with
              | none =>
                have hb2 : ((get_attr_loop "name" props).bind fun C =>
                    (component_elements root).find?
                      (fun c => decide (get_attr c "name" = some C))) = none := hb
                rw [hb2] at this
                simp only at this
                refine ⟨l, hl, ?_, ?_⟩
                · rw [hp, this.1]
                · rw [hfs, this.2]
              | some c =>
                have hb2 : ((get_attr_loop "name" props).bind fun C =>
                    (component_elements root).find?
                      (fun c => decide (get_attr c "name" = some C))) = some c := hb
                rw [hb2] at this
                simp only at this
                obtain ⟨l2, hl2, hp2, hfs2⟩ := hload _ _ _ _ _ this
                refine ⟨l2 ++ l, by simp [hl2, hl], ?_, ?_⟩
                · rw [hp, hp2]
                · rw [hfs, hfs2, List.append_assoc]
            | failed p2 => simp [hlc] at h
            | crash => simp [hlc] at h
            | diverge => simp [hlc] at h
      · simp only [hc, if_false] at h ⊢
        by_cases hg : ty = .XML_ELEMENT_NODE ∧ nm = "group"
        · simp only [hg, and_self, if_true] at h ⊢
          cases hname : get_attr_loop "name" props with
          | none => simp [hname] at h
          | some name =>
            simp only [hname] at h ⊢
            cases hft : get_fix_field_type E prot name with
            | none => simp [hft] at h
            | some ft =>
              simp only [hft] at h ⊢
              cases hreq : get_attr_loop "required" props with
              | none => simp [hreq] at h
              | some required =>
                simp only [hreq] at h ⊢
                cases hsub : load_fields_loop E prot root load p [] ch with
                | ok p2 sub =>
                  simp only [hsub] at h
                  obtain ⟨ls, hls, hps, hfss⟩ := ihc _ _ _ _ hsub
                  obtain ⟨l, hl, hp, hfs⟩ := ihn _ _ _ _ h
                  simp only [List.nil_append] at hfss
                  subst hfss
                  refine ⟨.mk ft (flags_of_required E required) sub
                    (some (List.replicate E.FIELD_DESCR_CNT none)) none :: l, ?_, ?_, ?_⟩
                  · simp only [hft, hls, hl]
                  · rw [hp, hps]
                  · rw [hfs]; simp [flags_of_required]
                | failed p2 => simp [hsub] at h
                | crash => simp [hsub] at h
                | diverge => simp [hsub] at h
        · simp only [hg, if_false] at h ⊢
          exact ihn _ _ _ _ h

/-- The function `load_fields` appends the expansion of what `msg_node` contains. -/
theorem load_fields_refines (E : Env) (prot : FIXProtocolDescr) (root : xmlNodePtr)
    (hok : components_section_ok root = true) (huniq : component_names_unique root)
    (fuel : Nat) :
    ∀ (c : xmlNodePtr) (p : FIXParser) (fs : List FIXFieldDescr) (p1 : FIXParser)
      (fs1 : List FIXFieldDescr),
      load_fields E prot root fuel p fs c = .ok p1 fs1 →
      ∃ l, expand_spec E prot root fuel c = some l ∧ p1 = p ∧ fs1 = fs ++ l := by
  induction fuel with
  | zero => intro c p fs p1 fs1 h; simp [load_fields] at h
  | succ fuel ih =>
    intro c p fs p1 fs1 h
    cases c with
    | NULL => simp [load_fields] at h
    | node ty nm props ch nx =>
      simp only [load_fields] at h
      simp only [expand_spec, xmlNodePtr.children]
      exact load_fields_loop_refines E prot root _ _ hok huniq ih ch p fs p1 fs1 h

/-! ## The loader only appends -/

@[simp]
theorem Outcome.map_ok {α β : Type} (f : α → β) (p : FIXParser) (a : α) :
    (Outcome.ok p a).map f = .ok p (f a) := rfl

@[simp]
theorem Outcome.map_failed {α β : Type} (f : α → β) (p : FIXParser) :
    (Outcome.failed p : Outcome α).map f = .failed p := rfl

@[simp]
theorem Outcome.map_crash {α β : Type} (f : α → β) :
    (Outcome.crash : Outcome α).map f = .crash := rfl

@[simp]
theorem Outcome.map_diverge {α β : Type} (f : α → β) :
    (Outcome.diverge : Outcome α).map f = .diverge := rfl

theorem Outcome.map_map {α β γ : Type} (f : α → β) (g : β → γ) (o : Outcome α) :
    (o.map f).map g = o.map (fun a => g (f a)) := by
  cases o <;> rfl

theorem Outcome.map_nil_append (o : Outcome (List FIXFieldDescr)) :
    o.map (fun l => [] ++ l) = o := by
  cases o <;> simp

/-- The loop over the components only appends: what it does to `fields` is what it does to
the empty array, put behind `fields`. -/
theorem load_components_append
    (load : FIXParser → List FIXFieldDescr → xmlNodePtr → Outcome (List FIXFieldDescr))
    (hload : ∀ p fs c, load p fs c = (load p [] c).map (fun l => fs ++ l))
    (cn : Option String) (n : xmlNodePtr) :
    ∀ (p : FIXParser) (fs : List FIXFieldDescr),
      load_components load cn p fs n = (load_components load cn p [] n).map (fun l => fs ++ l) := by
  induction n with
  | NULL => intro p fs; simp [load_components]
  | node ty nm props ch nx _ ihn =>
    intro p fs
    rw [load_components.eq_def, load_components.eq_def load cn p []]
    simp only
    by_cases hty : ty = .XML_ELEMENT_NODE
    · simp only [hty, if_true]
      cases cn with
      | none => simp
      | some C =>
        cases hname : get_attr_loop "name" props with
        | none => simp
        | some name =>
          simp only
          by_cases hCn : C = name
          · subst hCn
            simp only [if_true]
            rw [hload p fs]
            cases hl : load p [] (.node .XML_ELEMENT_NODE nm props ch nx) with
            | ok p2 l =>
              simp only [Outcome.map_ok]
              rw [ihn p2 (fs ++ l), ihn p2 l, Outcome.map_map]
              congr 1
              funext x
              simp
            | failed p2 => simp
            | crash => simp
            | diverge => simp
          · simp only [hCn, if_false]
            exact ihn p fs
    · simp only [hty, if_false]
      exact ihn p fs

/-- The loop of `load_fields` only appends. -/
theorem load_fields_loop_append (E : Env) (prot : FIXProtocolDescr) (root : xmlNodePtr)
    (load : FIXParser → List FIXFieldDescr → xmlNodePtr → Outcome (List FIXFieldDescr))
    (hload : ∀ p fs c, load p fs c = (load p [] c).map (fun l => fs ++ l))
    (n : xmlNodePtr) :
    ∀ (p : FIXParser) (fs : List FIXFieldDescr),
      load_fields_loop E prot root load p fs n
        = (load_fields_loop E prot root load p [] n).map (fun l => fs ++ l) := by
  induction n with
  | NULL => intro p fs; simp [load_fields_loop]
  | node ty nm props ch nx _ ihn =>
    intro p fs
    rw [load_fields_loop.eq_def, load_fields_loop.eq_def E prot root load p []]
    simp only
    by_cases hf : ty = .XML_ELEMENT_NODE ∧ nm = "field"
    · simp only [hf, and_self, if_true]
      cases hname : get_attr_loop "name" props with
      | none => simp
      | some name =>
        simp only
        cases hft : get_fix_field_type E prot name with
        | none => simp
        | some ft =>
          simp only
          cases hreq : get_attr_loop "required" props with
          | none => simp
          | some required =>
            simp only
            rw [ihn p (fs ++ _), ihn p ([] ++ _), Outcome.map_map]
            congr 1
            funext x
            simp
    · simp only [hf, if_false]
      by_cases hc : ty = .XML_ELEMENT_NODE ∧ nm = "component"
      · simp only [hc, and_self, if_true]
        cases h1 : get_first root "components" with
        | none => simp
        | some components =>
          simp only
          cases h2 : get_first components "component" with
          | none => simp
          | some component =>
            simp only
            rw [load_components_append load hload _ component p fs]
            cases hlc : load_components load (get_attr_loop "name" props) p [] component with
            | ok p2 l =>
              simp only [Outcome.map_ok]
              rw [ihn p2 (fs ++ l), ihn p2 l, Outcome.map_map]
              congr 1
              funext x
              simp
            | failed p2 => simp
            | crash => simp
            | diverge => simp
      · simp only [hc, if_false]
        by_cases hg : ty = .XML_ELEMENT_NODE ∧ nm = "group"
        · simp only [hg, and_self, if_true]
          cases hname : get_attr_loop "name" props with
          | none => simp
          | some name =>
            simp only
            cases hft : get_fix_field_type E prot name with
            | none => simp
            | some ft =>
              simp only
              cases hreq : get_attr_loop "required" props with
              | none => simp
              | some required =>
                simp only
                cases hsub : load_fields_loop E prot root load p [] ch with
                | ok p2 sub =>
                  simp only
                  rw [ihn p2 (fs ++ _), ihn p2 ([] ++ _), Outcome.map_map]
                  congr 1
                  funext x
                  simp
                | failed p2 => simp
                | crash => simp
                | diverge => simp
        · simp only [hg, if_false]
          exact ihn p fs

/-- The function `load_fields` only appends. -/
theorem load_fields_append (E : Env) (prot : FIXProtocolDescr) (root : xmlNodePtr) (fuel : Nat) :
    ∀ (p : FIXParser) (fs : List FIXFieldDescr) (c : xmlNodePtr),
      load_fields E prot root fuel p fs c
        = (load_fields E prot root fuel p [] c).map (fun l => fs ++ l) := by
  induction fuel with
  | zero => intro p fs c; simp [load_fields]
  | succ fuel ih =>
    intro p fs c
    cases c with
    | NULL => simp [load_fields]
    | node ty nm props ch nx =>
      simp only [load_fields]
      exact load_fields_loop_append E prot root _ ih ch p fs

/-- C10: a `<group name="G">` element whose name `G` is defined (and that has its
`required` attribute) puts exactly one descriptor behind the parent list `fields`: its type
is the record found for `G`, its `group` array is what `load_fields` builds from the
children of the group element, starting from the empty array; the list goes on with what
the siblings after the group element give, and with nothing else. -/
theorem load_fields_loop_group (E : Env) (prot : FIXProtocolDescr) (root : xmlNodePtr)
    (fuel : Nat) (parser : FIXParser) (fields : List FIXFieldDescr) (props : List xmlAttr)
    (ch nx : xmlNodePtr) (G required : String) (ft : FIXFieldType)
    (hG : get_attr_loop "name" props = some G)
    (hft : get_fix_field_type E prot G = some ft)
    (hreq : get_attr_loop "required" props = some required) :
    load_fields_loop E prot root (load_fields E prot root fuel) parser fields
        (.node .XML_ELEMENT_NODE "group" props ch nx)
      = match load_fields E prot root (fuel + 1) parser []
            (.node .XML_ELEMENT_NODE "group" props ch nx) with
        | .ok parser1 sub =>
          (load_fields_loop E prot root (load_fields E prot root fuel) parser1 [] nx).map
            (fun rest => fields ++ .mk ft (flags_of_required E required) sub
              (some (List.replicate E.FIELD_DESCR_CNT none)) none :: rest)
        | .failed parser1 => .failed parser1
        | .crash => .crash
        | .diverge => .diverge := by
  rw [load_fields_loop.eq_def]
  have h1 : ¬ ("group" = "field") := by decide
  have h2 : ¬ ("group" = "component") := by decide
  simp only [load_fields, hG, hft, hreq, h1, h2, and_false, and_self, if_false, if_true]
  cases hsub : load_fields_loop E prot root (load_fields E prot root fuel) parser [] ch with
  | ok p2 sub =>
    simp only
    rw [load_fields_loop_append E prot root _ (load_fields_append E prot root fuel) nx]
    congr 1
    funext rest
    simp [flags_of_required]
  | failed p2 => rfl
  | crash => rfl
  | diverge => rfl

/-- C10 at the group `G` of `dict_logon`, behind a list that holds field `A`: one descriptor
for `G` is appended, with field `B` in its `group` array and not in the parent list. -/
theorem load_fields_loop_group_witness :
    load_fields_loop (sample_env dict_logon) logon_prot (xmlDocGetRootElement dict_logon)
        (load_fields (sample_env dict_logon) logon_prot (xmlDocGetRootElement dict_logon) 1)
        ⟨none⟩ [.mk ⟨1, "A", .Int⟩ 1 [] none none]
        (.node .XML_ELEMENT_NODE "group" [⟨"name", "G"⟩, ⟨"required", "N"⟩]
          (el "field" [⟨"name", "B"⟩, ⟨"required", "Y"⟩] .NULL .NULL) .NULL)
      = .ok ⟨none⟩ [.mk ⟨1, "A", .Int⟩ 1 [] none none,
          .mk ⟨9, "G", .NumInGroup⟩ 0 [.mk ⟨5, "B", .Int⟩ 1 [] none none]
            (some [none, none, none, none]) none] :=
  (load_fields_loop_group (sample_env dict_logon) logon_prot (xmlDocGetRootElement dict_logon)
    1 ⟨none⟩ [.mk ⟨1, "A", .Int⟩ 1 [] none none] [⟨"name", "G"⟩, ⟨"required", "N"⟩]
    (el "field" [⟨"name", "B"⟩, ⟨"required", "Y"⟩] .NULL .NULL) .NULL "G" "N"
    ⟨9, "G", .NumInGroup⟩ rfl rfl rfl).trans rfl

/-! ## The messages table -/

/-- What `fix_protocol_descr_init` finds as the first element called `name` of the section
`sect`: the elements of that name from there on are those of the section. -/
theorem section_scan (root sec first : xmlNodePtr) (sect name : String)
    (h1 : get_first root sect = some sec) (h2 : get_first sec name = some first) :
    (siblings root.children).find? (is_element sect) = some sec ∧
    (∀ e ∈ siblings first, e ∈ siblings sec.children) ∧
    (siblings first).filter (is_element name) = section_elements root sect name := by
  cases root with
  | NULL => simp [get_first] at h1
  | node ty nm props ch nx =>
    simp only [get_first, Option.some.injEq] at h1
    subst h1
    rcases get_first_loop_find sect ch with ⟨_, hnull⟩ | ⟨hfind, hne⟩
    · rw [hnull] at h2
      simp [get_first] at h2
    · cases hs : get_first_loop sect ch with
      | NULL => exact absurd hs hne
      | node ty2 nm2 props2 ch2 nx2 =>
        rw [hs] at h2 hfind
        simp only [get_first, Option.some.injEq] at h2
        subst h2
        refine ⟨hfind, ?_, ?_⟩
        · intro e he
          exact mem_siblings_get_first_loop _ _ _ he
        · rw [siblings_get_first_loop]
          simp [section_elements, xmlNodePtr.children, hfind]

/-- A descriptor that `load_message` returns has the `name` and `type` attributes of the
element as its name and type. -/
theorem load_message_ok (E : Env) (fuel : Nat) (p : FIXParser) (n root : xmlNodePtr)
    (prot : FIXProtocolDescr) (p1 : FIXParser) (msg : FIXMessageDescr)
    (h : load_message E fuel p n root prot = .ok p1 msg) :
    get_attr n "name" = some msg.name ∧ get_attr n "type" = some msg.type ∧
    ∃ fields, load_fields E prot root fuel p [] n = .ok p1 fields ∧
      build_index E fields (List.replicate E.FIELD_DESCR_CNT none)
        = some (msg.fields, msg.field_index) := by
  unfold load_message at h
  cases hn : get_attr n "name" with
  | none => simp [hn] at h
  | some name =>
    cases ht : get_attr n "type" with
    | none => simp [hn, ht] at h
    | some type =>
      simp only [hn, ht] at h
      cases hl : load_fields E prot root fuel p [] n with
      | ok p2 fields =>
        simp only [hl] at h
        cases hb : build_index E fields (List.replicate E.FIELD_DESCR_CNT none) with
        | none => simp [hb] at h
        | some r =>
          simp only [hb, Outcome.ok.injEq] at h
          obtain ⟨rfl, rfl⟩ := h
          exact ⟨rfl, rfl, fields, rfl, hb⟩
      | failed p2 => simp [hl] at h
      | crash => simp [hl] at h
      | diverge => simp [hl] at h

/-- The loop over the messages puts the descriptor of every `<message>` element into the
bucket of its type, ahead of what the bucket held. -/
theorem load_messages_loop_ok (E : Env) (fuel : Nat) (root : xmlNodePtr) (n : xmlNodePtr) :
    ∀ (p : FIXParser) (prot : FIXProtocolDescr) (p1 : FIXParser) (prot1 : FIXProtocolDescr),
      prot.messages.length = E.MSG_CNT →
      load_messages_loop E fuel root p prot n = .ok p1 prot1 →
      prot1.messages.length = E.MSG_CNT ∧
      (∀ e ∈ (siblings n).filter (is_element "message"), (get_attr e "type").isSome = true) ∧
      ∀ b, (prot1.messages.getD b []).map (fun m => m.type)
        = ((((siblings n).filter (is_element "message")).filterMap
              (fun e => get_attr e "type")).filter
              (fun t => decide (E.hash_string t % E.MSG_CNT = b))).reverse
          ++ (prot.messages.getD b []).map (fun m => m.type) := by
  induction n with
  | NULL =>
    intro p prot p1 prot1 hlen h
    simp only [load_messages_loop, Outcome.ok.injEq] at h
    obtain ⟨_, rfl⟩ := h
    simp [siblings, hlen]
  | node ty nm props ch nx _ ihn =>
    intro p prot p1 prot1 hlen h
    rw [load_messages_loop.eq_def] at h
    simp only at h
    by_cases hel : ty = .XML_ELEMENT_NODE ∧ nm = "message"
    · have hie : is_element "message" (.node ty nm props ch nx) = true := by
        simp [is_element, hel]
      simp only [hel, and_self, if_true] at h
      cases hm : load_message E fuel p (.node .XML_ELEMENT_NODE "message" props ch nx) root prot with
      | ok p2 msg =>
        simp only [hm] at h
        obtain ⟨_, htype, _⟩ := load_message_ok E fuel p _ root prot p2 msg hm
        have hb : E.hash_string msg.type % E.MSG_CNT < prot.messages.length := by
          rw [hlen]; exact Nat.mod_lt _ E.msg_cnt_pos
        obtain ⟨h1, h2, h3⟩ := ihn p2 _ p1 prot1 (by simpa using hlen) h
        have htype2 : get_attr (.node ty nm props ch nx) "type" = some msg.type := by
          rw [hel.1, hel.2]; exact htype
        refine ⟨h1, ?_, ?_⟩
        · intro e he
          simp only [siblings, List.filter_cons, hie, if_true, List.mem_cons] at he
          rcases he with rfl | he
          · rw [htype2]; rfl
          · exact h2 e he
        · intro b
          rw [h3 b]
          simp only [siblings, List.filter_cons, hie, if_true, List.filterMap_cons, htype2]
          by_cases hbb : E.hash_string msg.type % E.MSG_CNT = b
          · subst hbb
            simp only [getD_set_self _ _ _ hb]
            simp
          · simp only [getD_set_ne _ _ _ _ hbb]
            simp [hbb]
      | failed p2 => simp [hm] at h
      | crash => simp [hm] at h
      | diverge => simp [hm] at h
    · have hie : is_element "message" (.node ty nm props ch nx) = false := by
        simp [is_element]; tauto
      simp only [hel, if_false] at h
      obtain ⟨h1, h2, h3⟩ := ihn p prot p1 prot1 hlen h
      refine ⟨h1, ?_, ?_⟩
      · intro e he
        simp only [siblings, List.filter_cons, hie] at he
        exact h2 e (by simpa using he)
      · intro b
        rw [h3 b]
        simp [siblings, List.filter_cons, hie]

/-- C5, the code at a dictionary that defines the name `A` twice: `load_field_types` looks up
the element name `field`, not the `name` attribute, finds nothing, and the load succeeds with
two records called `A` in one chain. -/
theorem duplicate_field_name_is_loaded :
    (field_elements (xmlDocGetRootElement dict_dup_field)).map (fun e => get_attr e "name")
      = [some "A", some "A"] ∧
    (fix_protocol_descr_init (sample_env dict_dup_field) 1 ⟨none⟩ "fix44.xml").isOk = true ∧
    (fix_protocol_descr_init (sample_env dict_dup_field) 1 ⟨none⟩ "fix44.xml").prot.field_types
      = [[], [⟨2, "A", .Int⟩, ⟨1, "A", .Int⟩], []] := by
  decide

/-- C6 fails at a dictionary with two messages of type `A`: the load succeeds and both
descriptors are in the table. -/
theorem duplicate_message_type_is_loaded :
    (message_elements (xmlDocGetRootElement dict_dup_message)).map (fun e => get_attr e "type")
      = [some "A", some "A"] ∧
    (fix_protocol_descr_init (sample_env dict_dup_message) 1 ⟨none⟩ "fix44.xml").isOk = true ∧
    message_field_nums
        (fix_protocol_descr_init (sample_env dict_dup_message) 1 ⟨none⟩ "fix44.xml").prot
      = [[], [("Logout", "A", [2]), ("Logon", "A", [1])]] := by
  decide

/-- C6 as amended: `fix_protocol_descr_init` does not compare type strings. When it succeeds,
every `<message>` element has a `type`, and the chain of every bucket `b` holds one
descriptor for every `<message>` element whose type hashes to `b`, a repeated type
included, the later element ahead of the earlier. -/
theorem messages_table_holds_every_message (E : Env) (fuel : Nat) (parser : FIXParser)
    (file : String) (doc : xmlDoc) (parser1 : FIXParser) (prot : FIXProtocolDescr)
    (hdoc : E.xmlParseFile file = some doc)
    (hinit : fix_protocol_descr_init E fuel parser file = .ok parser1 prot) :
    (∀ e ∈ message_elements (xmlDocGetRootElement doc), (get_attr e "type").isSome = true) ∧
    ∀ b, (prot.messages.getD b []).map (fun m => m.type)
      = (((message_elements (xmlDocGetRootElement doc)).filterMap
            (fun e => get_attr e "type")).filter
            (fun t => decide (E.hash_string t % E.MSG_CNT = b))).reverse := by
  obtain ⟨p2, p3, prot2, msg_node, _, _, hft, ⟨messages, hm1, hm2⟩, hloop⟩ :=
    fix_protocol_descr_init_ok E fuel parser file doc parser1 prot hdoc hinit
  obtain ⟨field, hfl, _⟩ := load_field_types_ok E _ _ _ _ _ hft
  obtain ⟨_, _, _, hmsgs, _, _⟩ := load_field_types_loop_ok E p2 field _ p3 prot2 (by simp) hfl
  obtain ⟨_, _, hscan⟩ := section_scan _ _ _ "messages" "message" hm1 hm2
  obtain ⟨_, h2, h3⟩ := load_messages_loop_ok E fuel _ msg_node p3 prot2 parser1 prot
    (by rw [hmsgs]; simp) hloop
  have hse : (siblings msg_node).filter (is_element "message")
      = message_elements (xmlDocGetRootElement doc) := hscan
  rw [hse] at h2 h3
  refine ⟨h2, fun b => ?_⟩
  rw [h3 b, hmsgs]
  simp only [List.getD_eq_getElem?_getD, List.getElem?_replicate]
  split <;> simp

/-- C6 as amended, at `dict_dup_message`: both messages of type `A` are in bucket 1. -/
theorem messages_table_holds_every_message_witness :
    (∀ e ∈ message_elements (xmlDocGetRootElement dict_dup_message),
      (get_attr e "type").isSome = true) ∧
    ∀ b, ((fix_protocol_descr_init (sample_env dict_dup_message) 1 ⟨none⟩
        "fix44.xml").prot.messages.getD b []).map (fun m => m.type)
      = (((message_elements (xmlDocGetRootElement dict_dup_message)).filterMap
            (fun e => get_attr e "type")).filter
            (fun t => decide ((sample_env dict_dup_message).hash_string t
              % (sample_env dict_dup_message).MSG_CNT = b))).reverse :=
  messages_table_holds_every_message (sample_env dict_dup_message) 1 ⟨none⟩ "fix44.xml"
    dict_dup_message ⟨none⟩ _ rfl rfl

/-- C7 fails at a dictionary of version `FIX.9.9`: the load succeeds and the description has
the value that stands for no version. -/
theorem unknown_version_is_loaded :
    get_attr (xmlDocGetRootElement dict_bad_version) "version" = some "FIX.9.9" ∧
    sample_str2FIXProtocolVerEnum (some "FIX.9.9") = .invalid ∧
    (fix_protocol_descr_init (sample_env dict_bad_version) 1 ⟨none⟩ "fix99.xml").isOk = true ∧
    (fix_protocol_descr_init (sample_env dict_bad_version) 1 ⟨none⟩ "fix99.xml").prot.version
      = .invalid := by
  decide

/-! ## References to components that are not defined -/

/-- C4 fails at a dictionary whose message refers to the component `C` that is not defined:
the load succeeds, with the fields before and after the reference. -/
theorem undefined_component_is_loaded :
    find_component (xmlDocGetRootElement dict_undefined_component) "C" = none ∧
    (fix_protocol_descr_init (sample_env dict_undefined_component) 1 ⟨none⟩ "fix44.xml").isOk
      = true ∧
    message_field_nums
        (fix_protocol_descr_init (sample_env dict_undefined_component) 1 ⟨none⟩ "fix44.xml").prot
      = [[], [("Logon", "A", [1, 2])]] := by
  decide

/-- The loop over the components loads nothing when no element it scans has the name. -/
theorem load_components_none
    (load : FIXParser → List FIXFieldDescr → xmlNodePtr → Outcome (List FIXFieldDescr))
    (C : String) (p : FIXParser) (fs : List FIXFieldDescr) (n : xmlNodePtr)
    (h : ∀ c ∈ siblings n, is_any_element c = true →
      ∃ name, get_attr c "name" = some name ∧ name ≠ C) :
    load_components load (some C) p fs n = .ok p fs := by
  induction n with
  | NULL => rfl
  | node ty nm props ch nx _ ihn =>
    have hnx := ihn (fun c hc => h c (by simp [siblings, hc]))
    rw [load_components.eq_def]
    simp only
    by_cases hty : ty = .XML_ELEMENT_NODE
    · obtain ⟨name, hname, hne⟩ := h (.node ty nm props ch nx) (by simp [siblings])
        (by simp [is_any_element, hty])
      rw [get_attr_node] at hname
      simp only [hty, if_true, hname, Ne.symm hne, if_false]
      exact hnx
    · simp only [hty, if_false]
      exact hnx

/-- C4 as amended: a reference `<component name="C"/>` to a name that no component has is
passed over. In a dictionary with a `<components>` section whose elements are `<component>`
elements with names, `load_fields` appends nothing for the reference, reports no error, and
goes on with the sibling after it. -/
theorem load_fields_loop_undefined_component (E : Env) (prot : FIXProtocolDescr)
    (root : xmlNodePtr)
    (load : FIXParser → List FIXFieldDescr → xmlNodePtr → Outcome (List FIXFieldDescr))
    (parser : FIXParser) (fields : List FIXFieldDescr) (props : List xmlAttr)
    (ch nx : xmlNodePtr) (C : String) (sec : xmlNodePtr)
    (hC : get_attr_loop "name" props = some C)
    (hsec : (siblings root.children).find? (is_element "components") = some sec)
    (hok : components_section_ok root = true)
    (hnames : ∀ c ∈ component_elements root, ∃ name, get_attr c "name" = some name ∧ name ≠ C) :
    load_fields_loop E prot root load parser fields (.node .XML_ELEMENT_NODE "component" props ch nx)
      = load_fields_loop E prot root load parser fields nx := by
  have hsec_ne : sec ≠ .NULL := by
    intro hnull
    have := List.find?_some hsec
    rw [hnull] at this
    simp [is_element] at this
  have hgf : get_first root "components" = some sec := by
    cases root with
    | NULL => simp [siblings, xmlNodePtr.children] at hsec
    | node ty nm props2 ch2 nx2 =>
      simp only [get_first, Option.some.injEq]
      rcases get_first_loop_find "components" ch2 with ⟨hnone, _⟩ | ⟨hfind, _⟩
      · simp only [xmlNodePtr.children] at hsec
        rw [hnone] at hsec
        exact absurd hsec (by simp)
      · simp only [xmlNodePtr.children] at hsec
        rw [hfind] at hsec
        exact Option.some.inj hsec
  obtain ⟨component, hgc⟩ : ∃ component, get_first sec "component" = some component := by
    cases sec with
    | NULL => exact absurd rfl hsec_ne
    | node ty nm props2 ch2 nx2 => exact ⟨_, rfl⟩
  obtain ⟨_, hsub, hscan⟩ := section_scan root sec component "components" "component" hgf hgc
  have hall : ∀ c ∈ siblings component, is_any_element c = true →
      ∃ name, get_attr c "name" = some name ∧ name ≠ C := by
    intro c hc hany
    have hcomp : is_element "component" c = true := by
      simp only [components_section_ok, hsec, List.all_eq_true] at hok
      have := hok c (hsub c hc)
      simpa [hany] using this
    apply hnames
    show c ∈ section_elements root "components" "component"
    rw [← hscan, List.mem_filter]
    exact ⟨hc, hcomp⟩
  have h1 : ¬ ("component" = "field") := by decide
  rw [load_fields_loop.eq_def]
  simp only [h1, and_false, and_self, if_false, if_true, hgf, hgc, hC,
    load_components_none load C parser fields component hall]

/-- C4 as amended, at the reference to `C` in `dict_undefined_component`, behind a list that
holds field `X`: the loop goes on with the field `Y` after the reference. -/
theorem load_fields_loop_undefined_component_witness :
    load_fields_loop (sample_env dict_undefined_component) logon_prot
        (xmlDocGetRootElement dict_undefined_component)
        (load_fields (sample_env dict_undefined_component) logon_prot
          (xmlDocGetRootElement dict_undefined_component) 0)
        ⟨none⟩ [.mk ⟨1, "X", .Int⟩ 1 [] none none]
        (.node .XML_ELEMENT_NODE "component" [⟨"name", "C"⟩] .NULL
          (el "field" [⟨"name", "B"⟩, ⟨"required", "N"⟩] .NULL .NULL))
      = .ok ⟨none⟩ [.mk ⟨1, "X", .Int⟩ 1 [] none none, .mk ⟨5, "B", .Int⟩ 0 [] none none] :=
  (load_fields_loop_undefined_component (sample_env dict_undefined_component) logon_prot
    (xmlDocGetRootElement dict_undefined_component)
    (load_fields (sample_env dict_undefined_component) logon_prot
      (xmlDocGetRootElement dict_undefined_component) 0)
    ⟨none⟩ [.mk ⟨1, "X", .Int⟩ 1 [] none none] [⟨"name", "C"⟩] .NULL
    (el "field" [⟨"name", "B"⟩, ⟨"required", "N"⟩] .NULL .NULL) "C"
    (get_first_loop "components" (xmlDocGetRootElement dict_undefined_component).children)
    rfl rfl (by decide) (by decide)).trans rfl

/-! ## The index of a message -/

theorem build_index_fld_ok (E : Env) (self : FieldPtr) (next : Option FieldPtr)
    (d d1 : FIXFieldDescr) (h : build_index_fld E self next d = some d1) :
    d1.field_type = d.field_type ∧ d1.flags = d.flags ∧ d1.next = next ∧
    (d.group = [] → d1.group = [] ∧ d1.group_index = d.group_index) ∧
    (d.group ≠ [] → ∃ idx0 r, d.group_index = some idx0 ∧
      build_index_from E self 0 d.group idx0 = some r ∧
      d1.group = r.1 ∧ d1.group_index = some r.2) := by
  cases d with
  | mk ft fl g gi nx =>
    rw [build_index_fld.eq_def] at h
    simp only at h
    by_cases hg : g.length = 0
    · simp only [hg, if_true, Option.some.injEq] at h
      subst h
      have hg2 : g = [] := List.length_eq_zero.mp hg
      simp [FIXFieldDescr.field_type, FIXFieldDescr.flags, FIXFieldDescr.next,
        FIXFieldDescr.group, FIXFieldDescr.group_index, hg2]
    · simp only [hg, if_false] at h
      have hg2 : g ≠ [] := fun hh => hg (by simp [hh])
      cases gi with
      | none => simp at h
      | some index =>
        simp only at h
        cases hb : build_index_from E self 0 g index with
        | none => simp [hb] at h
        | some r =>
          simp only [hb, Option.some.injEq] at h
          subst h
          simp only [FIXFieldDescr.field_type, FIXFieldDescr.flags, FIXFieldDescr.next,
            FIXFieldDescr.group, FIXFieldDescr.group_index, true_and]
          refine ⟨fun hh => absurd hh hg2, fun _ => ⟨index, r, rfl, hb, rfl, rfl⟩⟩

/-- One step of `build_index`: the entry at position `i`, and the rest of the array with the
index updated. -/
theorem build_index_from_cons (E : Env) (base : FieldPtr) (i : Nat) (fld : FIXFieldDescr)
    (rest : List FIXFieldDescr) (index : List (Option FieldPtr))
    (r : List FIXFieldDescr × List (Option FieldPtr))
    (h : build_index_from E base i (fld :: rest) index = some r) :
    ∃ head fld1 r1,
      index[fld.field_type.num % E.FIELD_DESCR_CNT]? = some head ∧
      build_index_fld E (base ++ [i]) head fld = some fld1 ∧
      build_index_from E base (i + 1) rest
        (index.set (fld.field_type.num % E.FIELD_DESCR_CNT) (some (base ++ [i]))) = some r1 ∧
      r = (fld1 :: r1.1, r1.2) := by
  rw [build_index_from.eq_def] at h
  simp only at h
  cases hh : index[fld.field_type.num % E.FIELD_DESCR_CNT]? with
  | none => simp [hh] at h
  | some head =>
    simp only [hh] at h
    cases hf : build_index_fld E (base ++ [i]) head fld with
    | none => simp [hf] at h
    | some fld1 =>
      simp only [hf] at h
      cases hr : build_index_from E base (i + 1) rest
          (index.set (fld.field_type.num % E.FIELD_DESCR_CNT) (some (base ++ [i]))) with
      | none => simp [hr] at h
      | some r1 =>
        simp only [hr, Option.some.injEq] at h
        exact ⟨head, fld1, r1, rfl, hf, rfl, h.symm⟩

/-- The chains that `build_index` makes: a walk from the head of the bucket of `num` comes to
the last entry of the array with that number, or goes on as the walk from the old head did.
`H` is the field array of the message, in which the array `fields` sits at `base`. -/
theorem build_index_from_walk (E : Env) (parser : FIXParser) (H : List FIXFieldDescr)
    (base : FieldPtr) (num : Nat) (fields : List FIXFieldDescr) :
    ∀ (i : Nat) (index : List (Option FieldPtr))
      (r : List FIXFieldDescr × List (Option FieldPtr)) (res : Outcome FieldPtr) (f0 : Nat),
      build_index_from E base i fields index = some r →
      index.length = E.FIELD_DESCR_CNT →
      (∀ k d, r.1[k]? = some d → field_at H (base ++ [i + k]) = some d) →
      (∀ head, index[num % E.FIELD_DESCR_CNT]? = some head →
        ∀ fuel, f0 ≤ fuel → field_chain_walk parser H num fuel head = res) →
      r.2.length = E.FIELD_DESCR_CNT ∧ r.1.length = fields.length ∧
      ∀ head, r.2[num % E.FIELD_DESCR_CNT]? = some head →
        ∀ fuel, f0 + fields.length ≤ fuel →
          field_chain_walk parser H num fuel head
            = match last_pos (has_num num) fields with
              | some k => .ok parser (base ++ [i + k])
              | none => res := by
  induction fields with
  | nil =>
    intro i index r res f0 hb hlen _ hwalk
    rw [build_index_from.eq_def] at hb
    simp only [Option.some.injEq] at hb
    subst hb
    refine ⟨hlen, rfl, ?_⟩
    intro head hhead fuel hfuel
    simp only [last_pos]
    exact hwalk head hhead fuel (by simpa using hfuel)
  | cons f rest ih =>
    intro i index r res f0 hb hlen hH hwalk
    obtain ⟨head0, fld1, r1, hhead0, hfld, hrest, hr⟩ := build_index_from_cons E base i f rest index r hb
    subst hr
    obtain ⟨hft, _, hnext, _, _⟩ := build_index_fld_ok E _ _ f fld1 hfld
    have hH0 : field_at H (base ++ [i]) = some fld1 := by
      have := hH 0 fld1 (by simp)
      simpa using this
    have hH1 : ∀ k d, r1.1[k]? = some d → field_at H (base ++ [i + 1 + k]) = some d := by
      intro k d hk
      have := hH (k + 1) d (by simpa using hk)
      rw [show i + 1 + k = i + (k + 1) by omega]
      exact this
    have hwalk1 : ∀ head,
        (index.set (f.field_type.num % E.FIELD_DESCR_CNT) (some (base ++ [i])))[num % E.FIELD_DESCR_CNT]?
          = some head →
        ∀ fuel, f0 + 1 ≤ fuel → field_chain_walk parser H num fuel head
          = if has_num num f = true then .ok parser (base ++ [i]) else res := by
      intro head hhead fuel hfuel
      by_cases hbk : f.field_type.num % E.FIELD_DESCR_CNT = num % E.FIELD_DESCR_CNT
      · rw [hbk] at hhead
        have hlt : num % E.FIELD_DESCR_CNT < index.length := by
          rw [hlen]; exact Nat.mod_lt _ E.field_descr_cnt_pos
        rw [List.getElem?_set_self hlt] at hhead
        simp only [Option.some.injEq] at hhead
        subst hhead
        obtain ⟨fuel1, rfl⟩ : ∃ fuel1, fuel = fuel1 + 1 := ⟨fuel - 1, by omega⟩
        rw [field_chain_walk, hH0]
        simp only [hft, has_num, decide_eq_true_eq]
        by_cases hnum : f.field_type.num = num
        · simp [hnum]
        · simp only [hnum, if_false]
          rw [hnext]
          exact hwalk head0 (by rw [← hbk]; exact hhead0) fuel1 (by omega)
      · rw [List.getElem?_set_ne hbk] at hhead
        have hnum : ¬ f.field_type.num = num := fun hh => hbk (by rw [hh])
        simp only [has_num, hnum, decide_False, Bool.false_eq_true, if_false]
        exact hwalk head hhead fuel (by omega)
    obtain ⟨h1, h2, h3⟩ := ih (i + 1) _ r1 _ (f0 + 1) hrest (by simpa using hlen) hH1 hwalk1
    refine ⟨h1, by simp [h2], ?_⟩
    intro head hhead fuel hfuel
    rw [h3 head hhead fuel (by simp only [List.length_cons] at hfuel; omega)]
    simp only [last_pos]
    cases hl : last_pos (has_num num) rest with
    | some k => simp only; rw [show i + 1 + k = i + (k + 1) by omega]
    | none =>
      simp only
      by_cases hp : has_num num f = true
      · simp [hp]
      · simp [hp]

theorem last_pos_some (P : FIXFieldDescr → Bool) (l : List FIXFieldDescr) (k : Nat)
    (h : last_pos P l = some k) : ∃ d, l[k]? = some d ∧ P d = true := by
  induction l generalizing k with
  | nil => simp [last_pos] at h
  | cons a l ih =>
    simp only [last_pos] at h
    cases hl : last_pos P l with
    | some j =>
      simp only [hl, Option.some.injEq] at h
      subst h
      obtain ⟨d, hd, hp⟩ := ih j hl
      exact ⟨d, by simpa using hd, hp⟩
    | none =>
      simp only [hl] at h
      by_cases hp : P a = true
      · simp only [hp, if_true, Option.some.injEq] at h
        subst h
        exact ⟨a, by simp, hp⟩
      · simp [hp] at h

theorem last_pos_none (P : FIXFieldDescr → Bool) (l : List FIXFieldDescr) :
    last_pos P l = none ↔ ∀ d ∈ l, P d = false := by
  induction l with
  | nil => simp [last_pos]
  | cons a l ih =>
    simp only [last_pos]
    cases hl : last_pos P l with
    | some j =>
      simp only [false_iff, reduceCtorEq]
      intro hall
      have := ih.mpr (fun d hd => hall d (by simp [hd]))
      rw [hl] at this
      exact absurd this (by simp)
    | none =>
      have hall := ih.mp hl
      by_cases hp : P a = true
      · simp [hp]
      · have hp2 : P a = false := by simpa using hp
        simp only [hp2, Bool.false_eq_true, if_false, true_iff]
        intro d hd
        simp only [List.mem_cons] at hd
        rcases hd with rfl | hd
        · exact hp2
        · exact hall d hd

theorem last_pos_has_num_congr (num : Nat) (l1 l2 : List FIXFieldDescr)
    (h : l1.map (fun d => d.field_type) = l2.map (fun d => d.field_type)) :
    last_pos (has_num num) l1 = last_pos (has_num num) l2 := by
  induction l1 generalizing l2 with
  | nil =>
    cases l2 with
    | nil => rfl
    | cons b l2 => simp at h
  | cons a l1 ih =>
    cases l2 with
    | nil => simp at h
    | cons b l2 =>
      simp only [List.map_cons, List.cons.injEq] at h
      simp only [last_pos, ih l2 h.2, has_num, h.1]

/-- The function `build_index` leaves the types of the entries as they are. -/
theorem build_index_from_field_types (E : Env) (base : FieldPtr) (fields : List FIXFieldDescr) :
    ∀ (i : Nat) (index : List (Option FieldPtr))
      (r : List FIXFieldDescr × List (Option FieldPtr)),
      build_index_from E base i fields index = some r →
      r.1.map (fun d => d.field_type) = fields.map (fun d => d.field_type) := by
  induction fields with
  | nil =>
    intro i index r hb
    rw [build_index_from.eq_def] at hb
    simp only [Option.some.injEq] at hb
    subst hb
    rfl
  | cons f rest ih =>
    intro i index r hb
    obtain ⟨head0, fld1, r1, _, hfld, hrest, hr⟩ := build_index_from_cons E base i f rest index r hb
    subst hr
    obtain ⟨hft, _⟩ := build_index_fld_ok E _ _ f fld1 hfld
    simp [hft, ih _ _ _ hrest]

theorem field_at_single (fields : List FIXFieldDescr) (k : Nat) :
    field_at fields [k] = fields[k]? := by
  simp only [field_at]
  cases fields[k]? <;> simp

/-- The lookup `get_fix_field_descr` in a message that `load_message` has returned comes to
the last entry of the given number in the field array of the message, to failure with the
error set when there is none. -/
theorem get_fix_field_descr_last_pos (E : Env) (fuel0 : Nat) (p : FIXParser)
    (msg_node root : xmlNodePtr) (prot : FIXProtocolDescr) (p1 : FIXParser)
    (msg : FIXMessageDescr)
    (hload : load_message E fuel0 p msg_node root prot = .ok p1 msg)
    (parser : FIXParser) (num fuel : Nat) (hfuel : msg.fields.length < fuel) :
    get_fix_field_descr E fuel parser msg num
      = match last_pos (has_num num) msg.fields with
        | some k => .ok parser [k]
        | none => .failed (set_fix_error parser .FIX_ERROR_UNKNOWN_FIELD) := by
  obtain ⟨_, _, fields, _, hb⟩ := load_message_ok E fuel0 p msg_node root prot p1 msg hload
  unfold build_index at hb
  have hfts := build_index_from_field_types E [] fields 0 _ _ hb
  obtain ⟨h1, h2, h3⟩ := build_index_from_walk E parser msg.fields [] num fields 0
    (List.replicate E.FIELD_DESCR_CNT none) (msg.fields, msg.field_index)
    (.failed (set_fix_error parser .FIX_ERROR_UNKNOWN_FIELD)) 1 hb (by simp)
    (by
      intro k d hk
      simp only [List.nil_append, Nat.zero_add]
      rw [field_at_single]; exact hk)
    (by
      intro head hhead fuel hfuel
      have hlt : num % E.FIELD_DESCR_CNT < E.FIELD_DESCR_CNT := Nat.mod_lt _ E.field_descr_cnt_pos
      simp only [List.getElem?_replicate, hlt, if_true, Option.some.injEq] at hhead
      subst hhead
      obtain ⟨fuel1, rfl⟩ : ∃ fuel1, fuel = fuel1 + 1 := ⟨fuel - 1, by omega⟩
      rfl)
  simp only at h1 h2 h3
  have hlt : num % E.FIELD_DESCR_CNT < msg.field_index.length := by
    rw [h1]; exact Nat.mod_lt _ E.field_descr_cnt_pos
  unfold get_fix_field_descr
  simp only [List.getElem?_eq_getElem hlt]
  rw [h3 _ (List.getElem?_eq_getElem hlt) fuel (by omega)]
  rw [last_pos_has_num_congr num msg.fields fields hfts]
  simp

/-- C8: in a message that `load_message` has returned, `get_fix_field_descr` agrees with a
linear search of the field array of the message. When some entry has the number, it returns
a pointer to an entry of that array (a position in it) that has the number; when no entry
has it, also when the number is declared inside a group only, it returns NULL with the
error `FIX_ERROR_UNKNOWN_FIELD` set. -/
theorem get_fix_field_descr_linear_search (E : Env) (fuel0 : Nat) (p : FIXParser)
    (msg_node root : xmlNodePtr) (prot : FIXProtocolDescr) (p1 : FIXParser)
    (msg : FIXMessageDescr)
    (hload : load_message E fuel0 p msg_node root prot = .ok p1 msg)
    (parser : FIXParser) (num fuel : Nat) (hfuel : msg.fields.length < fuel) :
    ((∃ d ∈ msg.fields, d.field_type.num = num) →
      ∃ k d, get_fix_field_descr E fuel parser msg num = .ok parser [k] ∧
        msg.fields[k]? = some d ∧ field_at msg.fields [k] = some d ∧ d.field_type.num = num) ∧
    ((¬ ∃ d ∈ msg.fields, d.field_type.num = num) →
      get_fix_field_descr E fuel parser msg num
        = .failed (set_fix_error parser .FIX_ERROR_UNKNOWN_FIELD)) := by
  have heq := get_fix_field_descr_last_pos E fuel0 p msg_node root prot p1 msg hload parser num
    fuel hfuel
  constructor
  · rintro ⟨d, hd, hnum⟩
    cases hl : last_pos (has_num num) msg.fields with
    | none =>
      have := (last_pos_none _ _).mp hl d hd
      simp [has_num, hnum] at this
    | some k =>
      obtain ⟨d1, hd1, hp⟩ := last_pos_some _ _ k hl
      rw [hl] at heq
      exact ⟨k, d1, heq, hd1, by rw [field_at_single]; exact hd1, by simpa [has_num] using hp⟩
  · intro hno
    have hl : last_pos (has_num num) msg.fields = none := by
      rw [last_pos_none]
      intro d hd
      simp only [has_num, decide_eq_false_iff_not]
      exact fun hh => hno ⟨d, hd, hh⟩
    rw [hl] at heq
    exact heq

/-! ## The index of a group -/

theorem index_allocated_all_append (E : Env) (a b : List FIXFieldDescr) :
    index_allocated_all E (a ++ b) = (index_allocated_all E a && index_allocated_all E b) := by
  induction a with
  | nil => simp [index_allocated_all]
  | cons d a ih => simp [index_allocated_all, ih, Bool.and_assoc]

theorem index_allocated_all_getElem (E : Env) (l : List FIXFieldDescr) (k : Nat)
    (d : FIXFieldDescr) (h : index_allocated_all E l = true) (hk : l[k]? = some d) :
    index_allocated E d = true := by
  induction l generalizing k with
  | nil => simp at hk
  | cons a l ih =>
    simp only [index_allocated_all, Bool.and_eq_true] at h
    cases k with
    | zero =>
      simp only [List.getElem?_cons_zero, Option.some.injEq] at hk
      subst hk
      exact h.1
    | succ k => exact ih k h.2 (by simpa using hk)

theorem index_allocated_mk (E : Env) (d : FIXFieldDescr) (h : index_allocated E d = true) :
    (d.group ≠ [] → d.group_index = some (List.replicate E.FIELD_DESCR_CNT none)) ∧
    index_allocated_all E d.group = true := by
  cases d with
  | mk ft fl g gi nx =>
    rw [index_allocated.eq_def] at h
    simp only [Bool.and_eq_true, Bool.or_eq_true, decide_eq_true_eq] at h
    refine ⟨fun hg => ?_, h.2⟩
    rcases h.1 with h1 | h1
    · exact absurd (List.length_eq_zero.mp h1) hg
    · exact h1

theorem index_allocated_all_field_at (E : Env) (q : FieldPtr) :
    ∀ (fields : List FIXFieldDescr) (d : FIXFieldDescr),
      index_allocated_all E fields = true → field_at fields q = some d →
      index_allocated E d = true := by
  induction q with
  | nil => intro fields d _ h; simp [field_at] at h
  | cons k q ih =>
    intro fields d hall h
    simp only [field_at] at h
    cases hk : fields[k]? with
    | none => simp [hk] at h
    | some d0 =>
      simp only [hk] at h
      have hd0 := index_allocated_all_getElem E fields k d0 hall hk
      by_cases hq : q = []
      · simp only [hq, if_true, Option.some.injEq] at h
        subst h
        exact hd0
      · simp only [hq, if_false] at h
        exact ih d0.group d (index_allocated_mk E d0 hd0).2 h

/-- The loop of `load_fields` keeps the arrays as `build_index` needs them. -/
theorem load_components_index_allocated (E : Env)
    (load : FIXParser → List FIXFieldDescr → xmlNodePtr → Outcome (List FIXFieldDescr))
    (hload : ∀ p fs c p1 fs1, load p fs c = .ok p1 fs1 →
      index_allocated_all E fs = true → index_allocated_all E fs1 = true)
    (cn : Option String) (n : xmlNodePtr) :
    ∀ (p : FIXParser) (fs : List FIXFieldDescr) (p1 : FIXParser) (fs1 : List FIXFieldDescr),
      load_components load cn p fs n = .ok p1 fs1 →
      index_allocated_all E fs = true → index_allocated_all E fs1 = true := by
  induction n with
  | NULL =>
    intro p fs p1 fs1 h hfs
    simp only [load_components, Outcome.ok.injEq] at h
    rw [← h.2]; exact hfs
  | node ty nm props ch nx _ ihn =>
    intro p fs p1 fs1 h hfs
    rw [load_components.eq_def] at h
    simp only at h
    by_cases hty : ty = .XML_ELEMENT_NODE
    · simp only [hty, if_true] at h
      cases cn with
      | none => simp at h
      | some C =>
        cases hname : get_attr_loop "name" props with
        | none => simp [hname] at h
        | some name =>
          simp only [hname] at h
          by_cases hCn : C = name
          · subst hCn
            simp only [if_true] at h
            cases hl : load p fs (.node .XML_ELEMENT_NODE nm props ch nx) with
            | ok p2 fs2 =>
              rw [hl] at h
              exact ihn p2 fs2 p1 fs1 h (hload _ _ _ _ _ hl hfs)
            | failed p2 => rw [hl] at h; exact absurd h (by simp)
            | crash => rw [hl] at h; exact absurd h (by simp)
            | diverge => rw [hl] at h; exact absurd h (by simp)
          · simp only [hCn, if_false] at h
            exact ihn p fs p1 fs1 h hfs
    · simp only [hty, if_false] at h
      exact ihn p fs p1 fs1 h hfs

theorem load_fields_loop_index_allocated (E : Env) (prot : FIXProtocolDescr) (root : xmlNodePtr)
    (load : FIXParser → List FIXFieldDescr → xmlNodePtr → Outcome (List FIXFieldDescr))
    (hload : ∀ p fs c p1 fs1, load p fs c = .ok p1 fs1 →
      index_allocated_all E fs = true → index_allocated_all E fs1 = true)
    (n : xmlNodePtr) :
    ∀ (p : FIXParser) (fs : List FIXFieldDescr) (p1 : FIXParser) (fs1 : List FIXFieldDescr),
      load_fields_loop E prot root load p fs n = .ok p1 fs1 →
      index_allocated_all E fs = true → index_allocated_all E fs1 = true := by
  induction n with
  | NULL =>
    intro p fs p1 fs1 h hfs
    simp only [load_fields_loop, Outcome.ok.injEq] at h
    rw [← h.2]; exact hfs
  | node ty nm props ch nx ihc ihn =>
    intro p fs p1 fs1 h hfs
    rw [load_fields_loop.eq_def] at h
    simp only at h
    by_cases hf : ty = .XML_ELEMENT_NODE ∧ nm = "field"
    · simp only [hf, and_self, if_true] at h
      cases hname : get_attr_loop "name" props with
      | none => simp [hname] at h
      | some name =>
        simp only [hname] at h
        cases hft : get_fix_field_type E prot name with
        | none => simp [hft] at h
        | some ft =>
          simp only [hft] at h
          cases hreq : get_attr_loop "required" props with
          | none => simp [hreq] at h
          | some required =>
            simp only [hreq] at h
            refine ihn _ _ _ _ h ?_
            rw [index_allocated_all_append, hfs]
            simp [index_allocated_all, index_allocated]
    · simp only [hf, if_false] at h
      by_cases hc : ty = .XML_ELEMENT_NODE ∧ nm = "component"
      · simp only [hc, and_self, if_true] at h
        cases h1 : get_first root "components" with
        | none => simp [h1] at h
        | some components =>
          simp only [h1] at h
          cases h2 : get_first components "component" with
          | none => simp [h2] at h
          | some component =>
            simp only [h2] at h
            cases hlc : load_components load (get_attr_loop "name" props) p fs component with
            | ok p2 fs2 =>
              simp only [hlc] at h
              exact ihn _ _ _ _ h
                (load_components_index_allocated E load hload _ component p fs p2 fs2 hlc hfs)
            | failed p2 => simp [hlc] at h
            | crash => simp [hlc] at h
            | diverge => simp [hlc] at h
      · simp only [hc, if_false] at h
        by_cases hg : ty = .XML_ELEMENT_NODE ∧ nm = "group"
        · simp only [hg, and_self, if_true] at h
          cases hname : get_attr_loop "name" props with
          | none => simp [hname] at h
          | some name =>
            simp only [hname] at h
            cases hft : get_fix_field_type E prot name with
            | none => simp [hft] at h
            | some ft =>
              simp only [hft] at h
              cases hreq : get_attr_loop "required" props with
              | none => simp [hreq] at h
              | some required =>
                simp only [hreq] at h
                cases hsub : load_fields_loop E prot root load p [] ch with
                | ok p2 sub =>
                  simp only [hsub] at h
                  have hs := ihc _ _ _ _ hsub (by simp [index_allocated_all])
                  refine ihn _ _ _ _ h ?_
                  rw [index_allocated_all_append, hfs]
                  simp [index_allocated_all, index_allocated, hs]
                | failed p2 => simp [hsub] at h
                | crash => simp [hsub] at h
                | diverge => simp [hsub] at h
        · simp only [hg, if_false] at h
          exact ihn _ _ _ _ h hfs

theorem load_fields_index_allocated (E : Env) (prot : FIXProtocolDescr) (root : xmlNodePtr)
    (fuel : Nat) :
    ∀ (p : FIXParser) (fs : List FIXFieldDescr) (c : xmlNodePtr) (p1 : FIXParser)
      (fs1 : List FIXFieldDescr),
      load_fields E prot root fuel p fs c = .ok p1 fs1 →
      index_allocated_all E fs = true → index_allocated_all E fs1 = true := by
  induction fuel with
  | zero => intro p fs c p1 fs1 h; simp [load_fields] at h
  | succ fuel ih =>
    intro p fs c p1 fs1 h
    cases c with
    | NULL => simp [load_fields] at h
    | node ty nm props ch nx =>
      simp only [load_fields] at h
      exact load_fields_loop_index_allocated E prot root _ ih ch p fs p1 fs1 h

/-- The entry that `build_index` leaves at position `k` is the one that was there, with the
chain link set and its own `group` array indexed. -/
theorem build_index_from_getElem (E : Env) (base : FieldPtr) (fields : List FIXFieldDescr) :
    ∀ (i : Nat) (index : List (Option FieldPtr))
      (r : List FIXFieldDescr × List (Option FieldPtr)) (k : Nat) (d1 : FIXFieldDescr),
      build_index_from E base i fields index = some r → r.1[k]? = some d1 →
      ∃ d0 head, fields[k]? = some d0 ∧
        build_index_fld E (base ++ [i + k]) head d0 = some d1 := by
  induction fields with
  | nil =>
    intro i index r k d1 hb hk
    rw [build_index_from.eq_def] at hb
    simp only [Option.some.injEq] at hb
    subst hb
    simp at hk
  | cons f rest ih =>
    intro i index r k d1 hb hk
    obtain ⟨head0, fld1, r1, _, hfld, hrest, hr⟩ := build_index_from_cons E base i f rest index r hb
    subst hr
    cases k with
    | zero =>
      simp only [List.getElem?_cons_zero, Option.some.injEq] at hk
      subst hk
      exact ⟨f, head0, by simp, by simpa using hfld⟩
    | succ k =>
      obtain ⟨d0, head, hd0, hbf⟩ := ih (i + 1) _ r1 k d1 hrest (by simpa using hk)
      exact ⟨d0, head, by simpa using hd0, by rw [show i + (k + 1) = i + 1 + k by omega]; exact hbf⟩

/-- The array of a group that sits at `q` in an indexed field array was indexed by
`build_index` with `q` as the address of the group. -/
theorem build_index_from_field_at (E : Env) (q : FieldPtr) :
    ∀ (base : FieldPtr) (fields : List FIXFieldDescr) (index : List (Option FieldPtr))
      (r : List FIXFieldDescr × List (Option FieldPtr)) (g1 : FIXFieldDescr),
      build_index_from E base 0 fields index = some r →
      field_at r.1 q = some g1 → g1.group ≠ [] →
      ∃ g0 idx0 gi1, field_at fields q = some g0 ∧ g0.group ≠ [] ∧
        g0.group_index = some idx0 ∧
        build_index_from E (base ++ q) 0 g0.group idx0 = some (g1.group, gi1) ∧
        g1.group_index = some gi1 := by
  induction q with
  | nil => intro base fields index r g1 _ h; simp [field_at] at h
  | cons k q ih =>
    intro base fields index r g1 hb h hg1
    simp only [field_at] at h
    cases hk : r.1[k]? with
    | none => simp [hk] at h
    | some d1 =>
      simp only [hk] at h
      obtain ⟨d0, head, hd0, hbf⟩ := build_index_from_getElem E base fields 0 index r k d1 hb hk
      simp only [Nat.zero_add] at hbf
      obtain ⟨_, _, _, hempty, hfull⟩ := build_index_fld_ok E _ _ d0 d1 hbf
      by_cases hq : q = []
      · simp only [hq, if_true, Option.some.injEq] at h
        subst h
        subst hq
        have hne : d0.group ≠ [] := fun hh => hg1 (hempty hh).1
        obtain ⟨idx0, r1, hgi, hbg, hg, hgi1⟩ := hfull hne
        refine ⟨d0, idx0, r1.2, ?_, hne, hgi, ?_, hgi1⟩
        · simp [field_at, hd0]
        · rw [hg]; exact hbg
      · simp only [hq, if_false] at h
        have hne1 : d1.group ≠ [] := by
          intro hh
          rw [hh] at h
          cases q with
          | nil => exact hq rfl
          | cons a q => simp [field_at] at h
        have hne : d0.group ≠ [] := fun hh => hne1 (hempty hh).1
        obtain ⟨idx0, r1, hgi, hbg, hg, hgi1⟩ := hfull hne
        rw [hg] at h
        obtain ⟨g0, idx1, gi1, hfa, hg0, hgi0, hbb, hgg⟩ := ih (base ++ [k]) d0.group idx0 r1 g1 hbg h hg1
        refine ⟨g0, idx1, gi1, ?_, hg0, hgi0, ?_, hgg⟩
        · simp [field_at, hd0, hq, hfa]
        · rw [show base ++ k :: q = base ++ [k] ++ q by simp]; exact hbb

/-- The entries of the `group` array of the descriptor at `q` sit at `q` followed by their
position. -/
theorem field_at_append_single (q : FieldPtr) :
    ∀ (H : List FIXFieldDescr) (g : FIXFieldDescr) (k : Nat),
      field_at H q = some g → field_at H (q ++ [k]) = g.group[k]? := by
  induction q with
  | nil => intro H g k h; simp [field_at] at h
  | cons j q ih =>
    intro H g k h
    simp only [field_at] at h
    simp only [List.cons_append, field_at]
    cases hj : H[j]? with
    | none => simp [hj] at h
    | some d =>
      simp only [hj] at h ⊢
      by_cases hq : q = []
      · subst hq
        simp only [if_true, Option.some.injEq] at h
        subst h
        simp only [List.append_eq, List.nil_append, List.cons_ne_nil, if_false]
        exact field_at_single _ _
      · simp only [hq, if_false] at h
        have : q ++ [k] ≠ [] := by simp
        simp only [List.append_eq, this, if_false]
        exact ih d.group g k h

/-- The lookup `get_fix_group_field_descr` for a group with subfields at `q` in a message
that `load_message` has returned comes to the last entry of the given number in the `group`
array of that group, to failure with the error set when there is none. -/
theorem get_fix_group_field_descr_last_pos (E : Env) (fuel0 : Nat) (p : FIXParser)
    (msg_node root : xmlNodePtr) (prot : FIXProtocolDescr) (p1 : FIXParser)
    (msg : FIXMessageDescr)
    (hload : load_message E fuel0 p msg_node root prot = .ok p1 msg)
    (q : FieldPtr) (g : FIXFieldDescr) (hg : field_at msg.fields q = some g)
    (hne : g.group ≠ [])
    (parser : FIXParser) (num fuel : Nat) (hfuel : g.group.length < fuel) :
    get_fix_group_field_descr E fuel parser msg.fields q num
      = match last_pos (has_num num) g.group with
        | some k => .ok parser (q ++ [k])
        | none => .failed (set_fix_error parser .FIX_ERROR_UNKNOWN_FIELD) := by
  obtain ⟨_, _, fields, hlf, hb⟩ := load_message_ok E fuel0 p msg_node root prot p1 msg hload
  have hall := load_fields_index_allocated E prot root fuel0 p [] msg_node p1 fields hlf
    (by simp [index_allocated_all])
  unfold build_index at hb
  obtain ⟨g0, idx0, gi1, hg0, hne0, hgi0, hbg, hgi⟩ :=
    build_index_from_field_at E q [] fields _ (msg.fields, msg.field_index) g hb hg hne
  simp only [List.nil_append] at hbg
  have hidx0 : idx0 = List.replicate E.FIELD_DESCR_CNT none := by
    have := (index_allocated_mk E g0 (index_allocated_all_field_at E q fields g0 hall hg0)).1 hne0
    rw [hgi0] at this
    exact Option.some.inj this
  subst hidx0
  have hfts := build_index_from_field_types E q g0.group 0 _ _ hbg
  obtain ⟨h1, h2, h3⟩ := build_index_from_walk E parser msg.fields q num g0.group 0
    (List.replicate E.FIELD_DESCR_CNT none) (g.group, gi1)
    (.failed (set_fix_error parser .FIX_ERROR_UNKNOWN_FIELD)) 1 hbg (by simp)
    (by
      intro k d hk
      simp only [Nat.zero_add]
      rw [field_at_append_single q msg.fields g k hg]; exact hk)
    (by
      intro head hhead fuel hfuel
      have hlt : num % E.FIELD_DESCR_CNT < E.FIELD_DESCR_CNT := Nat.mod_lt _ E.field_descr_cnt_pos
      simp only [List.getElem?_replicate, hlt, if_true, Option.some.injEq] at hhead
      subst hhead
      obtain ⟨fuel1, rfl⟩ : ∃ fuel1, fuel = fuel1 + 1 := ⟨fuel - 1, by omega⟩
      rfl)
  simp only at h1 h2 h3
  have hlt : num % E.FIELD_DESCR_CNT < gi1.length := by
    rw [h1]; exact Nat.mod_lt _ E.field_descr_cnt_pos
  unfold get_fix_group_field_descr
  simp only [hg, hgi, List.getElem?_eq_getElem hlt]
  rw [h3 _ (List.getElem?_eq_getElem hlt) fuel (by omega)]
  rw [last_pos_has_num_congr num g.group g0.group hfts]
  simp

/-- C9: for a group descriptor `g` with at least one subfield, at `q` in a message that
`load_message` has returned, `get_fix_group_field_descr` finds a number exactly when an entry
of the `group` array of `g` itself has it. The pointer it returns is `q` followed by a
position in that array, that is an entry of this group and of nothing else (not of the
message, of another group, or of a group below `g`), and that entry has the number;
otherwise it returns NULL with `FIX_ERROR_UNKNOWN_FIELD` set. -/
theorem get_fix_group_field_descr_own_entries (E : Env) (fuel0 : Nat) (p : FIXParser)
    (msg_node root : xmlNodePtr) (prot : FIXProtocolDescr) (p1 : FIXParser)
    (msg : FIXMessageDescr)
    (hload : load_message E fuel0 p msg_node root prot = .ok p1 msg)
    (q : FieldPtr) (g : FIXFieldDescr) (hg : field_at msg.fields q = some g)
    (hne : g.group ≠ [])
    (parser : FIXParser) (num fuel : Nat) (hfuel : g.group.length < fuel) :
    ((∃ d ∈ g.group, d.field_type.num = num) →
      ∃ k d, get_fix_group_field_descr E fuel parser msg.fields q num = .ok parser (q ++ [k]) ∧
        g.group[k]? = some d ∧ field_at msg.fields (q ++ [k]) = some d ∧
        d.field_type.num = num) ∧
    ((¬ ∃ d ∈ g.group, d.field_type.num = num) →
      get_fix_group_field_descr E fuel parser msg.fields q num
        = .failed (set_fix_error parser .FIX_ERROR_UNKNOWN_FIELD)) := by
  have heq := get_fix_group_field_descr_last_pos E fuel0 p msg_node root prot p1 msg hload q g hg
    hne parser num fuel hfuel
  constructor
  · rintro ⟨d, hd, hnum⟩
    cases hl : last_pos (has_num num) g.group with
    | none =>
      have := (last_pos_none _ _).mp hl d hd
      simp [has_num, hnum] at this
    | some k =>
      obtain ⟨d1, hd1, hp⟩ := last_pos_some _ _ k hl
      rw [hl] at heq
      exact ⟨k, d1, heq, hd1, by rw [field_at_append_single q msg.fields g k hg]; exact hd1,
        by simpa [has_num] using hp⟩
  · intro hno
    have hl : last_pos (has_num num) g.group = none := by
      rw [last_pos_none]
      intro d hd
      simp only [has_num, decide_eq_false_iff_not]
      exact fun hh => hno ⟨d, hd, hh⟩
    rw [hl] at heq
    exact heq

/-- C8 at the message of `dict_logon`: number 5 is found at position 1 of the field array,
number 7 is not found. -/
theorem get_fix_field_descr_linear_search_witness :
    (∃ k d, get_fix_field_descr (sample_env dict_logon) 4 ⟨none⟩ logon_msg 5 = .ok ⟨none⟩ [k] ∧
      logon_msg.fields[k]? = some d ∧ field_at logon_msg.fields [k] = some d ∧
      d.field_type.num = 5) ∧
    get_fix_field_descr (sample_env dict_logon) 4 ⟨none⟩ logon_msg 7
      = .failed (set_fix_error ⟨none⟩ .FIX_ERROR_UNKNOWN_FIELD) :=
  ⟨(get_fix_field_descr_linear_search (sample_env dict_logon) 2 ⟨none⟩ logon_message
      (xmlDocGetRootElement dict_logon) logon_prot ⟨none⟩ logon_msg rfl ⟨none⟩ 5 4
      (by decide)).1 (by decide),
   (get_fix_field_descr_linear_search (sample_env dict_logon) 2 ⟨none⟩ logon_message
      (xmlDocGetRootElement dict_logon) logon_prot ⟨none⟩ logon_msg rfl ⟨none⟩ 7 4
      (by decide)).2 (by decide)⟩

/-- C9 at the group `G` of the message of `dict_logon`: number 5 is found at position 0 of
the array of the group, number 1 (field `A` of the message) is not found. -/
theorem get_fix_group_field_descr_own_entries_witness :
    (∃ k d, get_fix_group_field_descr (sample_env dict_logon) 2 ⟨none⟩ logon_msg.fields [2] 5
        = .ok ⟨none⟩ ([2] ++ [k]) ∧
      logon_group.group[k]? = some d ∧ field_at logon_msg.fields ([2] ++ [k]) = some d ∧
      d.field_type.num = 5) ∧
    get_fix_group_field_descr (sample_env dict_logon) 2 ⟨none⟩ logon_msg.fields [2] 1
      = .failed (set_fix_error ⟨none⟩ .FIX_ERROR_UNKNOWN_FIELD) :=
  ⟨(get_fix_group_field_descr_own_entries (sample_env dict_logon) 2 ⟨none⟩ logon_message
      (xmlDocGetRootElement dict_logon) logon_prot ⟨none⟩ logon_msg rfl [2] logon_group rfl
      (fun h => absurd (congrArg List.length h) (by decide)) ⟨none⟩ 5 2 (by decide)).1 (by decide),
   (get_fix_group_field_descr_own_entries (sample_env dict_logon) 2 ⟨none⟩ logon_message
      (xmlDocGetRootElement dict_logon) logon_prot ⟨none⟩ logon_msg rfl [2] logon_group rfl
      (fun h => absurd (congrArg List.length h) (by decide)) ⟨none⟩ 1 2 (by decide)).2 (by decide)⟩

/-! ## Names of fields that are not defined -/

theorem get_fix_field_type_congr (E : Env) (prot1 prot2 : FIXProtocolDescr)
    (h : prot1.field_types = prot2.field_types) (name : String) :
    get_fix_field_type E prot1 name = get_fix_field_type E prot2 name := by
  unfold get_fix_field_type
  rw [h]

/-- When the loop over the messages succeeds, every `<message>` element was loaded with
success, against the field type table the loop started with. -/
theorem load_messages_loop_ok_mem (E : Env) (fuel : Nat) (root : xmlNodePtr) (n : xmlNodePtr) :
    ∀ (p : FIXParser) (prot : FIXProtocolDescr) (p1 : FIXParser) (prot1 : FIXProtocolDescr),
      load_messages_loop E fuel root p prot n = .ok p1 prot1 →
      ∀ M ∈ (siblings n).filter (is_element "message"),
        ∃ p2 prot2 p3 msg, load_message E fuel p2 M root prot2 = .ok p3 msg ∧
          prot2.field_types = prot.field_types := by
  induction n with
  | NULL => intro p prot p1 prot1 _ M hM; simp [siblings] at hM
  | node ty nm props ch nx _ ihn =>
    intro p prot p1 prot1 h M hM
    rw [load_messages_loop.eq_def] at h
    simp only at h
    by_cases hel : ty = .XML_ELEMENT_NODE ∧ nm = "message"
    · have hie : is_element "message" (.node ty nm props ch nx) = true := by
        simp [is_element, hel]
      simp only [siblings, List.filter_cons, hie, if_true, List.mem_cons] at hM
      simp only [hel, and_self, if_true] at h
      cases hm : load_message E fuel p (.node .XML_ELEMENT_NODE "message" props ch nx) root prot with
      | ok p2 msg =>
        simp only [hm] at h
        rcases hM with rfl | hM
        · exact ⟨p, prot, p2, msg, by rw [hel.1, hel.2]; exact hm, rfl⟩
        · obtain ⟨p3, prot3, p4, msg4, hl, hft⟩ := ihn _ _ _ _ h M hM
          exact ⟨p3, prot3, p4, msg4, hl, hft⟩
      | failed p2 => simp [hm] at h
      | crash => simp [hm] at h
      | diverge => simp [hm] at h
    · have hie : is_element "message" (.node ty nm props ch nx) = false := by
        simp [is_element]; tauto
      simp only [siblings, List.filter_cons, hie] at hM
      simp only [hel, if_false] at h
      exact ihn _ _ _ _ h M (by simpa using hM)

mutual
/-- On a descriptor whose arrays are allocated `build_index` makes no access outside them. -/
theorem build_index_fld_total (E : Env) : ∀ (d : FIXFieldDescr) (self : FieldPtr)
    (next : Option FieldPtr), index_allocated E d = true →
    ∃ d1, build_index_fld E self next d = some d1
  | .mk ft fl g gi nx, self, next, h => by
    rw [index_allocated.eq_def] at h
    simp only [Bool.and_eq_true, Bool.or_eq_true, decide_eq_true_eq] at h
    rw [build_index_fld.eq_def]
    simp only
    by_cases hg : g.length = 0
    · simp [hg]
    · simp only [hg, if_false]
      rcases h.1 with h1 | h1
      · exact absurd h1 hg
      · subst h1
        simp only
        obtain ⟨r, hr⟩ := build_index_from_total E g self 0
          (List.replicate E.FIELD_DESCR_CNT none) h.2 (by simp)
        rw [hr]
        exact ⟨_, rfl⟩
termination_by structural d => d
/-- The same for an array of descriptors and an index of `FIELD_DESCR_CNT` slots. -/
theorem build_index_from_total (E : Env) : ∀ (l : List FIXFieldDescr) (base : FieldPtr)
    (i : Nat) (index : List (Option FieldPtr)), index_allocated_all E l = true →
    index.length = E.FIELD_DESCR_CNT →
    ∃ r, build_index_from E base i l index = some r
  | [], base, i, index, _, _ => ⟨([], index), by rw [build_index_from.eq_def]⟩
  | d :: l, base, i, index, h, hlen => by
    simp only [index_allocated_all, Bool.and_eq_true] at h
    rw [build_index_from.eq_def]
    simp only
    have hlt : d.field_type.num % E.FIELD_DESCR_CNT < index.length := by
      rw [hlen]; exact Nat.mod_lt _ E.field_descr_cnt_pos
    rw [List.getElem?_eq_getElem hlt]
    simp only
    obtain ⟨d1, hd1⟩ := build_index_fld_total E d (base ++ [i])
      (index[d.field_type.num % E.FIELD_DESCR_CNT]) h.1
    rw [hd1]
    simp only
    obtain ⟨r, hr⟩ := build_index_from_total E l base (i + 1)
      (index.set (d.field_type.num % E.FIELD_DESCR_CNT) (some (base ++ [i]))) h.2 (by simpa using hlen)
    rw [hr]
    exact ⟨_, rfl⟩
termination_by structural l => l
end

theorem rank_le_rank_bound (root : xmlNodePtr) (rank : String → Nat) (c : xmlNodePtr)
    (D : String) (hc : c ∈ component_elements root) (hD : get_attr c "name" = some D) :
    rank D ≤ rank_bound root rank := by
  have hmem : D ∈ (component_elements root).filterMap (fun c => get_attr c "name") := by
    rw [List.mem_filterMap]; exact ⟨c, hc, hD⟩
  unfold rank_bound
  generalize (component_elements root).filterMap (fun c => get_attr c "name") = l at hmem
  induction l with
  | nil => simp at hmem
  | cons a l ih =>
    simp only [List.mem_cons] at hmem
    simp only [List.foldr_cons]
    rcases hmem with rfl | hmem
    · exact Nat.le_max_left _ _
    · exact Nat.le_trans (ih hmem) (Nat.le_max_right _ _)

theorem load_components_settled
    (load : FIXParser → List FIXFieldDescr → xmlNodePtr → Outcome (List FIXFieldDescr))
    (C : String) (n : xmlNodePtr)
    (hall : ∀ c ∈ siblings n, is_any_element c = true →
      ∃ name, get_attr c "name" = some name ∧
        (name = C → ∀ p fs, (load p fs c).settled = true)) :
    ∀ (p : FIXParser) (fs : List FIXFieldDescr),
      (load_components load (some C) p fs n).settled = true := by
  induction n with
  | NULL => intro p fs; rfl
  | node ty nm props ch nx _ ihn =>
    intro p fs
    have hnx := ihn (fun c hc => hall c (by simp [siblings, hc]))
    rw [load_components.eq_def]
    simp only
    by_cases hty : ty = .XML_ELEMENT_NODE
    · obtain ⟨name, hname, hl⟩ := hall (.node ty nm props ch nx) (by simp [siblings])
        (by simp [is_any_element, hty])
      rw [get_attr_node] at hname
      simp only [hty, if_true, hname]
      by_cases hCn : C = name
      · simp only [hCn, if_true]
        have := hl hCn.symm p fs
        rw [hty] at this
        cases hlo : load p fs (.node .XML_ELEMENT_NODE nm props ch nx) with
        | ok p2 fs2 => simp only; rw [← hCn]; exact hnx p2 fs2
        | failed p2 => rfl
        | crash => rw [hlo] at this; exact absurd this (by simp [Outcome.settled])
        | diverge => rw [hlo] at this; exact absurd this (by simp [Outcome.settled])
      · simp only [hCn, if_false]
        exact hnx p fs
    · simp only [hty, if_false]
      exact hnx p fs

/-- The loop of `load_fields` comes back on a body that has its attributes, when the loader
of components comes back on every component the body refers to. -/
theorem load_fields_loop_settled (E : Env) (prot : FIXProtocolDescr) (root : xmlNodePtr)
    (load : FIXParser → List FIXFieldDescr → xmlNodePtr → Outcome (List FIXFieldDescr))
    (sec first : xmlNodePtr)
    (hg1 : get_first root "components" = some sec)
    (hg2 : get_first sec "component" = some first)
    (hcands : ∀ c ∈ siblings first, is_any_element c = true →
      c ∈ component_elements root ∧ ∃ name, get_attr c "name" = some name)
    (n : xmlNodePtr) :
    (∀ C ∈ body_refs n, ∀ c ∈ component_elements root, get_attr c "name" = some C →
      ∀ p fs, (load p fs c).settled = true) →
    body_ok n = true →
    ∀ (p : FIXParser) (fs : List FIXFieldDescr),
      (load_fields_loop E prot root load p fs n).settled = true := by
  induction n with
  | NULL => intro _ _ p fs; rfl
  | node ty nm props ch nx ihc ihn =>
    intro hload hbody p fs
    rw [body_ok] at hbody
    simp only [Bool.and_eq_true] at hbody
    have hnx := ihn (fun C hC => hload C (by simp [body_refs, hC])) hbody.2
    rw [load_fields_loop.eq_def]
    simp only
    by_cases hf : ty = .XML_ELEMENT_NODE ∧ nm = "field"
    · have hb := hbody.1
      rw [if_pos hf, Bool.and_eq_true] at hb
      obtain ⟨name, hname⟩ := Option.isSome_iff_exists.mp hb.1
      obtain ⟨required, hreq⟩ := Option.isSome_iff_exists.mp hb.2
      simp only [hf, and_self, if_true, hname, hreq]
      cases hft : get_fix_field_type E prot name with
      | none => rfl
      | some ft => exact hnx _ _
    · simp only [hf, if_false]
      by_cases hc : ty = .XML_ELEMENT_NODE ∧ nm = "component"
      · have hb := hbody.1
        rw [if_neg hf, if_pos hc] at hb
        obtain ⟨C, hC⟩ := Option.isSome_iff_exists.mp hb
        simp only [hc, and_self, if_true, hg1, hg2, hC]
        have hls := load_components_settled load C first (by
          intro c hcm hany
          obtain ⟨hmem, name, hname⟩ := hcands c hcm hany
          refine ⟨name, hname, fun hnC => ?_⟩
          subst hnC
          exact hload name (by simp [body_refs, hc, hC]) c hmem hname) p fs
        cases hlc : load_components load (some C) p fs first with
        | ok p2 fs2 => exact hnx _ _
        | failed p2 => rfl
        | crash => rw [hlc] at hls; exact absurd hls (by simp [Outcome.settled])
        | diverge => rw [hlc] at hls; exact absurd hls (by simp [Outcome.settled])
      · simp only [hc, if_false]
        by_cases hg : ty = .XML_ELEMENT_NODE ∧ nm = "group"
        · have hb := hbody.1
          rw [if_neg hf, if_neg hc, if_pos hg, Bool.and_eq_true, Bool.and_eq_true] at hb
          obtain ⟨name, hname⟩ := Option.isSome_iff_exists.mp hb.1.1
          obtain ⟨required, hreq⟩ := Option.isSome_iff_exists.mp hb.1.2
          have hbch := hb.2
          simp only [hg, and_self, if_true, hname, hreq]
          cases hft : get_fix_field_type E prot name with
          | none => rfl
          | some ft =>
            simp only
            have hsub := ihc (fun C hC => hload C (by simp [body_refs, hf, hc, hg, hC])) hbch p []
            cases hs : load_fields_loop E prot root load p [] ch with
            | ok p2 sub => exact hnx _ _
            | failed p2 => rfl
            | crash => rw [hs] at hsub; exact absurd hsub (by simp [Outcome.settled])
            | diverge => rw [hs] at hsub; exact absurd hsub (by simp [Outcome.settled])
        · simp only [hg, if_false]
          exact hnx _ _

theorem has_section_get_first (root : xmlNodePtr) (sect name : String)
    (h : has_section root sect = true) :
    root ≠ .NULL ∧ ∃ sec first, get_first root sect = some sec ∧ get_first sec name = some first := by
  unfold has_section at h
  obtain ⟨sec, hsec⟩ := Option.isSome_iff_exists.mp h
  have hsec_ne : sec ≠ .NULL := by
    intro hnull
    have := List.find?_some hsec
    rw [hnull] at this
    simp [is_element] at this
  cases root with
  | NULL => simp [siblings, xmlNodePtr.children] at hsec
  | node ty nm props2 ch2 nx2 =>
    refine ⟨by simp, sec, ?_⟩
    have hgf : get_first (.node ty nm props2 ch2 nx2) sect = some sec := by
      simp only [get_first, Option.some.injEq]
      rcases get_first_loop_find sect ch2 with ⟨hnone, _⟩ | ⟨hfind, _⟩
      · simp only [xmlNodePtr.children] at hsec
        rw [hnone] at hsec
        exact absurd hsec (by simp)
      · simp only [xmlNodePtr.children] at hsec
        rw [hfind] at hsec
        exact Option.some.inj hsec
    cases sec with
    | NULL => exact absurd rfl hsec_ne
    | node ty3 nm3 props3 ch3 nx3 => exact ⟨_, hgf, rfl⟩

/-- What `dictionary_ok` says, piece by piece. -/
theorem dictionary_ok_parts (root : xmlNodePtr) (h : dictionary_ok root = true) :
    has_section root "fields" = true ∧
    (∀ f ∈ field_elements root,
      (get_attr f "number").isSome = true ∧ (get_attr f "name").isSome = true) ∧
    has_section root "messages" = true ∧
    (∀ M ∈ message_elements root, (get_attr M "name").isSome = true ∧
      (get_attr M "type").isSome = true ∧ body_ok M.children = true) ∧
    has_section root "components" = true ∧
    components_section_ok root = true ∧
    (∀ c ∈ component_elements root, (get_attr c "name").isSome = true ∧
      body_ok c.children = true) := by
  unfold dictionary_ok at h
  simp only [Bool.and_eq_true, List.all_eq_true] at h
  obtain ⟨⟨⟨⟨⟨⟨h1, h2⟩, h3⟩, h4⟩, h5⟩, h6⟩, h7⟩ := h
  exact ⟨h1, h2, h3, fun M hM => ⟨(h4 M hM).1.1, (h4 M hM).1.2, (h4 M hM).2⟩, h5, h6, h7⟩

/-- In a dictionary of the right grammar, what `load_fields` scans for a component are the
`<component>` elements, and they have names. -/
theorem component_candidates (root : xmlNodePtr) (hok : dictionary_ok root = true) :
    ∃ sec first, get_first root "components" = some sec ∧
      get_first sec "component" = some first ∧
      ∀ c ∈ siblings first, is_any_element c = true →
        c ∈ component_elements root ∧ ∃ name, get_attr c "name" = some name := by
  obtain ⟨_, _, _, _, hsec, hgram, hcomps⟩ := dictionary_ok_parts root hok
  obtain ⟨_, sec, first, hg1, hg2⟩ := has_section_get_first root "components" "component" hsec
  refine ⟨sec, first, hg1, hg2, ?_⟩
  obtain ⟨hfind, hsub, hscan⟩ := section_scan root sec first "components" "component" hg1 hg2
  intro c hc hany
  have hcomp : is_element "component" c = true := by
    simp only [components_section_ok, hfind, List.all_eq_true] at hgram
    have := hgram c (hsub c hc)
    simpa [hany] using this
  have hmem : c ∈ component_elements root := by
    show c ∈ section_elements root "components" "component"
    rw [← hscan, List.mem_filter]
    exact ⟨hc, hcomp⟩
  exact ⟨hmem, Option.isSome_iff_exists.mp (hcomps c hmem).1⟩

theorem children_of_element (name : String) (c : xmlNodePtr) (h : is_element name c = true) :
    ∃ ty nm props ch nx, c = .node ty nm props ch nx ∧ c.children = ch := by
  cases c with
  | NULL => simp [is_element] at h
  | node ty nm props ch nx => exact ⟨ty, nm, props, ch, nx, rfl, rfl⟩

theorem mem_section_elements (root : xmlNodePtr) (sect name : String) (c : xmlNodePtr)
    (h : c ∈ section_elements root sect name) : is_element name c = true := by
  unfold section_elements at h
  split at h
  · simp at h
  · exact (List.mem_filter.mp h).2

/-- With acyclic component references, `load_fields` comes back on every component when the
fuel is above the rank of the component. -/
theorem load_fields_component_settled (E : Env) (prot : FIXProtocolDescr) (root : xmlNodePtr)
    (rank : String → Nat) (hok : dictionary_ok root = true)
    (hrank : components_ranked root rank = true) (fuel : Nat) :
    ∀ c ∈ component_elements root, ∀ D, get_attr c "name" = some D → rank D < fuel →
      ∀ p fs, (load_fields E prot root fuel p fs c).settled = true := by
  obtain ⟨sec, first, hg1, hg2, hcands⟩ := component_candidates root hok
  obtain ⟨_, _, _, _, _, _, hcomps⟩ := dictionary_ok_parts root hok
  induction fuel with
  | zero => intro c _ D _ h; exact absurd h (by omega)
  | succ fuel ih =>
    intro c hc D hD hlt p fs
    obtain ⟨ty, nm, props, ch, nx, rfl, hch⟩ := children_of_element "component" c
      (mem_section_elements _ _ _ _ hc)
    simp only [load_fields]
    refine load_fields_loop_settled E prot root _ sec first hg1 hg2 hcands ch ?_ ?_ p fs
    · intro C hC c2 hc2 hC2
      apply ih c2 hc2 C hC2
      have := hrank
      simp only [components_ranked, List.all_eq_true] at this
      have h2 := this _ hc
      rw [hD] at h2
      simp only [List.all_eq_true, decide_eq_true_eq, hch] at h2
      have := h2 C hC
      omega
    · have := (hcomps _ hc).2
      rw [hch] at this
      exact this

/-- With acyclic component references, `load_fields` comes back on every message when the
fuel is above the largest rank by two. -/
theorem load_fields_message_settled (E : Env) (prot : FIXProtocolDescr) (root : xmlNodePtr)
    (rank : String → Nat) (hok : dictionary_ok root = true)
    (hrank : components_ranked root rank = true) (fuel : Nat)
    (hfuel : rank_bound root rank + 1 < fuel) (M : xmlNodePtr)
    (hM : M ∈ message_elements root) :
    ∀ p fs, (load_fields E prot root fuel p fs M).settled = true := by
  obtain ⟨sec, first, hg1, hg2, hcands⟩ := component_candidates root hok
  obtain ⟨_, _, _, hmsgs, _, _, _⟩ := dictionary_ok_parts root hok
  intro p fs
  obtain ⟨fuel1, rfl⟩ : ∃ fuel1, fuel = fuel1 + 1 := ⟨fuel - 1, by omega⟩
  obtain ⟨ty, nm, props, ch, nx, rfl, hch⟩ := children_of_element "message" M
    (mem_section_elements _ _ _ _ hM)
  simp only [load_fields]
  refine load_fields_loop_settled E prot root _ sec first hg1 hg2 hcands ch ?_ ?_ p fs
  · intro C _ c2 hc2 hC2
    apply load_fields_component_settled E prot root rank hok hrank fuel1 c2 hc2 C hC2
    have := rank_le_rank_bound root rank c2 C hc2 hC2
    omega
  · have := (hmsgs _ hM).2.2
    rw [hch] at this
    exact this

theorem get_fix_field_type_with_version (E : Env) (f : Option String → FIXProtocolVerEnum)
    (prot : FIXProtocolDescr) (v : FIXProtocolVerEnum) (name : String) :
    get_fix_field_type (E.with_version_map f) (prot.with_version v) name
      = get_fix_field_type E prot name := rfl

theorem load_field_types_loop_with_version (E : Env) (f : Option String → FIXProtocolVerEnum)
    (v : FIXProtocolVerEnum) (p : FIXParser) (n : xmlNodePtr) :
    ∀ prot, load_field_types_loop (E.with_version_map f) p (prot.with_version v) n
      = (load_field_types_loop E p prot n).map (fun pr => pr.with_version v) := by
  induction n with
  | NULL => intro prot; rfl
  | node ty nm props ch nx _ ihn =>
    intro prot
    rw [load_field_types_loop.eq_def, load_field_types_loop.eq_def E]
    simp only [get_fix_field_type_with_version]
    by_cases hel : ty = .XML_ELEMENT_NODE ∧ nm = "field"
    · simp only [hel, and_self, if_true]
      cases get_fix_field_type E prot "field" with
      | some ft => rfl
      | none =>
        simp only
        cases get_attr_loop "number" props with
        | none => rfl
        | some number =>
          cases get_attr_loop "name" props with
          | none => rfl
          | some name =>
            exact ihn
              { prot with
                field_types := prot.field_types.set (E.hash_string name % E.FIELD_TYPE_CNT)
                  ({ num := to_uint32 (atoi number), name := name,
                     type := E.str2FIXFIXFieldType (get_attr_loop "type" props) } ::
                    prot.field_types.getD (E.hash_string name % E.FIELD_TYPE_CNT) []) }
    · simp only [hel, if_false]
      exact ihn prot

theorem load_fields_loop_with_version (E : Env) (f : Option String → FIXProtocolVerEnum)
    (v : FIXProtocolVerEnum) (prot : FIXProtocolDescr) (root : xmlNodePtr)
    (load : FIXParser → List FIXFieldDescr → xmlNodePtr → Outcome (List FIXFieldDescr))
    (n : xmlNodePtr) :
    ∀ p fs, load_fields_loop (E.with_version_map f) (prot.with_version v) root load p fs n
      = load_fields_loop E prot root load p fs n := by
  induction n with
  | NULL => intro p fs; rfl
  | node ty nm props ch nx ihc ihn =>
    intro p fs
    rw [load_fields_loop.eq_def, load_fields_loop.eq_def E]
    simp only [get_fix_field_type_with_version, ihc, ihn]
    rfl

theorem load_fields_with_version (E : Env) (f : Option String → FIXProtocolVerEnum)
    (v : FIXProtocolVerEnum) (prot : FIXProtocolDescr) (root : xmlNodePtr) (fuel : Nat) :
    ∀ p fs c, load_fields (E.with_version_map f) (prot.with_version v) root fuel p fs c
      = load_fields E prot root fuel p fs c := by
  induction fuel with
  | zero => intro p fs c; rfl
  | succ fuel ih =>
    intro p fs c
    cases c with
    | NULL => rfl
    | node ty nm props ch nx =>
      simp only [load_fields]
      rw [show load_fields (E.with_version_map f) (prot.with_version v) root fuel
        = load_fields E prot root fuel from funext fun p => funext fun fs => funext fun c => ih p fs c]
      exact load_fields_loop_with_version E f v prot root _ ch p fs

mutual
theorem build_index_fld_with_version (E : Env) (f : Option String → FIXProtocolVerEnum) :
    ∀ (d : FIXFieldDescr) (self : FieldPtr) (next : Option FieldPtr),
      build_index_fld (E.with_version_map f) self next d = build_index_fld E self next d
  | .mk ft fl g gi nx, self, next => by
    rw [build_index_fld.eq_def, build_index_fld.eq_def E]
    simp only
    cases gi with
    | none => rfl
    | some index =>
      simp only [build_index_from_with_version E f g self 0 index]
termination_by structural d => d
theorem build_index_from_with_version (E : Env) (f : Option String → FIXProtocolVerEnum) :
    ∀ (l : List FIXFieldDescr) (base : FieldPtr) (i : Nat) (index : List (Option FieldPtr)),
      build_index_from (E.with_version_map f) base i l index = build_index_from E base i l index
  | [], base, i, index => by rw [build_index_from.eq_def, build_index_from.eq_def E]
  | d :: l, base, i, index => by
    rw [build_index_from.eq_def, build_index_from.eq_def E]
    simp only [build_index_fld_with_version E f d, build_index_from_with_version E f l]
    rfl
termination_by structural l => l
end

theorem load_message_with_version (E : Env) (f : Option String → FIXProtocolVerEnum)
    (v : FIXProtocolVerEnum) (fuel : Nat) (p : FIXParser) (n root : xmlNodePtr)
    (prot : FIXProtocolDescr) :
    load_message (E.with_version_map f) fuel p n root (prot.with_version v)
      = load_message E fuel p n root prot := by
  unfold load_message build_index
  simp only [load_fields_with_version, build_index_from_with_version]
  rfl

theorem load_messages_loop_with_version (E : Env) (f : Option String → FIXProtocolVerEnum)
    (v : FIXProtocolVerEnum) (fuel : Nat) (root : xmlNodePtr) (n : xmlNodePtr) :
    ∀ p prot, load_messages_loop (E.with_version_map f) fuel root p (prot.with_version v) n
      = (load_messages_loop E fuel root p prot n).map (fun pr => pr.with_version v) := by
  induction n with
  | NULL => intro p prot; rfl
  | node ty nm props ch nx _ ihn =>
    intro p prot
    rw [load_messages_loop.eq_def, load_messages_loop.eq_def E]
    simp only [load_message_with_version]
    by_cases hel : ty = .XML_ELEMENT_NODE ∧ nm = "message"
    · simp only [hel, and_self, if_true]
      cases load_message E fuel p (.node .XML_ELEMENT_NODE "message" props ch nx) root prot with
      | ok p2 msg =>
        exact ihn p2
          { prot with
            messages := prot.messages.set (E.hash_string msg.type % E.MSG_CNT)
              (msg :: prot.messages.getD (E.hash_string msg.type % E.MSG_CNT) []) }
      | failed p2 => rfl
      | crash => rfl
      | diverge => rfl
    · simp only [hel, if_false]
      exact ihn p prot

theorem load_field_types_with_version (E : Env) (f : Option String → FIXProtocolVerEnum)
    (v : FIXProtocolVerEnum) (p : FIXParser) (prot : FIXProtocolDescr) (root : xmlNodePtr) :
    load_field_types (E.with_version_map f) p (prot.with_version v) root
      = (load_field_types E p prot root).map (fun pr => pr.with_version v) := by
  unfold load_field_types
  cases get_first root "fields" with
  | none => rfl
  | some fields =>
    simp only
    cases get_first fields "field" with
    | none => rfl
    | some field => exact load_field_types_loop_with_version E f v p field prot

/-- What `str2FIXProtocolVerEnum` returns is stored, and it is all that depends on it: with
another `str2FIXProtocolVerEnum` the load comes to the same outcome, but for the version in
the description. -/
theorem fix_protocol_descr_init_with_version (E : Env) (f : Option String → FIXProtocolVerEnum)
    (fuel : Nat) (parser : FIXParser) (file : String) (doc : xmlDoc)
    (hdoc : E.xmlParseFile file = some doc) :
    fix_protocol_descr_init (E.with_version_map f) fuel parser file
      = (fix_protocol_descr_init E fuel parser file).map
          (fun prot => prot.with_version (f (get_attr (xmlDocGetRootElement doc) "version"))) := by
  have hdoc2 : (E.with_version_map f).xmlParseFile file = some doc := hdoc
  unfold fix_protocol_descr_init
  simp only [hdoc, hdoc2]
  have hv : (E.with_version_map f).xml_validate parser doc = E.xml_validate parser doc := rfl
  rw [hv]
  cases E.xml_validate parser doc with
  | mk pv b =>
    cases b with
    | false => rfl
    | true =>
      simp only
      cases hr : xmlDocGetRootElement doc with
      | NULL => rfl
      | node ty nm props ch nx =>
        simp only
        have h1 := load_field_types_with_version E f
          (f (get_attr (.node ty nm props ch nx) "version")) pv
          ⟨get_version E (.node ty nm props ch nx), List.replicate E.FIELD_TYPE_CNT [],
            List.replicate E.MSG_CNT []⟩ (.node ty nm props ch nx)
        have h2 : (⟨get_version (E.with_version_map f) (.node ty nm props ch nx),
            List.replicate (E.with_version_map f).FIELD_TYPE_CNT [],
            List.replicate (E.with_version_map f).MSG_CNT []⟩ : FIXProtocolDescr)
            = (⟨get_version E (.node ty nm props ch nx), List.replicate E.FIELD_TYPE_CNT [],
                List.replicate E.MSG_CNT []⟩ : FIXProtocolDescr).with_version
                (f (get_attr (.node ty nm props ch nx) "version")) := rfl
        rw [h2, h1]
        cases load_field_types E pv
          ⟨get_version E (.node ty nm props ch nx), List.replicate E.FIELD_TYPE_CNT [],
            List.replicate E.MSG_CNT []⟩ (.node ty nm props ch nx) with
        | ok p2 prot1 =>
          simp only [Outcome.map_ok]
          cases get_first (.node ty nm props ch nx) "messages" with
          | none => rfl
          | some messages =>
            simp only
            cases get_first messages "message" with
            | none => rfl
            | some msg_node => exact load_messages_loop_with_version E f _ fuel _ msg_node p2 prot1
        | failed p2 => rfl
        | crash => rfl
        | diverge => rfl

/-- C7 as amended: `fix_protocol_descr_init` does not check the version. The description it
returns has as `version` what `str2FIXProtocolVerEnum` gives for the `version` attribute of
the root, a protocol version or not; and with any other `str2FIXProtocolVerEnum` in its
place the load has the same outcome, only the stored version being the other value. -/
theorem version_is_stored_unchecked (E : Env) (fuel : Nat) (parser : FIXParser)
    (file : String) (doc : xmlDoc) (hdoc : E.xmlParseFile file = some doc) :
    (∀ parser1 prot, fix_protocol_descr_init E fuel parser file = .ok parser1 prot →
      prot.version
        = E.str2FIXProtocolVerEnum (get_attr (xmlDocGetRootElement doc) "version")) ∧
    (∀ f : Option String → FIXProtocolVerEnum,
      fix_protocol_descr_init (E.with_version_map f) fuel parser file
        = (fix_protocol_descr_init E fuel parser file).map
            (fun prot => prot.with_version
              (f (get_attr (xmlDocGetRootElement doc) "version")))) := by
  refine ⟨?_, fun f => fix_protocol_descr_init_with_version E f fuel parser file doc hdoc⟩
  intro parser1 prot hinit
  obtain ⟨p2, p3, prot2, msg_node, _, _, hft, _, hloop⟩ :=
    fix_protocol_descr_init_ok E fuel parser file doc parser1 prot hdoc hinit
  obtain ⟨field, hfl, _⟩ := load_field_types_ok E _ _ _ _ _ hft
  obtain ⟨_, _, hver, _, _, _⟩ := load_field_types_loop_ok E p2 field _ p3 prot2 (by simp) hfl
  rw [(load_messages_loop_field_types E fuel _ msg_node p3 prot2 parser1 prot hloop).2, hver]
  rfl

/-- C7 as amended, at `dict_bad_version`: the value for no version is stored, and a
`str2FIXProtocolVerEnum` that returns FIX.4.4 for every string gives the same load with
FIX.4.4 stored. -/
theorem version_is_stored_unchecked_witness :
    (fix_protocol_descr_init (sample_env dict_bad_version) 1 ⟨none⟩ "fix99.xml").prot.version
      = .invalid ∧
    fix_protocol_descr_init ((sample_env dict_bad_version).with_version_map (fun _ => .FIX44)) 1
        ⟨none⟩ "fix99.xml"
      = (fix_protocol_descr_init (sample_env dict_bad_version) 1 ⟨none⟩ "fix99.xml").map
          (fun prot => prot.with_version .FIX44) :=
  ⟨(version_is_stored_unchecked (sample_env dict_bad_version) 1 ⟨none⟩ "fix99.xml"
      dict_bad_version rfl).1 ⟨none⟩ _ rfl,
   (version_is_stored_unchecked (sample_env dict_bad_version) 1 ⟨none⟩ "fix99.xml"
      dict_bad_version rfl).2 (fun _ => .FIX44)⟩

/-! ## The field list of a message in a loaded dictionary -/

theorem load_fields_loop_congr_prot (E : Env) (prot1 prot2 : FIXProtocolDescr)
    (h : prot1.field_types = prot2.field_types) (root : xmlNodePtr)
    (load : FIXParser → List FIXFieldDescr → xmlNodePtr → Outcome (List FIXFieldDescr))
    (n : xmlNodePtr) :
    ∀ p fs, load_fields_loop E prot1 root load p fs n = load_fields_loop E prot2 root load p fs n := by
  induction n with
  | NULL => intro p fs; rfl
  | node ty nm props ch nx ihc ihn =>
    intro p fs
    rw [load_fields_loop.eq_def, load_fields_loop.eq_def E prot2]
    simp only [get_fix_field_type_congr E prot1 prot2 h, ihc, ihn]

/-- The function `load_fields` reads of the description the field type table only. -/
theorem load_fields_congr_prot (E : Env) (prot1 prot2 : FIXProtocolDescr)
    (h : prot1.field_types = prot2.field_types) (root : xmlNodePtr) (fuel : Nat) :
    ∀ p fs c, load_fields E prot1 root fuel p fs c = load_fields E prot2 root fuel p fs c := by
  induction fuel with
  | zero => intro p fs c; rfl
  | succ fuel ih =>
    intro p fs c
    cases c with
    | NULL => rfl
    | node ty nm props ch nx =>
      simp only [load_fields]
      rw [show load_fields E prot1 root fuel = load_fields E prot2 root fuel
        from funext fun p => funext fun fs => funext fun c => ih p fs c]
      exact load_fields_loop_congr_prot E prot1 prot2 h root _ ch p fs

/-- C2: in a dictionary that `fix_protocol_descr_init` has loaded, whose component names are
pairwise distinct (and whose `<components>` section holds `<component>` elements only, as
its grammar says), `load_fields` has built a field list for every message `M`, and that list
is the expansion of the body of `M` as the specification words it: the body in document
order, each component reference replaced in place by the expansion of the children of the
component of that name, each descriptor with the flags of its own `required` attribute. -/
theorem load_fields_eq_expand_spec (E : Env) (fuel : Nat) (parser : FIXParser) (file : String)
    (doc : xmlDoc) (parser1 : FIXParser) (prot : FIXProtocolDescr)
    (hdoc : E.xmlParseFile file = some doc)
    (hinit : fix_protocol_descr_init E fuel parser file = .ok parser1 prot)
    (hok : components_section_ok (xmlDocGetRootElement doc) = true)
    (huniq : component_names_unique (xmlDocGetRootElement doc))
    (M : xmlNodePtr) (hM : M ∈ message_elements (xmlDocGetRootElement doc)) :
    ∃ p fields,
      load_fields E prot (xmlDocGetRootElement doc) fuel p [] M = .ok p fields ∧
      expand_spec E prot (xmlDocGetRootElement doc) fuel M = some fields := by
  obtain ⟨p2, p3, prot2, msg_node, _, _, _, ⟨messages, hm1, hm2⟩, hloop⟩ :=
    fix_protocol_descr_init_ok E fuel parser file doc parser1 prot hdoc hinit
  obtain ⟨_, _, hscan⟩ := section_scan _ _ _ "messages" "message" hm1 hm2
  have hM2 : M ∈ (siblings msg_node).filter (is_element "message") := by
    rw [hscan]; exact hM
  obtain ⟨p4, prot4, p5, msg, hl, hfts⟩ :=
    load_messages_loop_ok_mem E fuel _ msg_node p3 prot2 parser1 prot hloop M hM2
  obtain ⟨_, _, fields, hlf, _⟩ := load_message_ok E fuel p4 M _ prot4 p5 msg hl
  have hprot : prot4.field_types = prot.field_types := by
    rw [hfts, (load_messages_loop_field_types E fuel _ msg_node p3 prot2 parser1 prot hloop).1]
  rw [load_fields_congr_prot E prot4 prot hprot] at hlf
  obtain ⟨l, hl2, hp, hfs⟩ := load_fields_refines E prot _ hok huniq fuel M p4 [] p5 fields hlf
  subst hp
  refine ⟨p5, fields, hlf, ?_⟩
  rw [hl2, hfs, List.nil_append]

/-- C2 at the message of `dict_logon`: field `A`, then field `B` of component `C` in the place
of the reference, then group `G` with its field `B`. -/
theorem load_fields_eq_expand_spec_witness :
    ∃ p fields,
      load_fields (sample_env dict_logon) logon_prot (xmlDocGetRootElement dict_logon) 2 p []
        logon_message = .ok p fields ∧
      expand_spec (sample_env dict_logon) logon_prot (xmlDocGetRootElement dict_logon) 2
        logon_message = some fields :=
  load_fields_eq_expand_spec (sample_env dict_logon) 2 ⟨none⟩ "fix44.xml" dict_logon ⟨none⟩
    logon_prot rfl rfl (by decide) (by decide) logon_message (by decide)

/-! ## The descriptor of a field and of a group -/

/-- The outcome with its value, when there is one. -/
theorem Outcome.map_eq_ok {α β : Type} (f : α → β) (o : Outcome α) (p : FIXParser) (b : β)
    (h : o.map f = .ok p b) : ∃ a, o = .ok p a ∧ f a = b := by
  cases o with
  | ok q a =>
    simp only [Outcome.map_ok, Outcome.ok.injEq] at h
    exact ⟨a, by rw [h.1], h.2⟩
  | failed q => simp at h
  | crash => simp at h
  | diverge => simp at h

/-- C11: at a `<field>` or `<group>` element whose `name` is defined (and that has its
`required` attribute) the loop of `load_fields` appends one descriptor `d` behind the list
`fields`: `d.field_type` is the record that `get_fix_field_type` finds for the name, and
`d.flags` is `FIELD_FLAG_REQUIRED` when `required` is the string `Y` and 0 otherwise, so no
bit outside `FIELD_FLAG_REQUIRED` is set, and the bit is set exactly for `Y`. The loop goes
on to the next sibling; it stops before only when the body of the group does. -/
theorem load_fields_loop_field_descr (E : Env) (prot : FIXProtocolDescr) (root : xmlNodePtr)
    (fuel : Nat) (parser : FIXParser) (fields : List FIXFieldDescr) (nm : String)
    (props : List xmlAttr) (ch nx : xmlNodePtr) (X required : String) (ft : FIXFieldType)
    (hnm : nm = "field" ∨ nm = "group")
    (hX : get_attr_loop "name" props = some X)
    (hft : get_fix_field_type E prot X = some ft)
    (hreq : get_attr_loop "required" props = some required) :
    (load_fields_loop E prot root (load_fields E prot root fuel) parser fields
        (.node .XML_ELEMENT_NODE nm props ch nx)
      = match (if nm = "group" then
            load_fields_loop E prot root (load_fields E prot root fuel) parser [] ch
          else .ok parser []) with
        | .ok parser1 sub =>
          (load_fields_loop E prot root (load_fields E prot root fuel) parser1 [] nx).map
            (fun rest => fields ++
              .mk ft (if required = "Y" then E.FIELD_FLAG_REQUIRED else 0) sub
                (if nm = "group" then some (List.replicate E.FIELD_DESCR_CNT none) else none)
                none :: rest)
        | .failed parser1 => .failed parser1
        | .crash => .crash
        | .diverge => .diverge) ∧
    (∀ parser1 fields1,
      load_fields_loop E prot root (load_fields E prot root fuel) parser fields
          (.node .XML_ELEMENT_NODE nm props ch nx) = .ok parser1 fields1 →
      ∃ d, fields1[fields.length]? = some d ∧ d.field_type = ft ∧
        d.flags = (if required = "Y" then E.FIELD_FLAG_REQUIRED else 0) ∧
        d.flags &&& E.FIELD_FLAG_REQUIRED = d.flags ∧
        (E.FIELD_FLAG_REQUIRED ≠ 0 →
          (d.flags &&& E.FIELD_FLAG_REQUIRED = E.FIELD_FLAG_REQUIRED ↔ required = "Y"))) := by
  have heq : load_fields_loop E prot root (load_fields E prot root fuel) parser fields
        (.node .XML_ELEMENT_NODE nm props ch nx)
      = match (if nm = "group" then
            load_fields_loop E prot root (load_fields E prot root fuel) parser [] ch
          else .ok parser []) with
        | .ok parser1 sub =>
          (load_fields_loop E prot root (load_fields E prot root fuel) parser1 [] nx).map
            (fun rest => fields ++
              .mk ft (if required = "Y" then E.FIELD_FLAG_REQUIRED else 0) sub
                (if nm = "group" then some (List.replicate E.FIELD_DESCR_CNT none) else none)
                none :: rest)
        | .failed parser1 => .failed parser1
        | .crash => .crash
        | .diverge => .diverge := by
    rw [load_fields_loop.eq_def]
    rcases hnm with hnm | hnm
    · subst hnm
      have h1 : ¬ ("field" = "group") := by decide
      simp only [hX, hft, hreq, h1, and_self, if_false, if_true]
      rw [load_fields_loop_append E prot root _ (load_fields_append E prot root fuel) nx]
      congr 1
      funext rest
      simp
    · subst hnm
      have h1 : ¬ ("group" = "field") := by decide
      have h2 : ¬ ("group" = "component") := by decide
      simp only [hX, hft, hreq, h1, h2, and_false, and_self, if_false, if_true]
      cases hsub : load_fields_loop E prot root (load_fields E prot root fuel) parser [] ch with
      | ok p2 sub =>
        simp only
        rw [load_fields_loop_append E prot root _ (load_fields_append E prot root fuel) nx]
        congr 1
        funext rest
        simp
      | failed p2 => rfl
      | crash => rfl
      | diverge => rfl
  refine ⟨heq, ?_⟩
  intro parser1 fields1 hok
  rw [heq] at hok
  cases hsub : (if nm = "group" then
      load_fields_loop E prot root (load_fields E prot root fuel) parser [] ch
    else Outcome.ok parser []) with
  | ok p2 sub =>
    rw [hsub] at hok
    simp only at hok
    obtain ⟨rest, _, hrest⟩ := Outcome.map_eq_ok _ _ _ _ hok
    refine ⟨.mk ft (if required = "Y" then E.FIELD_FLAG_REQUIRED else 0) sub
      (if nm = "group" then some (List.replicate E.FIELD_DESCR_CNT none) else none) none,
      ?_, rfl, rfl, ?_, ?_⟩
    · rw [← hrest, List.getElem?_append_right (Nat.le_refl _)]
      simp
    · simp only [FIXFieldDescr.flags]
      by_cases hY : required = "Y"
      · simp [hY]
      · simp [hY]
    · intro hflag
      simp only [FIXFieldDescr.flags]
      by_cases hY : required = "Y"
      · simp [hY]
      · simp only [hY, if_false, Nat.zero_and, iff_false]
        exact fun h => hflag h.symm
  | failed p2 => rw [hsub] at hok; simp at hok
  | crash => rw [hsub] at hok; simp at hok
  | diverge => rw [hsub] at hok; simp at hok

/-- C11 at the field `A` of the message of `dict_logon`, `required="Y"`, and at what follows
it: the descriptor at position 0 is of type `A` (number 1) and has the flag. -/
theorem load_fields_loop_field_descr_witness :
    ∃ d, ([.mk ⟨1, "A", .Int⟩ 1 [] none none, .mk ⟨5, "B", .Int⟩ 0 [] none none,
          .mk ⟨9, "G", .NumInGroup⟩ 0 [.mk ⟨5, "B", .Int⟩ 1 [] none none]
            (some [none, none, none, none]) none] : List FIXFieldDescr)[0]? = some d ∧
      d.field_type = ⟨1, "A", .Int⟩ ∧
      d.flags = (if "Y" = "Y" then (sample_env dict_logon).FIELD_FLAG_REQUIRED else 0) ∧
      d.flags &&& (sample_env dict_logon).FIELD_FLAG_REQUIRED = d.flags ∧
      ((sample_env dict_logon).FIELD_FLAG_REQUIRED ≠ 0 →
        (d.flags &&& (sample_env dict_logon).FIELD_FLAG_REQUIRED
          = (sample_env dict_logon).FIELD_FLAG_REQUIRED ↔ "Y" = "Y")) :=
  (load_fields_loop_field_descr (sample_env dict_logon) logon_prot
    (xmlDocGetRootElement dict_logon) 1 ⟨none⟩ [] "field" [⟨"name", "A"⟩, ⟨"required", "Y"⟩]
    .NULL
    (tx (el "component" [⟨"name", "C"⟩] .NULL
      (el "group" [⟨"name", "G"⟩, ⟨"required", "N"⟩]
        (el "field" [⟨"name", "B"⟩, ⟨"required", "Y"⟩] .NULL .NULL) .NULL)))
    "A" "Y" ⟨1, "A", .Int⟩ (Or.inl rfl) rfl rfl rfl).2 ⟨none⟩ _ rfl

/-! ## Lookups in the messages table -/

theorem get_fix_message_descr_eq (E : Env) (parser : FIXParser) (prot : FIXProtocolDescr)
    (type : String) :
    get_fix_message_descr E parser prot type
      = match message_of_type E prot type with
        | some msg => .ok parser msg
        | none => .failed (set_fix_error parser .FIX_ERROR_UNKNOWN_MSG) := rfl

/-- The lookup after the loop of `fix_protocol_descr_init` has put `msg` at the head of its
bucket. -/
theorem message_of_type_insert (E : Env) (prot : FIXProtocolDescr) (msg : FIXMessageDescr)
    (t : String) (hlen : prot.messages.length = E.MSG_CNT) :
    message_of_type E
      { prot with
        messages := prot.messages.set (E.hash_string msg.type % E.MSG_CNT)
          (msg :: prot.messages.getD (E.hash_string msg.type % E.MSG_CNT) []) } t
      = if msg.type = t then some msg else message_of_type E prot t := by
  have hb : E.hash_string msg.type % E.MSG_CNT < prot.messages.length := by
    rw [hlen]; exact Nat.mod_lt _ E.msg_cnt_pos
  unfold message_of_type
  by_cases hN : msg.type = t
  · subst hN
    simp only [getD_set_self _ _ _ hb]
    simp
  · by_cases hidx : E.hash_string msg.type % E.MSG_CNT = E.hash_string t % E.MSG_CNT
    · simp only [← hidx, getD_set_self _ _ _ hb]
      simp [List.find?_cons, hN]
    · simp only [getD_set_ne _ _ _ _ hidx]
      simp [hN]

/-- The loop of `load_field_types` under two hash functions and table sizes: when the two
tables answer every lookup alike before, the loop succeeds under the one when it does under
the other, and the tables answer alike after. -/
theorem load_field_types_loop_hash (E E2 : Env)
    (hT : E2.str2FIXFIXFieldType = E.str2FIXFIXFieldType) (p : FIXParser) (n : xmlNodePtr) :
    ∀ (prot prot2 : FIXProtocolDescr) (p1 : FIXParser) (prot1 : FIXProtocolDescr),
      prot.field_types.length = E.FIELD_TYPE_CNT →
      prot2.field_types.length = E2.FIELD_TYPE_CNT →
      (∀ N, get_fix_field_type E2 prot2 N = get_fix_field_type E prot N) →
      load_field_types_loop E p prot n = .ok p1 prot1 →
      ∃ prot3, load_field_types_loop E2 p prot2 n = .ok p1 prot3 ∧
        prot3.messages = prot2.messages ∧ prot3.version = prot2.version ∧
        ∀ N, get_fix_field_type E2 prot3 N = get_fix_field_type E prot1 N := by
  induction n with
  | NULL =>
    intro prot prot2 p1 prot1 _ _ hlook h
    simp only [load_field_types_loop, Outcome.ok.injEq] at h
    refine ⟨prot2, ?_, rfl, rfl, ?_⟩
    · simp [load_field_types_loop, h.1]
    · rw [← h.2]; exact hlook
  | node ty nm props ch nx _ ihn =>
    intro prot prot2 p1 prot1 hlen hlen2 hlook h
    rw [load_field_types_loop.eq_def] at h
    rw [load_field_types_loop.eq_def]
    simp only at h ⊢
    by_cases hel : ty = .XML_ELEMENT_NODE ∧ nm = "field"
    · simp only [hel, and_self, if_true] at h ⊢
      rw [hlook "field"]
      cases hf : get_fix_field_type E prot "field" with
      | some ft => rw [hf] at h; simp at h
      | none =>
        rw [hf] at h
        simp only at h ⊢
        cases hnum : get_attr_loop "number" props with
        | none => rw [hnum] at h; simp at h
        | some number =>
          cases hname : get_attr_loop "name" props with
          | none => rw [hnum, hname] at h; simp at h
          | some name =>
            rw [hnum, hname] at h
            simp only at h ⊢
            obtain ⟨prot3, h3, hm, hv, hl⟩ := ihn _
              { prot2 with
                field_types := prot2.field_types.set (E2.hash_string name % E2.FIELD_TYPE_CNT)
                  ({ num := to_uint32 (atoi number), name := name,
                     type := E2.str2FIXFIXFieldType (get_attr_loop "type" props) } ::
                    prot2.field_types.getD (E2.hash_string name % E2.FIELD_TYPE_CNT) []) }
              p1 prot1 (by simp [hlen]) (by simp [hlen2])
              (by
                intro N
                have e1 := get_fix_field_type_insert E prot
                  { num := to_uint32 (atoi number), name := name,
                    type := E.str2FIXFIXFieldType (get_attr_loop "type" props) } N hlen
                have e2 := get_fix_field_type_insert E2 prot2
                  { num := to_uint32 (atoi number), name := name,
                    type := E2.str2FIXFIXFieldType (get_attr_loop "type" props) } N hlen2
                simp only at e1 e2
                rw [e1, e2, hlook N, hT])
              h
            exact ⟨prot3, h3, hm, hv, hl⟩
    · simp only [hel, if_false] at h ⊢
      exact ihn prot prot2 p1 prot1 hlen hlen2 hlook h

/-- The loop of `load_fields` under two hash functions and table sizes, over tables that
answer every lookup alike. -/
theorem load_fields_loop_hash (E E2 : Env) (prot prot2 : FIXProtocolDescr)
    (hD : E2.FIELD_DESCR_CNT = E.FIELD_DESCR_CNT)
    (hF : E2.FIELD_FLAG_REQUIRED = E.FIELD_FLAG_REQUIRED)
    (hlook : ∀ N, get_fix_field_type E2 prot2 N = get_fix_field_type E prot N)
    (root : xmlNodePtr)
    (load : FIXParser → List FIXFieldDescr → xmlNodePtr → Outcome (List FIXFieldDescr))
    (n : xmlNodePtr) :
    ∀ p fs, load_fields_loop E2 prot2 root load p fs n = load_fields_loop E prot root load p fs n := by
  induction n with
  | NULL => intro p fs; rfl
  | node ty nm props ch nx ihc ihn =>
    intro p fs
    rw [load_fields_loop.eq_def, load_fields_loop.eq_def E]
    simp only [hlook, hD, hF, ihc, ihn]

theorem load_fields_hash (E E2 : Env) (prot prot2 : FIXProtocolDescr)
    (hD : E2.FIELD_DESCR_CNT = E.FIELD_DESCR_CNT)
    (hF : E2.FIELD_FLAG_REQUIRED = E.FIELD_FLAG_REQUIRED)
    (hlook : ∀ N, get_fix_field_type E2 prot2 N = get_fix_field_type E prot N)
    (root : xmlNodePtr) (fuel : Nat) :
    ∀ p fs c, load_fields E2 prot2 root fuel p fs c = load_fields E prot root fuel p fs c := by
  induction fuel with
  | zero => intro p fs c; rfl
  | succ fuel ih =>
    intro p fs c
    cases c with
    | NULL => rfl
    | node ty nm props ch nx =>
      simp only [load_fields]
      rw [show load_fields E2 prot2 root fuel = load_fields E prot root fuel
        from funext fun p => funext fun fs => funext fun c => ih p fs c]
      exact load_fields_loop_hash E E2 prot prot2 hD hF hlook root _ ch p fs

mutual
theorem build_index_fld_hash (E E2 : Env) (hD : E2.FIELD_DESCR_CNT = E.FIELD_DESCR_CNT) :
    ∀ (d : FIXFieldDescr) (self : FieldPtr) (next : Option FieldPtr),
      build_index_fld E2 self next d = build_index_fld E self next d
  | .mk ft fl g gi nx, self, next => by
    rw [build_index_fld.eq_def, build_index_fld.eq_def E]
    simp only
    cases gi with
    | none => rfl
    | some index =>
      simp only [build_index_from_hash E E2 hD g self 0 index]
termination_by structural d => d
theorem build_index_from_hash (E E2 : Env) (hD : E2.FIELD_DESCR_CNT = E.FIELD_DESCR_CNT) :
    ∀ (l : List FIXFieldDescr) (base : FieldPtr) (i : Nat) (index : List (Option FieldPtr)),
      build_index_from E2 base i l index = build_index_from E base i l index
  | [], base, i, index => by rw [build_index_from.eq_def, build_index_from.eq_def E]
  | d :: l, base, i, index => by
    rw [build_index_from.eq_def, build_index_from.eq_def E]
    simp only [build_index_fld_hash E E2 hD d, build_index_from_hash E E2 hD l, hD]
termination_by structural l => l
end

theorem load_message_hash (E E2 : Env) (prot prot2 : FIXProtocolDescr)
    (hD : E2.FIELD_DESCR_CNT = E.FIELD_DESCR_CNT)
    (hF : E2.FIELD_FLAG_REQUIRED = E.FIELD_FLAG_REQUIRED)
    (hlook : ∀ N, get_fix_field_type E2 prot2 N = get_fix_field_type E prot N)
    (fuel : Nat) (p : FIXParser) (n root : xmlNodePtr) :
    load_message E2 fuel p n root prot2 = load_message E fuel p n root prot := by
  unfold load_message build_index
  simp only [load_fields_hash E E2 prot prot2 hD hF hlook, build_index_from_hash E E2 hD, hD]

/-- The loop of `fix_protocol_descr_init` over the messages under two hash functions and
table sizes: when the two descriptions answer every lookup alike before, the loop succeeds
under the one when it does under the other, and they answer alike after. -/
theorem load_messages_loop_hash (E E2 : Env)
    (hD : E2.FIELD_DESCR_CNT = E.FIELD_DESCR_CNT)
    (hF : E2.FIELD_FLAG_REQUIRED = E.FIELD_FLAG_REQUIRED)
    (fuel : Nat) (root : xmlNodePtr) (n : xmlNodePtr) :
    ∀ (p : FIXParser) (prot prot2 : FIXProtocolDescr) (p1 : FIXParser)
      (prot1 : FIXProtocolDescr),
      prot.messages.length = E.MSG_CNT → prot2.messages.length = E2.MSG_CNT →
      (∀ N, get_fix_field_type E2 prot2 N = get_fix_field_type E prot N) →
      (∀ t, message_of_type E2 prot2 t = message_of_type E prot t) →
      load_messages_loop E fuel root p prot n = .ok p1 prot1 →
      ∃ prot3, load_messages_loop E2 fuel root p prot2 n = .ok p1 prot3 ∧
        ∀ t, message_of_type E2 prot3 t = message_of_type E prot1 t := by
  induction n with
  | NULL =>
    intro p prot prot2 p1 prot1 _ _ _ hmsg h
    simp only [load_messages_loop, Outcome.ok.injEq] at h
    refine ⟨prot2, ?_, ?_⟩
    · simp [load_messages_loop, h.1]
    · rw [← h.2]; exact hmsg
  | node ty nm props ch nx _ ihn =>
    intro p prot prot2 p1 prot1 hlen hlen2 hlook hmsg h
    rw [load_messages_loop.eq_def] at h
    rw [load_messages_loop.eq_def]
    simp only at h ⊢
    by_cases hel : ty = .XML_ELEMENT_NODE ∧ nm = "message"
    · simp only [hel, and_self, if_true] at h ⊢
      rw [load_message_hash E E2 prot prot2 hD hF hlook]
      cases hm : load_message E fuel p (.node .XML_ELEMENT_NODE "message" props ch nx) root prot with
      | ok p2 msg =>
        rw [hm] at h
        simp only at h ⊢
        exact ihn p2
          { prot with
            messages := prot.messages.set (E.hash_string msg.type % E.MSG_CNT)
              (msg :: prot.messages.getD (E.hash_string msg.type % E.MSG_CNT) []) }
          { prot2 with
            messages := prot2.messages.set (E2.hash_string msg.type % E2.MSG_CNT)
              (msg :: prot2.messages.getD (E2.hash_string msg.type % E2.MSG_CNT) []) }
          p1 prot1 (by simp [hlen]) (by simp [hlen2]) (fun N => hlook N)
          (by
            intro t
            have e1 := message_of_type_insert E prot msg t hlen
            have e2 := message_of_type_insert E2 prot2 msg t hlen2
            rw [hmsg t] at e2
            exact e2.trans e1.symm)
          h
      | failed p2 => rw [hm] at h; simp at h
      | crash => rw [hm] at h; simp at h
      | diverge => rw [hm] at h; simp at h
    · simp only [hel, if_false] at h ⊢
      exact ihn p prot prot2 p1 prot1 hlen hlen2 hlook hmsg h

theorem get_fix_field_type_empty (E : Env) (v : FIXProtocolVerEnum)
    (msgs : List (List FIXMessageDescr)) (k : Nat) (N : String) :
    get_fix_field_type E ⟨v, List.replicate k [], msgs⟩ N = none := by
  simp only [get_fix_field_type, List.getD_eq_getElem?_getD, List.getElem?_replicate]
  split <;> simp

theorem message_of_type_empty (E : Env) (prot : FIXProtocolDescr) (k : Nat) (t : String)
    (h : prot.messages = List.replicate k []) : message_of_type E prot t = none := by
  simp only [message_of_type, h, List.getD_eq_getElem?_getD, List.getElem?_replicate]
  split <;> simp

theorem load_field_types_hash (E E2 : Env)
    (hT : E2.str2FIXFIXFieldType = E.str2FIXFIXFieldType) (p : FIXParser) (root : xmlNodePtr)
    (prot prot2 : FIXProtocolDescr) (p1 : FIXParser) (prot1 : FIXProtocolDescr)
    (hlen : prot.field_types.length = E.FIELD_TYPE_CNT)
    (hlen2 : prot2.field_types.length = E2.FIELD_TYPE_CNT)
    (hlook : ∀ N, get_fix_field_type E2 prot2 N = get_fix_field_type E prot N)
    (h : load_field_types E p prot root = .ok p1 prot1) :
    ∃ prot3, load_field_types E2 p prot2 root = .ok p1 prot3 ∧
      prot1.messages = prot.messages ∧ prot3.messages = prot2.messages ∧
      ∀ N, get_fix_field_type E2 prot3 N = get_fix_field_type E prot1 N := by
  unfold load_field_types at h ⊢
  cases hg1 : get_first root "fields" with
  | none => rw [hg1] at h; simp at h
  | some fields =>
    rw [hg1] at h
    simp only at h ⊢
    cases hg2 : get_first fields "field" with
    | none => rw [hg2] at h; simp at h
    | some field =>
      rw [hg2] at h
      simp only at h ⊢
      obtain ⟨prot3, h3, hm3, _, hl3⟩ :=
        load_field_types_loop_hash E E2 hT p field prot prot2 p1 prot1 hlen hlen2 hlook h
      obtain ⟨_, _, _, hmsgs, _, _⟩ := load_field_types_loop_ok E p field prot p1 prot1 hlen h
      exact ⟨prot3, h3, hmsgs, hm3, hl3⟩

/-- The load under two hash functions and table sizes: when it succeeds under the one it
succeeds under the other, and the two descriptions answer every lookup of a message type
alike. -/
theorem fix_protocol_descr_init_hash (E E2 : Env)
    (hD : E2.FIELD_DESCR_CNT = E.FIELD_DESCR_CNT)
    (hF : E2.FIELD_FLAG_REQUIRED = E.FIELD_FLAG_REQUIRED)
    (hT : E2.str2FIXFIXFieldType = E.str2FIXFIXFieldType)
    (hVer : E2.str2FIXProtocolVerEnum = E.str2FIXProtocolVerEnum)
    (hP : E2.xmlParseFile = E.xmlParseFile) (hV : E2.xml_validate = E.xml_validate)
    (fuel : Nat) (parser : FIXParser) (file : String) (p1 : FIXParser)
    (prot : FIXProtocolDescr)
    (h : fix_protocol_descr_init E fuel parser file = .ok p1 prot) :
    ∃ prot2, fix_protocol_descr_init E2 fuel parser file = .ok p1 prot2 ∧
      ∀ t, message_of_type E2 prot2 t = message_of_type E prot t := by
  unfold fix_protocol_descr_init at h ⊢
  rw [hP, hV]
  cases hdoc : E.xmlParseFile file with
  | none => rw [hdoc] at h; simp at h
  | some doc =>
    rw [hdoc] at h
    simp only at h ⊢
    cases hval : E.xml_validate parser doc with
    | mk pv b =>
      rw [hval] at h
      cases b with
      | false => simp at h
      | true =>
        simp only at h ⊢
        cases hr : xmlDocGetRootElement doc with
        | NULL => rw [hr] at h; simp at h
        | node ty nm props ch nx =>
          rw [hr] at h
          simp only at h ⊢
          have hver : get_version E2 (.node ty nm props ch nx)
              = get_version E (.node ty nm props ch nx) := by
            simp only [get_version, hVer]
          rw [hver]
          cases hft : load_field_types E pv
              ⟨get_version E (.node ty nm props ch nx), List.replicate E.FIELD_TYPE_CNT [],
                List.replicate E.MSG_CNT []⟩ (.node ty nm props ch nx) with
          | ok p2 prot1 =>
            rw [hft] at h
            simp only at h
            obtain ⟨prot3, h3, hm1, hm3, hl3⟩ := load_field_types_hash E E2 hT pv
              (.node ty nm props ch nx)
              ⟨get_version E (.node ty nm props ch nx), List.replicate E.FIELD_TYPE_CNT [],
                List.replicate E.MSG_CNT []⟩
              ⟨get_version E (.node ty nm props ch nx), List.replicate E2.FIELD_TYPE_CNT [],
                List.replicate E2.MSG_CNT []⟩ p2 prot1 (by simp) (by simp)
              (by intro N; rw [get_fix_field_type_empty, get_fix_field_type_empty]) hft
            rw [h3]
            simp only
            cases hg1 : get_first (.node ty nm props ch nx) "messages" with
            | none => rw [hg1] at h; simp at h
            | some messages =>
              rw [hg1] at h
              simp only at h ⊢
              cases hg2 : get_first messages "message" with
              | none => rw [hg2] at h; simp at h
              | some msg_node =>
                rw [hg2] at h
                simp only at h ⊢
                exact load_messages_loop_hash E E2 hD hF fuel _ msg_node p2 prot1 prot3 p1 prot
                  (by rw [hm1]; simp) (by rw [hm3]; simp) hl3
                  (by
                    intro t
                    rw [message_of_type_empty E2 prot3 _ t hm3,
                      message_of_type_empty E prot1 _ t hm1])
                  h
          | failed p2 => rw [hft] at h; simp at h
          | crash => rw [hft] at h; simp at h
          | diverge => rw [hft] at h; simp at h

/-- In a loaded description the walk for the type `t` stops at a descriptor exactly when
some `<message>` element has the type string `t`. -/
theorem message_of_type_loaded (E : Env) (fuel : Nat) (parser : FIXParser)
    (file : String) (doc : xmlDoc) (parser1 : FIXParser) (prot : FIXProtocolDescr)
    (hdoc : E.xmlParseFile file = some doc)
    (hinit : fix_protocol_descr_init E fuel parser file = .ok parser1 prot) (t : String) :
    ((message_of_type E prot t).isSome = true ↔
      ∃ e ∈ message_elements (xmlDocGetRootElement doc), get_attr e "type" = some t) ∧
    ∀ msg, message_of_type E prot t = some msg → msg.type = t := by
  obtain ⟨p2, p3, prot2, msg_node, _, _, hft, ⟨messages, hm1, hm2⟩, hloop⟩ :=
    fix_protocol_descr_init_ok E fuel parser file doc parser1 prot hdoc hinit
  obtain ⟨field, hfl, _⟩ := load_field_types_ok E _ _ _ _ _ hft
  obtain ⟨_, _, _, hmsgs, _, _⟩ := load_field_types_loop_ok E p2 field _ p3 prot2 (by simp) hfl
  obtain ⟨_, _, hscan⟩ := section_scan _ _ _ "messages" "message" hm1 hm2
  obtain ⟨_, _, h3⟩ := load_messages_loop_ok E fuel _ msg_node p3 prot2 parser1 prot
    (by rw [hmsgs]; simp) hloop
  have hse : (siblings msg_node).filter (is_element "message")
      = message_elements (xmlDocGetRootElement doc) := hscan
  rw [hse] at h3
  have hb := h3 (E.hash_string t % E.MSG_CNT)
  have hinit0 : (prot2.messages.getD (E.hash_string t % E.MSG_CNT) []) = [] := by
    rw [hmsgs]
    simp only [List.getD_eq_getElem?_getD, List.getElem?_replicate]
    split <;> simp
  rw [hinit0, List.map_nil, List.append_nil] at hb
  constructor
  · have hmem : (message_of_type E prot t).isSome = true ↔
        t ∈ (prot.messages.getD (E.hash_string t % E.MSG_CNT) []).map (fun m => m.type) := by
      unfold message_of_type
      rw [List.find?_isSome]
      simp only [List.mem_map, decide_eq_true_eq]
    rw [hmem, hb]
    simp only [List.mem_reverse, List.mem_filter, List.mem_filterMap, decide_eq_true_eq,
      and_true]
  · intro msg hmsg
    unfold message_of_type at hmsg
    have := List.find?_some hmsg
    simpa using this

/-- C12: in a loaded description `get_fix_message_descr` returns a descriptor for the type
string `t` exactly when some `<message>` element of the dictionary has the type string `t`,
and the descriptor returned has the type `t`; without such an element it returns NULL and
leaves `FIX_ERROR_UNKNOWN_MSG`. With any other `hash_string` and any other `MSG_CNT` the
load succeeds as well and the lookup has the same result. -/
theorem get_fix_message_descr_loaded (E : Env) (fuel : Nat) (parser : FIXParser)
    (file : String) (doc : xmlDoc) (parser1 : FIXParser) (prot : FIXProtocolDescr)
    (hdoc : E.xmlParseFile file = some doc)
    (hinit : fix_protocol_descr_init E fuel parser file = .ok parser1 prot)
    (t : String) (parser2 : FIXParser) :
    ((∃ e ∈ message_elements (xmlDocGetRootElement doc), get_attr e "type" = some t) →
      ∃ msg, get_fix_message_descr E parser2 prot t = .ok parser2 msg ∧ msg.type = t) ∧
    ((¬ ∃ e ∈ message_elements (xmlDocGetRootElement doc), get_attr e "type" = some t) →
      get_fix_message_descr E parser2 prot t
        = .failed (set_fix_error parser2 .FIX_ERROR_UNKNOWN_MSG)) ∧
    (∀ (h : String → Nat) (cnt : Nat) (hpos : 0 < cnt), ∃ prot2,
      fix_protocol_descr_init (E.with_hash h cnt hpos) fuel parser file = .ok parser1 prot2 ∧
      get_fix_message_descr (E.with_hash h cnt hpos) parser2 prot2 t
        = get_fix_message_descr E parser2 prot t) := by
  obtain ⟨hiff, hty⟩ := message_of_type_loaded E fuel parser file doc parser1 prot hdoc hinit t
  refine ⟨?_, ?_, ?_⟩
  · intro hex
    have hsome := hiff.mpr hex
    obtain ⟨msg, hmsg⟩ := Option.isSome_iff_exists.mp hsome
    refine ⟨msg, ?_, hty msg hmsg⟩
    rw [get_fix_message_descr_eq, hmsg]
  · intro hex
    cases hm : message_of_type E prot t with
    | none => rw [get_fix_message_descr_eq, hm]
    | some msg => exact absurd (hiff.mp (by rw [hm]; rfl)) hex
  · intro h cnt hpos
    obtain ⟨prot2, h2, hl2⟩ := fix_protocol_descr_init_hash E (E.with_hash h cnt hpos)
      rfl rfl rfl rfl rfl rfl fuel parser file parser1 prot hinit
    refine ⟨prot2, h2, ?_⟩
    rw [get_fix_message_descr_eq, get_fix_message_descr_eq, hl2 t]

/-- C12 at `dict_logon` and the type string `A` of its message `Logon`. -/
theorem get_fix_message_descr_loaded_witness :
    ∃ msg, get_fix_message_descr (sample_env dict_logon) ⟨none⟩ logon_prot "A"
      = .ok ⟨none⟩ msg ∧ msg.type = "A" :=
  (get_fix_message_descr_loaded (sample_env dict_logon) 2 ⟨none⟩ "fix44.xml" dict_logon ⟨none⟩
    logon_prot rfl rfl "A" ⟨none⟩).1 ⟨logon_message, by decide, rfl⟩

/-! ## The type string of a message -/

/-- C14: the type string of the descriptor that `load_message` returns for a `<message>`
element is the value of the attribute called `type` of that element; it is the string under
which `get_fix_message_descr` finds the descriptor once the loop of
`fix_protocol_descr_init` has put it into the table. Without an attribute `type` the call
does not return a descriptor (it dereferences NULL), whatever other attributes there are;
and only the attributes `name` and `type` of the element are read, so an attribute `msgtype`
changes nothing. -/
theorem load_message_type_attribute (E : Env) (fuel : Nat) (p : FIXParser)
    (ty : xmlElementType) (nm : String) (props : List xmlAttr) (ch nx root : xmlNodePtr)
    (prot : FIXProtocolDescr) :
    (∀ p1 msg, load_message E fuel p (.node ty nm props ch nx) root prot = .ok p1 msg →
      get_attr_loop "type" props = some msg.type ∧
      (prot.messages.length = E.MSG_CNT → ∀ parser,
        get_fix_message_descr E parser
          { prot with
            messages := prot.messages.set (E.hash_string msg.type % E.MSG_CNT)
              (msg :: prot.messages.getD (E.hash_string msg.type % E.MSG_CNT) []) }
          msg.type = .ok parser msg)) ∧
    (get_attr_loop "type" props = none →
      load_message E fuel p (.node ty nm props ch nx) root prot = .crash) ∧
    (∀ props2, get_attr_loop "name" props2 = get_attr_loop "name" props →
      get_attr_loop "type" props2 = get_attr_loop "type" props →
      load_message E fuel p (.node ty nm props2 ch nx) root prot
        = load_message E fuel p (.node ty nm props ch nx) root prot) := by
  refine ⟨?_, ?_, ?_⟩
  · intro p1 msg h
    obtain ⟨_, htype, _⟩ := load_message_ok E fuel p _ root prot p1 msg h
    rw [get_attr_node] at htype
    refine ⟨htype, ?_⟩
    intro hlen parser
    rw [get_fix_message_descr_eq, message_of_type_insert E prot msg msg.type hlen]
    simp
  · intro hnone
    unfold load_message
    rw [get_attr_node, get_attr_node, hnone]
    cases get_attr_loop "name" props <;> rfl
  · intro props2 h1 h2
    have hl : load_fields E prot root fuel p [] (.node ty nm props2 ch nx)
        = load_fields E prot root fuel p [] (.node ty nm props ch nx) := by
      cases fuel <;> rfl
    unfold load_message
    simp only [get_attr_node, h1, h2, hl]

/-- C14 at the message of `dict_logon`, whose attribute `type` is `A`. -/
theorem load_message_type_attribute_witness :
    get_attr_loop "type" [⟨"name", "Logon"⟩, ⟨"type", "A"⟩] = some logon_msg.type ∧
    ((logon_prot.messages.length = (sample_env dict_logon).MSG_CNT → ∀ parser,
      get_fix_message_descr (sample_env dict_logon) parser
        { logon_prot with
          messages := logon_prot.messages.set
            ((sample_env dict_logon).hash_string logon_msg.type
              % (sample_env dict_logon).MSG_CNT)
            (logon_msg :: logon_prot.messages.getD
              ((sample_env dict_logon).hash_string logon_msg.type
                % (sample_env dict_logon).MSG_CNT) []) }
        logon_msg.type = .ok parser logon_msg)) :=
  (load_message_type_attribute (sample_env dict_logon) 2 ⟨none⟩ .XML_ELEMENT_NODE "message"
    [⟨"name", "Logon"⟩, ⟨"type", "A"⟩] logon_message.children .NULL
    (xmlDocGetRootElement dict_logon) logon_prot).1 ⟨none⟩ logon_msg rfl

/-! ## Tag numbers that a message has more than once -/

/-- With more steps allowed a walk that ended ends the same. -/
theorem field_chain_walk_mono (parser : FIXParser) (fields : List FIXFieldDescr) (num : Nat) :
    ∀ (fuel : Nat) (head : Option FieldPtr) (fuel2 : Nat), fuel ≤ fuel2 →
      field_chain_walk parser fields num fuel head ≠ .diverge →
      field_chain_walk parser fields num fuel2 head
        = field_chain_walk parser fields num fuel head := by
  intro fuel
  induction fuel with
  | zero => intro head fuel2 _ h; exact absurd rfl h
  | succ fuel ih =>
    intro head fuel2 hle h
    obtain ⟨f2, rfl⟩ : ∃ f2, fuel2 = f2 + 1 := ⟨fuel2 - 1, by omega⟩
    cases head with
    | none => rfl
    | some fld =>
      simp only [field_chain_walk] at h ⊢
      cases hd : field_at fields fld with
      | none => rfl
      | some d =>
        rw [hd] at h
        simp only at h ⊢
        by_cases hn : d.field_type.num = num
        · simp [hn]
        · simp only [hn, if_false] at h ⊢
          exact ih d.next f2 (by omega) h

/-- What `build_index` leaves of an entry of the array: its type, its flags, and the types
of its subfields. -/
theorem build_index_entry (E : Env) (fields : List FIXFieldDescr)
    (index : List (Option FieldPtr)) (r : List FIXFieldDescr × List (Option FieldPtr))
    (h : build_index E fields index = some r) :
    r.1.length = fields.length ∧
    ∀ (i : Nat) (d : FIXFieldDescr), r.1[i]? = some d →
      ∃ d0 : FIXFieldDescr, fields[i]? = some d0 ∧ d.field_type = d0.field_type ∧
      d.flags = d0.flags ∧
      d.group.map (fun s => s.field_type) = d0.group.map (fun s => s.field_type) := by
  unfold build_index at h
  constructor
  · have := congrArg List.length (build_index_from_field_types E [] fields 0 index r h)
    simpa using this
  · intro i d hd
    obtain ⟨d0, head, h0, hfld⟩ := build_index_from_getElem E [] fields 0 index r i d h hd
    obtain ⟨hft, hfl, _, hnil, hcons⟩ := build_index_fld_ok E _ head d0 d hfld
    refine ⟨d0, h0, hft, hfl, ?_⟩
    by_cases hg : d0.group = []
    · rw [(hnil hg).1, hg]
    · obtain ⟨idx0, r2, _, hb, hg1, _⟩ := hcons hg
      rw [hg1]
      exact build_index_from_field_types E _ d0.group 0 idx0 r2 hb

/-- The last position with `P` is behind every position with `P`. -/
theorem last_pos_max (P : FIXFieldDescr → Bool) :
    ∀ (l : List FIXFieldDescr) (m : Nat), last_pos P l = some m →
      ∀ (i : Nat) (d : FIXFieldDescr), l[i]? = some d → P d = true → i ≤ m := by
  intro l
  induction l with
  | nil => intro m h; simp [last_pos] at h
  | cons a l ih =>
    intro m h i d hi hP
    rw [last_pos] at h
    cases hl : last_pos P l with
    | some k =>
      rw [hl] at h
      simp only [Option.some.injEq] at h
      cases i with
      | zero => omega
      | succ i =>
        have := ih k hl i d (by simpa using hi) hP
        omega
    | none =>
      rw [hl] at h
      cases i with
      | zero => omega
      | succ i =>
        have hall := (last_pos_none P l).mp hl d (List.getElem?_mem (by simpa using hi))
        rw [hall] at hP
        exact absurd hP (by simp)

/-- C20: in a message that `load_message` returned, let the positions `j < k` of the field
array both hold the tag number `num`. The array has the entries in the order in which
`load_fields` appended them, with their types, flags and subfield types. For every number
of steps above `field_count`, `get_fix_field_descr` returns for `num` the pointer to the
last position `m` that holds `num` (so `k ≤ m`, and no position behind `m` holds `num`);
and no lookup, of whatever number and with whatever number of steps, returns the pointer to
the earlier position `j`. -/
theorem get_fix_field_descr_last_occurrence (E : Env) (fuel0 : Nat) (p : FIXParser)
    (msg_node root : xmlNodePtr) (prot : FIXProtocolDescr) (p1 : FIXParser)
    (msg : FIXMessageDescr)
    (hload : load_message E fuel0 p msg_node root prot = .ok p1 msg)
    (num j k : Nat) (dj dk : FIXFieldDescr) (hjk : j < k)
    (hj : msg.fields[j]? = some dj) (hk : msg.fields[k]? = some dk)
    (hnj : dj.field_type.num = num) (hnk : dk.field_type.num = num) :
    (∃ fields, load_fields E prot root fuel0 p [] msg_node = .ok p1 fields ∧
      msg.fields.length = fields.length ∧
      ∀ (i : Nat) (d : FIXFieldDescr), msg.fields[i]? = some d →
        ∃ d0 : FIXFieldDescr, fields[i]? = some d0 ∧ d.field_type = d0.field_type ∧
          d.flags = d0.flags ∧
          d.group.map (fun s => s.field_type) = d0.group.map (fun s => s.field_type)) ∧
    (∃ (m : Nat) (d : FIXFieldDescr),
      (∀ parser fuel, msg.fields.length < fuel →
        get_fix_field_descr E fuel parser msg num = .ok parser [m]) ∧
      field_at msg.fields [m] = some d ∧ d.field_type.num = num ∧ k ≤ m ∧
      ∀ (i : Nat) (d2 : FIXFieldDescr), m < i → msg.fields[i]? = some d2 →
        d2.field_type.num ≠ num) ∧
    (∀ parser fuel parser2 num2,
      get_fix_field_descr E fuel parser msg num2 ≠ .ok parser2 [j]) := by
  obtain ⟨_, _, fields, hlf, hbi⟩ := load_message_ok E fuel0 p msg_node root prot p1 msg hload
  have hlast := fun parser num2 fuel (hfuel : msg.fields.length < fuel) =>
    get_fix_field_descr_last_pos E fuel0 p msg_node root prot p1 msg hload parser num2 fuel hfuel
  refine ⟨⟨fields, hlf, ?_⟩, ?_, ?_⟩
  · exact build_index_entry E fields _ _ hbi
  · cases hm : last_pos (has_num num) msg.fields with
    | none =>
      have := (last_pos_none _ _).mp hm dk (List.getElem?_mem hk)
      simp [has_num, hnk] at this
    | some m =>
      obtain ⟨d, hd, hP⟩ := last_pos_some _ _ _ hm
      refine ⟨m, d, ?_, ?_, ?_, ?_, ?_⟩
      · intro parser fuel hfuel
        rw [hlast parser num fuel hfuel, hm]
      · rw [field_at_single]; exact hd
      · simpa [has_num] using hP
      · exact last_pos_max _ _ m hm k dk hk (by simp [has_num, hnk])
      · intro i d2 hmi hi hn
        have := last_pos_max _ _ m hm i d2 hi (by simp [has_num, hn])
        omega
  · intro parser fuel parser2 num2 hres
    have hnd : get_fix_field_descr E fuel parser msg num2 ≠ .diverge := by
      rw [hres]; simp
    have hbig : get_fix_field_descr E (max fuel (msg.fields.length + 1)) parser msg num2
        = .ok parser2 [j] := by
      rw [← hres]
      unfold get_fix_field_descr at hnd ⊢
      simp only at hnd ⊢
      cases hidx : msg.field_index[num2 % E.FIELD_DESCR_CNT]? with
      | none => rfl
      | some head =>
        rw [hidx] at hnd
        simp only at hnd ⊢
        exact field_chain_walk_mono parser msg.fields num2 fuel head _ (Nat.le_max_left _ _) hnd
    rw [hlast parser num2 _ (by omega)] at hbig
    cases hm : last_pos (has_num num2) msg.fields with
    | none => rw [hm] at hbig; simp at hbig
    | some m =>
      rw [hm] at hbig
      simp only [Outcome.ok.injEq, List.cons.injEq, and_true] at hbig
      obtain ⟨d, hd, hP⟩ := last_pos_some _ _ _ hm
      rw [hbig.2, hj] at hd
      simp only [Option.some.injEq] at hd
      subst hd
      have hnum : num2 = num := by
        have h1 : dj.field_type.num = num2 := by simpa [has_num] using hP
        rw [← hnj, h1]
      subst hnum
      have := last_pos_max _ _ m hm k dk hk (by simp [has_num, hnk])
      omega

/-- C20 at the message of `dict_dup_tag`, which has number 1 at the positions 0 (declared in
the message, `required="Y"`) and 2 (through component `C`, `required="N"`): the lookup of 1
returns position 2, whose flags are 0. -/
theorem get_fix_field_descr_last_occurrence_witness :
    ∃ (m : Nat) (d : FIXFieldDescr),
      (∀ parser fuel, dup_tag_msg.fields.length < fuel →
        get_fix_field_descr (sample_env dict_dup_tag) fuel parser dup_tag_msg 1
          = .ok parser [m]) ∧
      field_at dup_tag_msg.fields [m] = some d ∧ d.field_type.num = 1 ∧ 2 ≤ m ∧
      ∀ (i : Nat) (d2 : FIXFieldDescr), m < i → dup_tag_msg.fields[i]? = some d2 →
        d2.field_type.num ≠ 1 :=
  (get_fix_field_descr_last_occurrence (sample_env dict_dup_tag) 2 ⟨none⟩ dup_tag_message
    (xmlDocGetRootElement dict_dup_tag) dup_tag_prot ⟨none⟩ dup_tag_msg rfl 1 0 2
    (.mk ⟨1, "A", .Int⟩ 1 [] none none) (.mk ⟨1, "A", .Int⟩ 0 [] none (some [1]))
    (by decide) rfl rfl rfl rfl).2.1

/-! ## Field names that `load_field_types` takes for duplicates -/

/-- C13 at `dict_field_named_field`: the names of the two `<field>` elements are distinct,
and `load_field_types` fails at the second one, because its check looks up the name of the
element, `field`, which the first one has defined; the failure is that of
`fix_protocol_descr_init`, with `FIX_ERROR_UNKNOWN_FIELD`. -/
theorem field_named_field_is_rejected :
    ((field_elements (xmlDocGetRootElement dict_field_named_field)).map
        (fun e => get_attr e "name")) = [some "field", some "B"] ∧
    ((field_elements (xmlDocGetRootElement dict_field_named_field)).map
        (fun e => get_attr e "name")).Nodup ∧
    load_field_types (sample_env dict_field_named_field) ⟨none⟩
        ⟨.FIX44, List.replicate 3 [], List.replicate 2 []⟩
        (xmlDocGetRootElement dict_field_named_field)
      = .failed ⟨some .FIX_ERROR_UNKNOWN_FIELD⟩ ∧
    (∀ fuel, fix_protocol_descr_init (sample_env dict_field_named_field) fuel ⟨none⟩ "fix44.xml"
      = .failed ⟨some .FIX_ERROR_UNKNOWN_FIELD⟩) := by
  refine ⟨by decide, by decide, rfl, ?_⟩
  intro fuel
  rfl

/-- The extent of the check in `load_field_types`: when every `<field>` element has `number`
and a `name` other than `field`, the loop succeeds, whether or not the names are distinct. -/
theorem load_field_types_loop_no_field (E : Env) (p : FIXParser) (n : xmlNodePtr)
    (h : ∀ f ∈ (siblings n).filter (is_element "field"),
      (get_attr f "number").isSome = true ∧
        ∃ name, get_attr f "name" = some name ∧ name ≠ "field") :
    ∀ (prot : FIXProtocolDescr), prot.field_types.length = E.FIELD_TYPE_CNT →
      get_fix_field_type E prot "field" = none →
      (load_field_types_loop E p prot n).isOk = true := by
  induction n with
  | NULL => intro prot _ _; rfl
  | node ty nm props ch nx _ ihn =>
    intro prot hlen hnone
    rw [load_field_types_loop.eq_def]
    simp only
    by_cases hel : ty = .XML_ELEMENT_NODE ∧ nm = "field"
    · have hmem : xmlNodePtr.node ty nm props ch nx
          ∈ (siblings (.node ty nm props ch nx)).filter (is_element "field") := by
        simp [siblings, is_element, hel]
      obtain ⟨hnum, name, hname, hne⟩ := h _ hmem
      rw [get_attr_node] at hnum hname
      obtain ⟨number, hnumber⟩ := Option.isSome_iff_exists.mp hnum
      simp only [hel, and_self, if_true, hnone, hnumber, hname]
      apply ihn
      · intro f hf
        apply h
        simp only [siblings, List.filter_cons]
        split
        · exact List.mem_cons_of_mem _ hf
        · exact hf
      · simp [hlen]
      · have e1 := get_fix_field_type_insert E prot
          { num := to_uint32 (atoi number), name := name,
            type := E.str2FIXFIXFieldType (get_attr_loop "type" props) } "field" hlen
        simp only at e1
        rw [e1, if_neg hne, hnone]
    · simp only [hel, if_false]
      apply ihn _ prot hlen hnone
      intro f hf
      apply h
      simp only [siblings, List.filter_cons]
      split
      · exact List.mem_cons_of_mem _ hf
      · exact hf

/-! ## Groups named after a field of another kind -/

theorem with_kinds_all_append (f : FIXFieldType → FIXFieldTypeEnum) (l1 l2 : List FIXFieldDescr) :
    with_kinds_all f (l1 ++ l2) = with_kinds_all f l1 ++ with_kinds_all f l2 := by
  induction l1 with
  | nil => simp [with_kinds_all]
  | cons d l ih => simp [with_kinds_all, ih]

theorem get_fix_field_type_with_kinds (E : Env) (prot : FIXProtocolDescr)
    (f : FIXFieldType → FIXFieldTypeEnum) (N : String) :
    get_fix_field_type E (prot.with_kinds f) N
      = (get_fix_field_type E prot N).map (FIXFieldType.with_kind f) := by
  unfold get_fix_field_type FIXProtocolDescr.with_kinds
  simp only [List.getD_eq_getElem?_getD, List.getElem?_map]
  cases prot.field_types[E.hash_string N % E.FIELD_TYPE_CNT]? with
  | none => simp
  | some chain =>
    simp only [Option.map_some', Option.getD_some, List.find?_map]
    rfl

theorem load_components_with_kinds (f : FIXFieldType → FIXFieldTypeEnum)
    (load load2 : FIXParser → List FIXFieldDescr → xmlNodePtr → Outcome (List FIXFieldDescr))
    (hload : ∀ p fs c, load2 p (with_kinds_all f fs) c = (load p fs c).map (with_kinds_all f))
    (cn : Option String) (n : xmlNodePtr) :
    ∀ p fs, load_components load2 cn p (with_kinds_all f fs) n
      = (load_components load cn p fs n).map (with_kinds_all f) := by
  induction n with
  | NULL => intro p fs; rfl
  | node ty nm props ch nx _ ihn =>
    intro p fs
    rw [load_components.eq_def, load_components.eq_def load]
    simp only
    by_cases hel : ty = .XML_ELEMENT_NODE
    · simp only [hel, if_true]
      cases cn with
      | none => rfl
      | some c =>
        cases get_attr_loop "name" props with
        | none => rfl
        | some name =>
          simp only
          by_cases hc : c = name
          · subst hc
            simp only [if_true, hload]
            cases load p fs (.node .XML_ELEMENT_NODE nm props ch nx) with
            | ok p1 fs1 => simp only [Outcome.map_ok]; exact ihn p1 fs1
            | failed p1 => rfl
            | crash => rfl
            | diverge => rfl
          · simp only [hc, if_false]
            exact ihn p fs
    · simp only [hel, if_false]
      exact ihn p fs

/-- The loop of `load_fields` does not look at the kind of a field type: over a table whose
records have other kinds it builds the same array, the kinds in the records apart. -/
theorem load_fields_loop_with_kinds (E : Env) (prot : FIXProtocolDescr) (root : xmlNodePtr)
    (f : FIXFieldType → FIXFieldTypeEnum)
    (load load2 : FIXParser → List FIXFieldDescr → xmlNodePtr → Outcome (List FIXFieldDescr))
    (hload : ∀ p fs c, load2 p (with_kinds_all f fs) c = (load p fs c).map (with_kinds_all f))
    (n : xmlNodePtr) :
    ∀ p fs, load_fields_loop E (prot.with_kinds f) root load2 p (with_kinds_all f fs) n
      = (load_fields_loop E prot root load p fs n).map (with_kinds_all f) := by
  induction n with
  | NULL => intro p fs; rfl
  | node ty nm props ch nx ihc ihn =>
    intro p fs
    rw [load_fields_loop.eq_def, load_fields_loop.eq_def E prot]
    simp only [get_fix_field_type_with_kinds]
    by_cases h1 : ty = .XML_ELEMENT_NODE ∧ nm = "field"
    · simp only [h1, and_self, if_true]
      cases get_attr_loop "name" props with
      | none => rfl
      | some name =>
        simp only
        cases get_fix_field_type E prot name with
        | none => rfl
        | some ft =>
          simp only [Option.map_some']
          cases get_attr_loop "required" props with
          | none => rfl
          | some required =>
            simp only
            rw [← ihn]
            simp [with_kinds_all_append, with_kinds_all, FIXFieldDescr.with_kinds]
    · simp only [h1, if_false]
      by_cases h2 : ty = .XML_ELEMENT_NODE ∧ nm = "component"
      · simp only [h2, and_self, if_true]
        cases get_first root "components" with
        | none => rfl
        | some components =>
          simp only
          cases get_first components "component" with
          | none => rfl
          | some component =>
            simp only
            rw [load_components_with_kinds f load load2 hload]
            cases load_components load (get_attr_loop "name" props) p fs component with
            | ok p1 fs1 => simp only [Outcome.map_ok]; exact ihn p1 fs1
            | failed p1 => rfl
            | crash => rfl
            | diverge => rfl
      · simp only [h2, if_false]
        by_cases h3 : ty = .XML_ELEMENT_NODE ∧ nm = "group"
        · simp only [h3, and_self, if_true]
          cases get_attr_loop "name" props with
          | none => rfl
          | some name =>
            simp only
            cases get_fix_field_type E prot name with
            | none => rfl
            | some ft =>
              simp only [Option.map_some']
              cases get_attr_loop "required" props with
              | none => rfl
              | some required =>
                simp only
                have hsub := ihc p []
                simp only [with_kinds_all] at hsub
                rw [hsub]
                cases load_fields_loop E prot root load p [] ch with
                | ok p1 sub =>
                  simp only [Outcome.map_ok]
                  rw [← ihn]
                  simp [with_kinds_all_append, with_kinds_all, FIXFieldDescr.with_kinds]
                | failed p1 => rfl
                | crash => rfl
                | diverge => rfl
        · simp only [h3, if_false]
          exact ihn p fs

theorem load_fields_with_kinds (E : Env) (prot : FIXProtocolDescr) (root : xmlNodePtr)
    (f : FIXFieldType → FIXFieldTypeEnum) (fuel : Nat) :
    ∀ p fs c, load_fields E (prot.with_kinds f) root fuel p (with_kinds_all f fs) c
      = (load_fields E prot root fuel p fs c).map (with_kinds_all f) := by
  induction fuel with
  | zero => intro p fs c; rfl
  | succ fuel ih =>
    intro p fs c
    cases c with
    | NULL => rfl
    | node ty nm props ch nx =>
      simp only [load_fields]
      exact load_fields_loop_with_kinds E prot root f _ _ ih ch p fs

/-- C15: at a `<group name="G">` element whose name `G` is defined, with whatever kind, take
any other assignment `f` of kinds to the records of the table under which `G` is a
`NumInGroup`. When the body of the group and the siblings behind it load, the loop returns
the array with the descriptor of the group; over the other table the lookup of `G` gives the
same record but for the kind, and the loop of `load_fields` at the group element has the
same outcome as over the table at hand: it fails or succeeds alike, and the arrays, the
descriptor of the group and its subfields included, are the same but for the kinds in the
records referred to. So the kind of `G` decides nothing in the load. -/
theorem load_fields_loop_group_any_kind (E : Env) (prot : FIXProtocolDescr)
    (root : xmlNodePtr) (fuel : Nat) (parser : FIXParser) (fields : List FIXFieldDescr)
    (props : List xmlAttr) (ch nx : xmlNodePtr) (G : String) (ft : FIXFieldType)
    (hG : get_attr_loop "name" props = some G)
    (hft : get_fix_field_type E prot G = some ft)
    (required : String) (hreq : get_attr_loop "required" props = some required)
    (f : FIXFieldType → FIXFieldTypeEnum) (hf : f ft = .NumInGroup) :
    (∀ parser1 sub parser2 rest,
      load_fields_loop E prot root (load_fields E prot root fuel) parser [] ch
        = .ok parser1 sub →
      load_fields_loop E prot root (load_fields E prot root fuel) parser1 [] nx
        = .ok parser2 rest →
      load_fields_loop E prot root (load_fields E prot root fuel) parser fields
          (.node .XML_ELEMENT_NODE "group" props ch nx)
        = .ok parser2 (fields ++ .mk ft (flags_of_required E required) sub
            (some (List.replicate E.FIELD_DESCR_CNT none)) none :: rest)) ∧
    (∃ ft2, get_fix_field_type E (prot.with_kinds f) G = some ft2 ∧
      ft2.type = .NumInGroup ∧ ft2.num = ft.num ∧ ft2.name = ft.name) ∧
    load_fields_loop E (prot.with_kinds f) root (load_fields E (prot.with_kinds f) root fuel)
        parser (with_kinds_all f fields) (.node .XML_ELEMENT_NODE "group" props ch nx)
      = (load_fields_loop E prot root (load_fields E prot root fuel) parser fields
          (.node .XML_ELEMENT_NODE "group" props ch nx)).map (with_kinds_all f) := by
  refine ⟨?_, ?_, ?_⟩
  · intro parser1 sub parser2 rest hsub hrest
    rw [load_fields_loop.eq_def]
    have h1 : ¬ ("group" = "field") := by decide
    have h2 : ¬ ("group" = "component") := by decide
    simp only [hG, hft, hreq, h1, h2, and_false, and_self, if_false, if_true, hsub]
    rw [load_fields_loop_append E prot root _ (load_fields_append E prot root fuel) nx, hrest]
    simp [flags_of_required]
  · refine ⟨ft.with_kind f, ?_, hf, rfl, rfl⟩
    rw [get_fix_field_type_with_kinds, hft]
    rfl
  · exact load_fields_loop_with_kinds E prot root f _ _
      (load_fields_with_kinds E prot root f fuel) _ parser fields

/-- C15 at the group `G` of `dict_group_int`, where `G` is an `Int`: the loop returns the
descriptor of `G` with the field `B` as its subfield, as it does when `G` is a
`NumInGroup`. -/
theorem load_fields_loop_group_any_kind_witness :
    load_fields_loop (sample_env dict_group_int) (group_int_prot.with_kinds (as_NumInGroup "G"))
        (xmlDocGetRootElement dict_group_int)
        (load_fields (sample_env dict_group_int)
          (group_int_prot.with_kinds (as_NumInGroup "G"))
          (xmlDocGetRootElement dict_group_int) 0)
        ⟨none⟩ (with_kinds_all (as_NumInGroup "G") [])
        (.node .XML_ELEMENT_NODE "group" [⟨"name", "G"⟩, ⟨"required", "Y"⟩]
          (el "field" [⟨"name", "B"⟩, ⟨"required", "N"⟩] .NULL .NULL) .NULL)
      = (Outcome.ok ⟨none⟩ [.mk ⟨9, "G", .Int⟩ 1 [.mk ⟨5, "B", .Int⟩ 0 [] none none]
          (some [none, none, none, none]) none]).map (with_kinds_all (as_NumInGroup "G")) :=
  (load_fields_loop_group_any_kind (sample_env dict_group_int) group_int_prot
    (xmlDocGetRootElement dict_group_int) 0 ⟨none⟩ [] [⟨"name", "G"⟩, ⟨"required", "Y"⟩]
    (el "field" [⟨"name", "B"⟩, ⟨"required", "N"⟩] .NULL .NULL) .NULL "G" ⟨9, "G", .Int⟩
    rfl rfl "Y" rfl (as_NumInGroup "G") rfl).2.2

/-! ## Termination of `load_fields` -/

/-- The expansion of a component that refers to itself does not come back, however deep the
recursion is allowed to go. -/
theorem load_fields_self_reference (fuel : Nat) :
    ∀ p fs, load_fields (sample_env dict_self_reference) self_reference_prot
      (xmlDocGetRootElement dict_self_reference) fuel p fs self_reference_component
        = .diverge := by
  induction fuel with
  | zero => intro p fs; rfl
  | succ fuel ih =>
    intro p fs
    have hA : get_fix_field_type (sample_env dict_self_reference) self_reference_prot "A"
        = some ⟨1, "A", .Int⟩ := rfl
    have hc : get_first (xmlDocGetRootElement dict_self_reference) "components"
        = some (el "components" [] self_reference_component
            (el "fields" []
              (el "field" [⟨"name", "A"⟩, ⟨"number", "1"⟩, ⟨"type", "Int"⟩] .NULL .NULL)
              .NULL)) := rfl
    have hc2 : get_first (el "components" [] self_reference_component
            (el "fields" []
              (el "field" [⟨"name", "A"⟩, ⟨"number", "1"⟩, ⟨"type", "Int"⟩] .NULL .NULL)
              .NULL)) "component" = some self_reference_component := rfl
    have hstep : ∀ p fs, load_components
        (load_fields (sample_env dict_self_reference) self_reference_prot
          (xmlDocGetRootElement dict_self_reference) fuel) (some "C") p fs
        self_reference_component = .diverge := by
      intro p fs
      have := ih p fs
      unfold self_reference_component el at this ⊢
      rw [load_components.eq_def]
      simp only [get_attr_loop, if_true, this]
    unfold self_reference_component el
    simp only [load_fields]
    rw [load_fields_loop.eq_def]
    simp only [get_attr_loop, and_self, if_true, hA]
    have h1 : ¬ ("name" = "required") := by decide
    have h2 : ¬ ("component" = "field") := by decide
    simp only [h1, if_false, xmlAttr.name, xmlAttr.content]
    rw [load_fields_loop.eq_def]
    simp only [h2, and_false, if_false, and_self, if_true, hc, hc2, get_attr_loop, hstep]

theorem load_components_mono
    (load load2 : FIXParser → List FIXFieldDescr → xmlNodePtr → Outcome (List FIXFieldDescr))
    (hmono : ∀ p fs c, load p fs c ≠ .diverge → load2 p fs c = load p fs c)
    (cn : Option String) (n : xmlNodePtr) :
    ∀ p fs, load_components load cn p fs n ≠ .diverge →
      load_components load2 cn p fs n = load_components load cn p fs n := by
  induction n with
  | NULL => intro p fs _; rfl
  | node ty nm props ch nx _ ihn =>
    intro p fs h
    rw [load_components.eq_def] at h
    rw [load_components.eq_def, load_components.eq_def load]
    simp only at h ⊢
    by_cases hel : ty = .XML_ELEMENT_NODE
    · simp only [hel, if_true] at h ⊢
      cases cn with
      | none => rfl
      | some c =>
        cases hx1 : get_attr_loop "name" props with
        | none => rfl
        | some name =>
          rw [hx1] at h
          simp only at h ⊢
          by_cases hc : c = name
          · subst hc
            simp only [if_true] at h ⊢
            cases hl : load p fs (.node .XML_ELEMENT_NODE nm props ch nx) with
            | ok p1 fs1 =>
              rw [hl] at h
              rw [hmono p fs _ (by rw [hl]; simp), hl]
              exact ihn p1 fs1 h
            | failed p1 => rw [hmono p fs _ (by rw [hl]; simp), hl]
            | crash => rw [hmono p fs _ (by rw [hl]; simp), hl]
            | diverge => rw [hl] at h; exact absurd rfl h
          · simp only [hc, if_false] at h ⊢
            exact ihn p fs h
    · simp only [hel, if_false] at h ⊢
      exact ihn p fs h

theorem load_fields_loop_mono (E : Env) (prot : FIXProtocolDescr) (root : xmlNodePtr)
    (load load2 : FIXParser → List FIXFieldDescr → xmlNodePtr → Outcome (List FIXFieldDescr))
    (hmono : ∀ p fs c, load p fs c ≠ .diverge → load2 p fs c = load p fs c)
    (n : xmlNodePtr) :
    ∀ p fs, load_fields_loop E prot root load p fs n ≠ .diverge →
      load_fields_loop E prot root load2 p fs n = load_fields_loop E prot root load p fs n := by
  induction n with
  | NULL => intro p fs _; rfl
  | node ty nm props ch nx ihc ihn =>
    intro p fs h
    rw [load_fields_loop.eq_def] at h
    rw [load_fields_loop.eq_def, load_fields_loop.eq_def E prot root load]
    simp only at h ⊢
    by_cases h1 : ty = .XML_ELEMENT_NODE ∧ nm = "field"
    · simp only [h1, and_self, if_true] at h ⊢
      cases hx2 : get_attr_loop "name" props with
      | none => rfl
      | some name =>
        rw [hx2] at h
        simp only at h ⊢
        cases hx3 : get_fix_field_type E prot name with
        | none => rfl
        | some ft =>
          rw [hx3] at h
          simp only at h ⊢
          cases hx4 : get_attr_loop "required" props with
          | none => rfl
          | some required =>
            rw [hx4] at h
            simp only at h ⊢
            exact ihn p _ h
    · simp only [h1, if_false] at h ⊢
      by_cases h2 : ty = .XML_ELEMENT_NODE ∧ nm = "component"
      · simp only [h2, and_self, if_true] at h ⊢
        cases hx5 : get_first root "components" with
        | none => rfl
        | some components =>
          rw [hx5] at h
          simp only at h ⊢
          cases hx6 : get_first components "component" with
          | none => rfl
          | some component =>
            rw [hx6] at h
            simp only at h ⊢
            cases hl : load_components load (get_attr_loop "name" props) p fs component with
            | ok p1 fs1 =>
              rw [hl] at h
              rw [load_components_mono load load2 hmono _ _ p fs (by rw [hl]; simp), hl]
              exact ihn p1 fs1 h
            | failed p1 =>
              rw [load_components_mono load load2 hmono _ _ p fs (by rw [hl]; simp), hl]
            | crash =>
              rw [load_components_mono load load2 hmono _ _ p fs (by rw [hl]; simp), hl]
            | diverge => rw [hl] at h; exact absurd rfl h
      · simp only [h2, if_false] at h ⊢
        by_cases h3 : ty = .XML_ELEMENT_NODE ∧ nm = "group"
        · simp only [h3, and_self, if_true] at h ⊢
          cases hx7 : get_attr_loop "name" props with
          | none => rfl
          | some name =>
            rw [hx7] at h
            simp only at h ⊢
            cases hx8 : get_fix_field_type E prot name with
            | none => rfl
            | some ft =>
              rw [hx8] at h
              simp only at h ⊢
              cases hx9 : get_attr_loop "required" props with
              | none => rfl
              | some required =>
                rw [hx9] at h
                simp only at h ⊢
                cases hl : load_fields_loop E prot root load p [] ch with
                | ok p1 sub =>
                  rw [hl] at h
                  rw [ihc p [] (by rw [hl]; simp), hl]
                  exact ihn p1 _ h
                | failed p1 => rw [ihc p [] (by rw [hl]; simp), hl]
                | crash => rw [ihc p [] (by rw [hl]; simp), hl]
                | diverge => rw [hl] at h; exact absurd rfl h
        · simp only [h3, if_false] at h ⊢
          exact ihn p fs h

/-- A call of `load_fields` that comes back with the recursion allowed to go `fuel` deep
comes back with the same, however much deeper it is allowed to go. -/
theorem load_fields_mono (E : Env) (prot : FIXProtocolDescr) (root : xmlNodePtr) :
    ∀ (fuel fuel2 : Nat), fuel ≤ fuel2 → ∀ p fs c,
      load_fields E prot root fuel p fs c ≠ .diverge →
      load_fields E prot root fuel2 p fs c = load_fields E prot root fuel p fs c := by
  intro fuel
  induction fuel with
  | zero => intro fuel2 _ p fs c h; exact absurd rfl h
  | succ fuel ih =>
    intro fuel2 hle p fs c h
    obtain ⟨f2, rfl⟩ : ∃ f2, fuel2 = f2 + 1 := ⟨fuel2 - 1, by omega⟩
    cases c with
    | NULL => rfl
    | node ty nm props ch nx =>
      simp only [load_fields] at h ⊢
      exact load_fields_loop_mono E prot root _ _ (ih f2 (by omega)) ch p fs h

theorem load_fields_self_reference_message (fuel : Nat) :
    ∀ p fs, load_fields (sample_env dict_self_reference) self_reference_prot
      (xmlDocGetRootElement dict_self_reference) fuel p fs self_reference_message
        = .diverge := by
  cases fuel with
  | zero => intro p fs; rfl
  | succ fuel =>
    intro p fs
    have hc : get_first (xmlDocGetRootElement dict_self_reference) "components"
        = some (el "components" [] self_reference_component
            (el "fields" []
              (el "field" [⟨"name", "A"⟩, ⟨"number", "1"⟩, ⟨"type", "Int"⟩] .NULL .NULL)
              .NULL)) := rfl
    have hc2 : get_first (el "components" [] self_reference_component
            (el "fields" []
              (el "field" [⟨"name", "A"⟩, ⟨"number", "1"⟩, ⟨"type", "Int"⟩] .NULL .NULL)
              .NULL)) "component" = some self_reference_component := rfl
    have hstep : ∀ p fs, load_components
        (load_fields (sample_env dict_self_reference) self_reference_prot
          (xmlDocGetRootElement dict_self_reference) fuel) (some "C") p fs
        self_reference_component = .diverge := by
      intro p fs
      have := load_fields_self_reference fuel p fs
      unfold self_reference_component el at this ⊢
      rw [load_components.eq_def]
      simp only [get_attr_loop, if_true, this]
    have h2 : ¬ ("component" = "field") := by decide
    unfold self_reference_message el
    simp only [load_fields]
    rw [load_fields_loop.eq_def]
    simp only [h2, and_false, if_false, and_self, if_true, hc, hc2, get_attr_loop, hstep]

theorem fix_protocol_descr_init_self_reference (fuel : Nat) (parser : FIXParser)
    (file : String) :
    fix_protocol_descr_init (sample_env dict_self_reference) fuel parser file = .diverge := by
  have hft : load_field_types (sample_env dict_self_reference) parser
      ⟨.FIX44, List.replicate 3 [], List.replicate 2 []⟩
      (xmlDocGetRootElement dict_self_reference) = .ok parser self_reference_prot := rfl
  have hm := load_fields_self_reference_message fuel parser []
  have hlm : load_message (sample_env dict_self_reference) fuel parser self_reference_message
      (xmlDocGetRootElement dict_self_reference) self_reference_prot = .diverge := by
    unfold load_message
    rw [hm]
    rfl
  have hloop : load_messages_loop (sample_env dict_self_reference) fuel
      (xmlDocGetRootElement dict_self_reference) parser self_reference_prot
      self_reference_message = .diverge := by
    unfold self_reference_message el at hlm ⊢
    rw [load_messages_loop.eq_def]
    simp only [and_self, if_true, hlm]
  exact hloop

/-- C19: in a dictionary with the sections and attributes that the loader reads, whose
component references are acyclic (every component refers only to components of smaller
rank), `load_fields` comes back for the body of every message as soon as the recursion may
go deeper than the largest rank by two, with a value or with a failure, and with the same
result however much deeper it may go. In the dictionary `dict_self_reference`, whose
component `C` refers to itself (so that no rank exists), `load_fields` does not come back for
the body of the message, however deep the recursion may go, and neither does
`fix_protocol_descr_init`. -/
theorem load_fields_terminates (E : Env) (prot : FIXProtocolDescr) (root : xmlNodePtr)
    (rank : String → Nat) (hok : dictionary_ok root = true)
    (hrank : components_ranked root rank = true) (M : xmlNodePtr)
    (hM : M ∈ message_elements root) :
    (∀ fuel, rank_bound root rank + 1 < fuel → ∀ p fs,
      (load_fields E prot root fuel p fs M).settled = true ∧
      load_fields E prot root fuel p fs M
        = load_fields E prot root (rank_bound root rank + 2) p fs M) ∧
    (dictionary_ok (xmlDocGetRootElement dict_self_reference) = true ∧
      self_reference_message ∈ message_elements (xmlDocGetRootElement dict_self_reference) ∧
      find_component (xmlDocGetRootElement dict_self_reference) "C"
        = some self_reference_component ∧
      "C" ∈ body_refs self_reference_component.children ∧
      (∀ rank2, components_ranked (xmlDocGetRootElement dict_self_reference) rank2 = false) ∧
      (∀ fuel p fs, load_fields (sample_env dict_self_reference) self_reference_prot
        (xmlDocGetRootElement dict_self_reference) fuel p fs self_reference_message
          = .diverge) ∧
      (∀ fuel parser file,
        fix_protocol_descr_init (sample_env dict_self_reference) fuel parser file
          = .diverge)) := by
  refine ⟨?_, by decide, by decide, by decide, by decide, ?_, ?_, ?_⟩
  · intro fuel hfuel p fs
    have hs := load_fields_message_settled E prot root rank hok hrank fuel hfuel M hM p fs
    have hs2 := load_fields_message_settled E prot root rank hok hrank
      (rank_bound root rank + 2) (by omega) M hM p fs
    refine ⟨hs, ?_⟩
    apply load_fields_mono E prot root _ _ (by omega) p fs M
    intro hd
    rw [hd] at hs2
    exact absurd hs2 (by decide)
  · intro rank2
    have h : components_ranked (xmlDocGetRootElement dict_self_reference) rank2
        = (decide (rank2 "C" < rank2 "C") && true && true) := rfl
    rw [h]
    simp
  · exact fun fuel p fs => load_fields_self_reference_message fuel p fs
  · exact fun fuel parser file => fix_protocol_descr_init_self_reference fuel parser file

/-- C19 at the message of `dict_logon`, whose one component refers to no component, with the
recursion allowed to go 5 deep. -/
theorem load_fields_terminates_witness :
    (load_fields (sample_env dict_logon) logon_prot (xmlDocGetRootElement dict_logon)
      5 ⟨none⟩ [] logon_message).settled = true ∧
    load_fields (sample_env dict_logon) logon_prot (xmlDocGetRootElement dict_logon)
        5 ⟨none⟩ [] logon_message
      = load_fields (sample_env dict_logon) logon_prot (xmlDocGetRootElement dict_logon)
          (rank_bound (xmlDocGetRootElement dict_logon) (fun _ => 0) + 2) ⟨none⟩ []
          logon_message :=
  (load_fields_terminates (sample_env dict_logon) logon_prot (xmlDocGetRootElement dict_logon)
    (fun _ => 0) (by decide) (by decide) logon_message (by decide)).1 5 (by decide) ⟨none⟩ []

/-! ## The checksum of an encoded message -/

/-- The three digits of a number below 1000 are digits, and the number is their value. -/
theorem checksum_digits_value (n : Nat) (h : n < 1000) :
    ∃ d2 d1 d0, checksum_digits n = [d2, d1, d0] ∧
      48 ≤ d2 ∧ d2 ≤ 57 ∧ 48 ≤ d1 ∧ d1 ≤ 57 ∧ 48 ≤ d0 ∧ d0 ≤ 57 ∧
      (d2 - 48) * 100 + (d1 - 48) * 10 + (d0 - 48) = n := by
  refine ⟨48 + n / 100 % 10, 48 + n / 10 % 10, 48 + n % 10, rfl, ?_⟩
  omega

/-- C16: whenever `fix_msg_to_fix` succeeds, the buffer is the bytes `pre` of the fields
before `CheckSum`, then `10=`, three digits and the delimiter; the three digits are decimal
digits and their value is the sum of all bytes of `pre` modulo 256. The call succeeds for
every buffer that is long enough. -/
theorem fix_msg_to_fix_checksum (version_str : FIXProtocolVerEnum → List Nat)
    (fmt_double : Nat → List Nat) (prot : FIXProtocolDescr) (msg : FIXMessage)
    (delimiter : Nat) :
    (∀ buffLen buff,
      fix_msg_to_fix version_str fmt_double prot msg delimiter buffLen = .FIX_SUCCESS buff →
      ∃ pre d2 d1 d0, buff = pre ++ [49, 48, 61, d2, d1, d0, delimiter] ∧
        48 ≤ d2 ∧ d2 ≤ 57 ∧ 48 ≤ d1 ∧ d1 ≤ 57 ∧ 48 ≤ d0 ∧ d0 ≤ 57 ∧
        (d2 - 48) * 100 + (d1 - 48) * 10 + (d0 - 48) = pre.sum % 256) ∧
    (∃ n, ∀ buffLen, n ≤ buffLen →
      ∃ buff, fix_msg_to_fix version_str fmt_double prot msg delimiter buffLen
        = .FIX_SUCCESS buff) := by
  constructor
  · intro buffLen buff h
    unfold fix_msg_to_fix at h
    simp only at h
    split at h
    · simp only [EncodeResult.FIX_SUCCESS.injEq] at h
      obtain ⟨d2, d1, d0, hd, hr⟩ := checksum_digits_value
        ((encode_body version_str fmt_double prot msg delimiter).sum % 256)
        (by have := Nat.mod_lt (encode_body version_str fmt_double prot msg delimiter).sum
              (show 0 < 256 by decide)
            omega)
      refine ⟨encode_body version_str fmt_double prot msg delimiter, d2, d1, d0, ?_, hr⟩
      rw [← h, render_field, hd]
      have h10 : decimal 10 = [49, 48] := by decide
      rw [h10]
      simp
    · simp at h
  · refine ⟨(encode_body version_str fmt_double prot msg delimiter
      ++ render_field delimiter 10
        (checksum_digits ((encode_body version_str fmt_double prot msg delimiter).sum % 256))).length,
      ?_⟩
    intro buffLen hlen
    unfold fix_msg_to_fix
    simp only
    rw [if_pos hlen]
    exact ⟨_, rfl⟩

/-- C16 at `sample_message`, encoded with `|` as the delimiter into a buffer of 64 bytes:
`8=FIX.4.4|9=15|35=A|49=S|34=1|10=032|`. -/
theorem fix_msg_to_fix_checksum_witness :
    ∃ pre d2 d1 d0,
      string_bytes "8=FIX.4.4|9=15|35=A|49=S|34=1|10=032|"
        = pre ++ [49, 48, 61, d2, d1, d0, 124] ∧
      48 ≤ d2 ∧ d2 ≤ 57 ∧ 48 ≤ d1 ∧ d1 ≤ 57 ∧ 48 ≤ d0 ∧ d0 ≤ 57 ∧
      (d2 - 48) * 100 + (d1 - 48) * 10 + (d0 - 48) = pre.sum % 256 :=
  (fix_msg_to_fix_checksum sample_FIXProtocolVerEnum2str (fun _ => []) logon_prot
    sample_message 124).1 64 _ (by decide)

/-! ## Values written to a message and read back -/

theorem tag_table_get_set_self (t : TagTable) (tag : Nat) (v : TagValue) :
    tag_table_get (tag_table_set t tag v) tag = some v := by
  induction t with
  | nil => simp [tag_table_set, tag_table_get]
  | cons e rest ih =>
    rw [tag_table_set]
    by_cases h : e.1 = tag
    · simp [h, tag_table_get]
    · simp [h, tag_table_get, ih]

theorem tag_table_get_set_ne (t : TagTable) (tag tag2 : Nat) (v : TagValue) (hne : tag2 ≠ tag) :
    tag_table_get (tag_table_set t tag v) tag2 = tag_table_get t tag2 := by
  induction t with
  | nil => simp [tag_table_set, tag_table_get, Ne.symm hne]
  | cons e rest ih =>
    rw [tag_table_set]
    by_cases h : e.1 = tag
    · have h2 : ¬ e.1 = tag2 := fun h3 => hne (h3.symm.trans h)
      simp [h, tag_table_get, h2, Ne.symm hne]
    · simp only [h, if_false, tag_table_get, ih]

/-- A write through a handle that leads to a table: it succeeds, and the handle leads to
the table written. -/
theorem table_at_put (new : TagTable) (path : List (Nat × Nat)) :
    ∀ (root t : TagTable), table_at path root = some t →
      ∃ root1, table_put new path root = some root1 ∧ table_at path root1 = some new := by
  induction path with
  | nil => intro root t _; exact ⟨new, rfl, rfl⟩
  | cons step rest ih =>
    intro root t h
    obtain ⟨tag, index⟩ := step
    simp only [table_at, get_group_occurrence] at h
    cases hg : tag_table_get root tag with
    | none => rw [hg] at h; simp at h
    | some v =>
      rw [hg] at h
      cases v with
      | Group occurrences =>
        simp only at h
        cases ho : occurrences[index]? with
        | none => rw [ho] at h; simp at h
        | some occurrence =>
          rw [ho] at h
          simp only at h
          obtain ⟨occ1, hput, hat⟩ := ih occurrence t h
          refine ⟨tag_table_set root tag (.Group (occurrences.set index occ1)), ?_, ?_⟩
          · simp only [table_put, hg, ho, hput]
          · have hlt : index < occurrences.length := by
              rcases Nat.lt_or_ge index occurrences.length with hlt | hge
              · exact hlt
              · rw [List.getElem?_eq_none hge] at ho
                exact absurd ho (by simp)
            simp only [table_at, get_group_occurrence, tag_table_get_set_self]
            rw [List.getElem?_set_self (by simpa using hlt)]
            exact hat
      | Long _ => simp at h
      | ULong _ => simp at h
      | Char _ => simp at h
      | Double _ => simp at h
      | String _ => simp at h
      | Data _ => simp at h

/-- A setter whose kind check passes writes the value, and the value is what the table of
the parent has at the tag afterwards. -/
theorem set_tag_value_get (E : Env) (msg : FIXMessage) (grp : Option FIXGroup) (tagNum : Nat)
    (accepts : FIXFieldTypeEnum → Bool) (value : TagValue)
    (descr : Option (FieldPtr × FIXFieldDescr)) (t : TagTable)
    (hfind : find_field_descr E msg grp tagNum = .ok descr)
    (hkind : ∀ d, descr = some d → accepts d.2.field_type.type = true)
    (hparent : table_at (group_path grp) msg.tags = some t) :
    ∃ msg1, set_tag_value E msg grp tagNum accepts value = .ok msg1 ∧
      msg1.descr = msg.descr ∧ msg1.flags = msg.flags ∧
      get_tag_value msg1 grp tagNum = .ok value := by
  obtain ⟨tags1, hput, hat⟩ :=
    table_at_put (tag_table_set t tagNum value) (group_path grp) msg.tags t hparent
  refine ⟨{ msg with tags := tags1 }, ?_, rfl, rfl, ?_⟩
  · unfold set_tag_value
    rw [hfind]
    cases descr with
    | none => simp only [if_true, hparent, hput]
    | some d => simp only [hkind d rfl, if_true, hparent, hput]
  · unfold get_tag_value
    simp only [hat, tag_table_get_set_self]

/-- C17: let the descriptor lookup of the setters find a descriptor `d` for the tag in the
message, which it does only in a validated message, and let the parent handle lead to a
table. Then for each setter whose kinds include the kind of `d`, and every value of the
width of its type, the setter succeeds and the matching getter returns the value from the
message that the setter returns: `int32` and `int64` for the integer kinds, `double` (as 64
bits) for the kinds with a fraction, `char` for `Char` and `Boolean`, `string` for the
textual kinds and `data` for `Data`. -/
theorem fix_msg_set_get_round_trip (E : Env) (msg : FIXMessage) (grp : Option FIXGroup)
    (tagNum : Nat) (fld : FieldPtr) (d : FIXFieldDescr) (t : TagTable)
    (hfind : find_field_descr E msg grp tagNum = .ok (some (fld, d)))
    (hparent : table_at (group_path grp) msg.tags = some t) :
    msg.flags &&& FIX_MESSAGE_FLAGS_VALIDATE ≠ 0 ∧
    (integer_kind d.field_type.type = true →
      ∀ v : Int, -2147483648 ≤ v → v < 2147483648 →
        ∃ msg1, fix_msg_set_int32 E msg grp tagNum v = .ok msg1 ∧
          fix_msg_get_int32 msg1 grp tagNum = .ok v) ∧
    (integer_kind d.field_type.type = true →
      ∀ v : Int, -9223372036854775808 ≤ v → v < 9223372036854775808 →
        ∃ msg1, fix_msg_set_int64 E msg grp tagNum v = .ok msg1 ∧
          fix_msg_get_int64 msg1 grp tagNum = .ok v) ∧
    (fraction_kind d.field_type.type = true →
      ∀ bits : Nat, bits < 18446744073709551616 →
        ∃ msg1, fix_msg_set_double E msg grp tagNum bits = .ok msg1 ∧
          fix_msg_get_double msg1 grp tagNum = .ok bits) ∧
    (char_kind d.field_type.type = true →
      ∀ v : Nat, v < 256 →
        ∃ msg1, fix_msg_set_char E msg grp tagNum v = .ok msg1 ∧
          fix_msg_get_char msg1 grp tagNum = .ok v) ∧
    (textual_kind d.field_type.type = true →
      ∀ bytes : List Nat,
        ∃ msg1, fix_msg_set_string E msg grp tagNum bytes = .ok msg1 ∧
          fix_msg_get_string msg1 grp tagNum = .ok bytes) ∧
    (data_kind d.field_type.type = true →
      ∀ bytes : List Nat,
        ∃ msg1, fix_msg_set_data E msg grp tagNum bytes = .ok msg1 ∧
          fix_msg_get_data msg1 grp tagNum = .ok bytes) := by
  have hset := fun (accepts : FIXFieldTypeEnum → Bool) (value : TagValue)
      (hk : accepts d.field_type.type = true) =>
    set_tag_value_get E msg grp tagNum accepts value (some (fld, d)) t hfind
      (by intro d2 hd2; simp only [Option.some.injEq] at hd2; rw [← hd2]; exact hk) hparent
  refine ⟨?_, ?_, ?_, ?_, ?_, ?_, ?_⟩
  · intro h0
    unfold find_field_descr at hfind
    rw [if_pos h0] at hfind
    simp at hfind
  · intro hk v h1 h2
    obtain ⟨msg1, hs, _, _, hg⟩ := hset integer_kind (.Long (to_int32 v)) hk
    refine ⟨msg1, hs, ?_⟩
    unfold fix_msg_get_int32
    rw [hg]
    simp only [MsgOutcome.ok.injEq]
    unfold to_int32
    omega
  · intro hk v h1 h2
    obtain ⟨msg1, hs, _, _, hg⟩ := hset integer_kind (.Long (to_int64 v)) hk
    refine ⟨msg1, hs, ?_⟩
    unfold fix_msg_get_int64
    rw [hg]
    simp only [MsgOutcome.ok.injEq]
    unfold to_int64
    omega
  · intro hk bits h1
    obtain ⟨msg1, hs, _, _, hg⟩ :=
      hset fraction_kind (.Double (bits % 18446744073709551616)) hk
    refine ⟨msg1, hs, ?_⟩
    unfold fix_msg_get_double
    rw [hg]
    simp only [MsgOutcome.ok.injEq]
    exact Nat.mod_eq_of_lt h1
  · intro hk v h1
    obtain ⟨msg1, hs, _, _, hg⟩ := hset char_kind (.Char (v % 256)) hk
    refine ⟨msg1, hs, ?_⟩
    unfold fix_msg_get_char
    rw [hg]
    simp only [MsgOutcome.ok.injEq]
    exact Nat.mod_eq_of_lt h1
  · intro hk bytes
    obtain ⟨msg1, hs, _, _, hg⟩ := hset textual_kind (.String bytes) hk
    refine ⟨msg1, hs, ?_⟩
    unfold fix_msg_get_string
    rw [hg]
  · intro hk bytes
    obtain ⟨msg1, hs, _, _, hg⟩ := hset data_kind (.Data bytes) hk
    refine ⟨msg1, hs, ?_⟩
    unfold fix_msg_get_data
    rw [hg]

/-- C17 at `validated_message` and its tag 1, an `Int`: 42 set with `fix_msg_set_int32` is
what `fix_msg_get_int32` returns. -/
theorem fix_msg_set_get_round_trip_witness :
    ∃ msg1, fix_msg_set_int32 (sample_env dict_logon) validated_message none 1 42 = .ok msg1 ∧
      fix_msg_get_int32 msg1 none 1 = .ok 42 :=
  (fix_msg_set_get_round_trip (sample_env dict_logon) validated_message none 1 [0]
    (.mk ⟨1, "A", .Int⟩ 1 [] none none) validated_message.tags rfl rfl).2.1 rfl 42
    (by decide) (by decide)

/-! ## The occurrences of a group -/

theorem tag_table_set_absent (t : TagTable) (tag : Nat) (v : TagValue)
    (h : tag_table_get t tag = none) : tag_table_set t tag v = t ++ [(tag, v)] := by
  induction t with
  | nil => rfl
  | cons e rest ih =>
    rw [tag_table_get] at h
    by_cases he : e.1 = tag
    · simp [he] at h
    · simp only [he, if_false] at h
      simp [tag_table_set, he, ih h]

theorem tag_table_get_append (t : TagTable) (tag : Nat) (v : TagValue)
    (h : tag_table_get t tag = none) : tag_table_get (t ++ [(tag, v)]) tag = some v := by
  rw [← tag_table_set_absent t tag v h, tag_table_get_set_self]

theorem tag_table_set_append (t : TagTable) (tag : Nat) (v v2 : TagValue)
    (h : tag_table_get t tag = none) :
    tag_table_set (t ++ [(tag, v)]) tag v2 = t ++ [(tag, v2)] := by
  induction t with
  | nil => simp [tag_table_set]
  | cons e rest ih =>
    rw [tag_table_get] at h
    by_cases he : e.1 = tag
    · simp [he] at h
    · simp only [he, if_false] at h
      simp [tag_table_set, he, ih h]

theorem tag_table_del_append (t : TagTable) (tag : Nat) (v : TagValue)
    (h : tag_table_get t tag = none) : tag_table_del (t ++ [(tag, v)]) tag = (t, true) := by
  induction t with
  | nil => simp [tag_table_del]
  | cons e rest ih =>
    rw [tag_table_get] at h
    by_cases he : e.1 = tag
    · simp [he] at h
    · simp only [he, if_false] at h
      simp [tag_table_del, he, ih h]

/-- A tag that the table has once is gone after `del`. -/
theorem tag_table_get_del (t : TagTable) (tag : Nat) (h : (t.map (fun e => e.1)).Nodup) :
    tag_table_get (tag_table_del t tag).1 tag = none := by
  induction t with
  | nil => rfl
  | cons e rest ih =>
    simp only [List.map_cons, List.nodup_cons] at h
    rw [tag_table_del]
    by_cases he : e.1 = tag
    · simp only [he, if_true]
      have hnot : ∀ (l : TagTable), tag ∉ l.map (fun e => e.1) → tag_table_get l tag = none := by
        intro l
        induction l with
        | nil => intro _; rfl
        | cons a l ihl =>
          intro hm
          simp only [List.map_cons, List.mem_cons, not_or] at hm
          simp [tag_table_get, Ne.symm hm.1, ihl hm.2]
      exact hnot rest (by rw [← he]; exact h.1)
    · simp only [he, if_false, tag_table_get]
      exact ih h.2

/-- The descriptor lookup looks at the descriptor and the flags of the message only. -/
theorem find_field_descr_congr (E : Env) (msg msg1 : FIXMessage) (grp : Option FIXGroup)
    (tagNum : Nat) (hd : msg1.descr = msg.descr) (hf : msg1.flags = msg.flags) :
    find_field_descr E msg1 grp tagNum = find_field_descr E msg grp tagNum := by
  unfold find_field_descr
  rw [hd, hf]

/-- One call of `fix_msg_add_group` on a message whose lookup for the tag passes the check
for a group: it appends what `add_group_occurrence` appends to the table of the parent. -/
theorem fix_msg_add_group_step (E : Env) (msg : FIXMessage) (grp : Option FIXGroup)
    (tagNum : Nat) (descr : Option (FieldPtr × FIXFieldDescr)) (t : TagTable)
    (added : TagTable × Nat)
    (hfind : find_field_descr E msg grp tagNum = .ok descr)
    (hgroup : ∀ d, descr = some d → d.2.group.length ≠ 0)
    (hparent : table_at (group_path grp) msg.tags = some t)
    (hadd : add_group_occurrence t tagNum = some added) :
    ∃ msg1 g, fix_msg_add_group E msg grp tagNum = .ok (msg1, g) ∧
      msg1.descr = msg.descr ∧ msg1.flags = msg.flags ∧
      table_at (group_path grp) msg1.tags = some added.1 ∧
      g.path = group_path grp ++ [(tagNum, added.2)] := by
  obtain ⟨tags1, hput, hat⟩ := table_at_put added.1 (group_path grp) msg.tags t hparent
  refine ⟨{ msg with tags := tags1 },
    { path := group_path grp ++ [(tagNum, added.2)], descr := descr.map (fun d => d.1) },
    ?_, rfl, rfl, hat, rfl⟩
  unfold fix_msg_add_group
  rw [hfind]
  cases descr with
  | none => simp only [if_true, hparent, hadd, hput]
  | some d =>
    have := hgroup d rfl
    simp only [this, ne_eq, not_false_eq_true, decide_True, if_true, hparent, hadd, hput]

/-- The message after `n` consecutive calls of `fix_msg_add_group` for a tag that the table
of the parent did not have: the table has got one entry, behind the others, with `n` empty
occurrences. -/
theorem add_groups_table (E : Env) (msg : FIXMessage) (grp : Option FIXGroup)
    (tagNum : Nat) (descr : Option (FieldPtr × FIXFieldDescr)) (t : TagTable)
    (hfind : find_field_descr E msg grp tagNum = .ok descr)
    (hgroup : ∀ d, descr = some d → d.2.group.length ≠ 0)
    (hparent : table_at (group_path grp) msg.tags = some t)
    (habsent : tag_table_get t tagNum = none) (n : Nat) :
    ∃ msg1, add_groups E msg grp tagNum (n + 1) = .ok msg1 ∧
      msg1.descr = msg.descr ∧ msg1.flags = msg.flags ∧
      table_at (group_path grp) msg1.tags
        = some (t ++ [(tagNum, .Group (List.replicate (n + 1) []))]) := by
  induction n with
  | zero =>
    have hadd : add_group_occurrence t tagNum
        = some (t ++ [(tagNum, .Group [[]])], 0) := by
      unfold add_group_occurrence
      rw [habsent]
      simp only [tag_table_set_absent t tagNum _ habsent]
    obtain ⟨msg1, g, hs, hd, hf, hat, _⟩ :=
      fix_msg_add_group_step E msg grp tagNum descr t _ hfind hgroup hparent hadd
    refine ⟨msg1, ?_, hd, hf, ?_⟩
    · simp only [add_groups, hs]
    · rw [hat]; rfl
  | succ n ih =>
    obtain ⟨msg1, hs1, hd1, hf1, hat1⟩ := ih
    have hadd : add_group_occurrence (t ++ [(tagNum, .Group (List.replicate (n + 1) []))]) tagNum
        = some (t ++ [(tagNum, .Group (List.replicate (n + 1 + 1) []))], n + 1) := by
      unfold add_group_occurrence
      rw [tag_table_get_append t tagNum _ habsent]
      simp only [tag_table_set_append t tagNum _ _ habsent, List.length_replicate]
      rw [show (List.replicate (n + 1) ([] : List (Nat × TagValue)) ++ [[]])
        = List.replicate (n + 1 + 1) [] from by
          rw [List.replicate_succ' (n + 1)]]
    have hfind1 : find_field_descr E msg1 grp tagNum = .ok descr := by
      rw [find_field_descr_congr E msg msg1 grp tagNum hd1 hf1, hfind]
    obtain ⟨msg2, g, hs, hd, hf, hat, _⟩ :=
      fix_msg_add_group_step E msg1 grp tagNum descr _ _ hfind1 hgroup hat1 hadd
    refine ⟨msg2, ?_, hd.trans hd1, hf.trans hf1, hat⟩
    rw [add_groups, hs1]
    simp only [hs]

/-- The count at a tag is that of the group stored at it. -/
theorem group_count_some (t : TagTable) (tag c : Nat) (h : group_count t tag = some c) :
    ∃ occurrences, tag_table_get t tag = some (.Group occurrences) ∧ occurrences.length = c := by
  unfold group_count at h
  cases hg : tag_table_get t tag with
  | none => rw [hg] at h; simp at h
  | some v =>
    rw [hg] at h
    cases v with
    | Group occurrences => exact ⟨occurrences, rfl, by simpa using h⟩
    | Long _ => simp at h
    | ULong _ => simp at h
    | Char _ => simp at h
    | Double _ => simp at h
    | String _ => simp at h
    | Data _ => simp at h

/-- What `del_group_occurrence` leaves at the tag of a group with `c` occurrences: the count
`c - 1`, and no entry when `c` is 1. -/
theorem del_group_occurrence_count (t : TagTable) (tag c index : Nat)
    (hdel : tag_table_get (tag_table_del t tag).1 tag = none) (hc : group_count t tag = some c) :
    ((del_group_occurrence t tag index).2 = true ↔ index < c) ∧
    ((del_group_occurrence t tag index).2 = true →
      (c = 1 → tag_table_get (del_group_occurrence t tag index).1 tag = none) ∧
      (c ≠ 1 → group_count (del_group_occurrence t tag index).1 tag = some (c - 1))) := by
  obtain ⟨occurrences, hg, hlen⟩ := group_count_some t tag c hc
  unfold del_group_occurrence
  rw [hg]
  simp only
  by_cases hi : index < occurrences.length
  · have hel := List.length_eraseIdx_of_lt hi
    rw [if_pos hi]
    by_cases h0 : (occurrences.eraseIdx index).length = 0
    · rw [if_pos h0]
      refine ⟨by simp [← hlen, hi], fun _ => ⟨fun _ => hdel, ?_⟩⟩
      intro hne
      omega
    · rw [if_neg h0]
      refine ⟨by simp [← hlen, hi], fun _ => ⟨?_, ?_⟩⟩
      · intro h1; omega
      · intro _
        unfold group_count
        rw [tag_table_get_set_self]
        simp only [Option.some.injEq]
        omega
  · rw [if_neg hi]
    refine ⟨by simp [← hlen, hi], ?_⟩
    intro h
    simp at h

/-- A call of `fix_msg_del_group` that succeeds, on a message whose parent table has the tag
once, with `c` occurrences: afterwards the count is `c - 1`, and the tag is
absent when `c` was 1. -/
theorem fix_msg_del_group_count (E : Env) (msg : FIXMessage) (grp : Option FIXGroup)
    (tagNum grpIdx c : Nat) (t : TagTable) (msg1 : FIXMessage)
    (hparent : table_at (group_path grp) msg.tags = some t)
    (hdel : tag_table_get (tag_table_del t tagNum).1 tagNum = none)
    (hc : group_count t tagNum = some c)
    (h : fix_msg_del_group E msg grp tagNum grpIdx = .ok msg1) :
    grpIdx < c ∧
    ∃ t1, table_at (group_path grp) msg1.tags = some t1 ∧
      (c = 1 → tag_table_get t1 tagNum = none) ∧
      (c ≠ 1 → group_count t1 tagNum = some (c - 1)) := by
  obtain ⟨hiff, hafter⟩ := del_group_occurrence_count t tagNum c grpIdx hdel hc
  unfold fix_msg_del_group at h
  cases hf : find_field_descr E msg grp tagNum with
  | ok descr =>
    rw [hf, hparent] at h
    simp only at h
    by_cases hdel : (del_group_occurrence t tagNum grpIdx).2 = true
    · rw [if_pos hdel] at h
      obtain ⟨tags1, hput, hat⟩ := table_at_put (del_group_occurrence t tagNum grpIdx).1
        (group_path grp) msg.tags t hparent
      rw [hput] at h
      simp only [MsgOutcome.ok.injEq] at h
      refine ⟨hiff.mp hdel, (del_group_occurrence t tagNum grpIdx).1, ?_, hafter hdel⟩
      rw [← h]
      exact hat
    · rw [if_neg hdel] at h
      simp at h
  | error kind => rw [hf] at h; simp at h
  | crash => rw [hf] at h; simp at h
  | diverge => rw [hf] at h; simp at h

/-- A call of `fix_msg_del_group` for an index below the count succeeds when the lookup for
the tag does. -/
theorem fix_msg_del_group_ok (E : Env) (msg : FIXMessage) (grp : Option FIXGroup)
    (tagNum grpIdx c : Nat) (t : TagTable) (descr : Option (FieldPtr × FIXFieldDescr))
    (hfind : find_field_descr E msg grp tagNum = .ok descr)
    (hparent : table_at (group_path grp) msg.tags = some t)
    (hdel : tag_table_get (tag_table_del t tagNum).1 tagNum = none)
    (hc : group_count t tagNum = some c) :
    (grpIdx < c → ∃ msg1, fix_msg_del_group E msg grp tagNum grpIdx = .ok msg1) ∧
    (c ≤ grpIdx → fix_msg_del_group E msg grp tagNum grpIdx = .error .NotFound) := by
  obtain ⟨hiff, _⟩ := del_group_occurrence_count t tagNum c grpIdx hdel hc
  unfold fix_msg_del_group
  rw [hfind, hparent]
  simp only
  constructor
  · intro hlt
    rw [if_pos (hiff.mpr hlt)]
    obtain ⟨tags1, hput, _⟩ := table_at_put (del_group_occurrence t tagNum grpIdx).1
      (group_path grp) msg.tags t hparent
    rw [hput]
    exact ⟨_, rfl⟩
  · intro hge
    have : ¬ (del_group_occurrence t tagNum grpIdx).2 = true := fun h => by
      have := hiff.mp h
      omega
    rw [if_neg this]

/-- A call of `fix_msg_add_group` that succeeds, on a message whose parent table has `c`
occurrences at the tag: afterwards the count is `c + 1`, and the handle is that of the
occurrence with the index `c`. -/
theorem fix_msg_add_group_count (E : Env) (msg : FIXMessage) (grp : Option FIXGroup)
    (tagNum c : Nat) (t : TagTable) (msg1 : FIXMessage) (g : FIXGroup)
    (hparent : table_at (group_path grp) msg.tags = some t)
    (hc : group_count t tagNum = some c)
    (h : fix_msg_add_group E msg grp tagNum = .ok (msg1, g)) :
    g.path = group_path grp ++ [(tagNum, c)] ∧
    ∃ t1, table_at (group_path grp) msg1.tags = some t1 ∧
      group_count t1 tagNum = some (c + 1) := by
  obtain ⟨occurrences, hg, hlen⟩ := group_count_some t tagNum c hc
  have hadd : add_group_occurrence t tagNum
      = some (tag_table_set t tagNum (.Group (occurrences ++ [[]])), occurrences.length) := by
    unfold add_group_occurrence
    rw [hg]
  unfold fix_msg_add_group at h
  cases hf : find_field_descr E msg grp tagNum with
  | ok descr =>
    rw [hf] at h
    simp only at h
    split at h
    · rw [hparent] at h
      simp only [hadd] at h
      obtain ⟨tags1, hput, hat⟩ := table_at_put
        (tag_table_set t tagNum (.Group (occurrences ++ [[]]))) (group_path grp) msg.tags t
        hparent
      rw [hput] at h
      simp only [MsgOutcome.ok.injEq, Prod.mk.injEq] at h
      refine ⟨by rw [← h.2, hlen], tag_table_set t tagNum (.Group (occurrences ++ [[]])), ?_, ?_⟩
      · rw [← h.1]; exact hat
      · unfold group_count
        rw [tag_table_get_set_self]
        simp [hlen]
    · simp at h
  | error kind => rw [hf] at h; simp at h
  | crash => rw [hf] at h; simp at h
  | diverge => rw [hf] at h; simp at h

/-- C18: let the lookup for the tag pass the check of `fix_msg_add_group` (with `VALIDATE`
the descriptor has subfields), let the parent handle lead to a table, and let the table have
no entry at the tag. Then `N ≥ 1` consecutive calls of `fix_msg_add_group` succeed; after
them the count stored at the tag is `N`; `fix_msg_get_group` returns an occurrence exactly
for the indices below `N`; `fix_msg_del_group` succeeds exactly for the indices below `N`,
and after it the count is `N - 1`, and the tag is absent when `N` was 1. From every state: a
call of `fix_msg_del_group` that succeeds on a table with every tag once and `c` occurrences
at the tag leaves `c - 1`, and no entry when `c` was 1; a call of `fix_msg_add_group` that
succeeds on a table with `c` occurrences at the tag leaves `c + 1`. -/
theorem fix_msg_group_arity (E : Env) (msg : FIXMessage) (grp : Option FIXGroup)
    (tagNum : Nat) (descr : Option (FieldPtr × FIXFieldDescr)) (t : TagTable)
    (hfind : find_field_descr E msg grp tagNum = .ok descr)
    (hgroup : ∀ d, descr = some d → d.2.group.length ≠ 0)
    (hparent : table_at (group_path grp) msg.tags = some t)
    (habsent : tag_table_get t tagNum = none) (N : Nat) (hN : 1 ≤ N) :
    (∃ msgN tN, add_groups E msg grp tagNum N = .ok msgN ∧
      table_at (group_path grp) msgN.tags = some tN ∧
      group_count tN tagNum = some N ∧
      (∀ i, (∃ g, fix_msg_get_group E msgN grp tagNum i = .ok g) ↔ i < N) ∧
      (∀ i, i < N → ∃ msgD tD, fix_msg_del_group E msgN grp tagNum i = .ok msgD ∧
        table_at (group_path grp) msgD.tags = some tD ∧
        (N = 1 → tag_table_get tD tagNum = none) ∧
        (N ≠ 1 → group_count tD tagNum = some (N - 1))) ∧
      (∀ i, N ≤ i → fix_msg_del_group E msgN grp tagNum i = .error .NotFound)) ∧
    (∀ (msg2 : FIXMessage) (t2 : TagTable) (c i : Nat) (msgD : FIXMessage),
      table_at (group_path grp) msg2.tags = some t2 → (t2.map (fun e => e.1)).Nodup →
      group_count t2 tagNum = some c →
      fix_msg_del_group E msg2 grp tagNum i = .ok msgD →
      i < c ∧ ∃ tD, table_at (group_path grp) msgD.tags = some tD ∧
        (c = 1 → tag_table_get tD tagNum = none) ∧
        (c ≠ 1 → group_count tD tagNum = some (c - 1))) ∧
    (∀ (msg2 : FIXMessage) (t2 : TagTable) (c : Nat) (msgA : FIXMessage) (g : FIXGroup),
      table_at (group_path grp) msg2.tags = some t2 → group_count t2 tagNum = some c →
      fix_msg_add_group E msg2 grp tagNum = .ok (msgA, g) →
      g.path = group_path grp ++ [(tagNum, c)] ∧
      ∃ tA, table_at (group_path grp) msgA.tags = some tA ∧
        group_count tA tagNum = some (c + 1)) := by
  refine ⟨?_, ?_, ?_⟩
  · obtain ⟨n, rfl⟩ : ∃ n, N = n + 1 := ⟨N - 1, by omega⟩
    obtain ⟨msgN, hs, hd, hf, hat⟩ :=
      add_groups_table E msg grp tagNum descr t hfind hgroup hparent habsent n
    have hfindN : find_field_descr E msgN grp tagNum = .ok descr := by
      rw [find_field_descr_congr E msg msgN grp tagNum hd hf, hfind]
    have hget : tag_table_get (t ++ [(tagNum, .Group (List.replicate (n + 1) []))]) tagNum
        = some (.Group (List.replicate (n + 1) [])) := tag_table_get_append t tagNum _ habsent
    have hcount : group_count (t ++ [(tagNum, .Group (List.replicate (n + 1) []))]) tagNum
        = some (n + 1) := by
      unfold group_count
      rw [hget]
      simp
    have hdel : tag_table_get
        (tag_table_del (t ++ [(tagNum, .Group (List.replicate (n + 1) []))]) tagNum).1 tagNum
        = none := by
      rw [tag_table_del_append t tagNum _ habsent]
      exact habsent
    refine ⟨msgN, _, hs, hat, hcount, ?_, ?_, ?_⟩
    · intro i
      unfold fix_msg_get_group
      rw [hfindN, hat]
      simp only [get_group_occurrence, hget]
      by_cases hi : i < n + 1
      · have : (List.replicate (n + 1) ([] : List (Nat × TagValue)))[i]? = some [] := by
          rw [List.getElem?_replicate]; simp [hi]
        rw [this]
        simp [hi]
      · have : (List.replicate (n + 1) ([] : List (Nat × TagValue)))[i]? = none := by
          rw [List.getElem?_replicate]; simp [hi]
        rw [this]
        simp [hi]
    · intro i hi
      obtain ⟨msgD, hD⟩ :=
        (fix_msg_del_group_ok E msgN grp tagNum i (n + 1) _ descr hfindN hat hdel hcount).1 hi
      obtain ⟨_, tD, hatD, h1, h2⟩ :=
        fix_msg_del_group_count E msgN grp tagNum i (n + 1) _ msgD hat hdel hcount hD
      exact ⟨msgD, tD, hD, hatD, h1, h2⟩
    · intro i hi
      exact (fix_msg_del_group_ok E msgN grp tagNum i (n + 1) _ descr hfindN hat hdel
        hcount).2 hi
  · intro msg2 t2 c i msgD hat2 hnodup hc hD
    exact fix_msg_del_group_count E msg2 grp tagNum i c t2 msgD hat2
      (tag_table_get_del t2 tagNum hnodup) hc hD
  · intro msg2 t2 c msgA g hat2 hc hA
    exact fix_msg_add_group_count E msg2 grp tagNum c t2 msgA g hat2 hc hA

/-- C18 at `group_message` and its group tag 9, for two calls: the count is 2, the indices 0
and 1 have an occurrence, and a deletion leaves the count 1. -/
theorem fix_msg_group_arity_witness :
    ∃ msgN tN, add_groups (sample_env dict_logon) group_message none 9 2 = .ok msgN ∧
      table_at (group_path none) msgN.tags = some tN ∧
      group_count tN 9 = some 2 ∧
      (∀ i, (∃ g, fix_msg_get_group (sample_env dict_logon) msgN none 9 i = .ok g) ↔ i < 2) ∧
      (∀ i, i < 2 → ∃ msgD tD,
        fix_msg_del_group (sample_env dict_logon) msgN none 9 i = .ok msgD ∧
        table_at (group_path none) msgD.tags = some tD ∧
        (2 = 1 → tag_table_get tD 9 = none) ∧
        (2 ≠ 1 → group_count tD 9 = some (2 - 1))) ∧
      (∀ i, 2 ≤ i →
        fix_msg_del_group (sample_env dict_logon) msgN none 9 i = .error .NotFound) :=
  (fix_msg_group_arity (sample_env dict_logon) group_message none 9
    (some ([2], logon_group)) group_message.tags rfl
    (fun d hd => by
      simp only [Option.some.injEq] at hd
      rw [← hd]
      decide)
    rfl rfl 2 (by decide)).1

end FixParser
